import Mathlib

/-!
Verification of the `sjtu::list` doubly-linked container (src/list.hpp).

The heap of nodes is shallowly embedded as total maps `nxt`, `prv`, `val`
over node ids (`Nat`); every pointer write in the source becomes a
`Function.update` on the corresponding map, performed in source order so
that aliasing reads see exactly what the C++ memory would hold.  A
container is its sentinel id plus its count; an iterator is the pair of
an (optional) owning container identity and an (optional) node id,
mirroring the `list*`/`node*` pair in the source.  Loops of the source
are embedded as fuel-indexed recursions; every theorem that uses one
proves that the supplied fuel suffices under the ring invariant.
-/

namespace LV

/-- Error kinds of the `exceptions.hpp` boundary: `invalid_iterator` and
`container_is_empty`. -/
inductive Err where
  | invalidIterator
  | containerIsEmpty
deriving DecidableEq, Repr

/-- The node heap. `nxt`/`prv` are every node's `next`/`prev` pointer
fields, `val` is the owned value slot (`none` models the null `T*` of the
sentinel), and `fresh` is the least never-allocated node id.  Freed nodes
keep their last-written fields: the model gives a benign meaning to reads
that would be undefined behaviour on freed memory in C++. -/
structure Mem (α : Type) where
  nxt : Nat → Nat
  prv : Nat → Nat
  val : Nat → Option α
  fresh : Nat

/-- A container instance: its sentinel node id `s` and its count `n`
(fields `s` and `n` of `sjtu::list`).  An instance is identified by its
sentinel id, since each instance owns exactly one sentinel for its whole
lifetime and sentinels are never shared. -/
structure Cont where
  s : Nat
  n : Nat
deriving DecidableEq, Repr

/-- An iterator or const-iterator: the owning container (`none` models a
null `list*`) and the denoted node (`none` models a null `node*`).  The
owner is identified by its sentinel id. -/
structure Iter where
  owner : Option Nat
  p : Option Nat
deriving DecidableEq, Repr

/-- Write the `next` field of node `a`. -/
def setNxt (m : Mem α) (a b : Nat) : Mem α := { m with nxt := Function.update m.nxt a b }

/-- Write the `prev` field of node `a`. -/
def setPrv (m : Mem α) (a b : Nat) : Mem α := { m with prv := Function.update m.prv a b }

/-- Read the value stored at node `x` (`*(x->val)`); `default` stands for
the undefined-behaviour read of a valueless node, which never happens
under the invariant. -/
def getv [Inhabited α] (m : Mem α) (x : Nat) : α := (m.val x).getD default

/-- `list<T>::insert(node* pos, node* cur)` (src/list.hpp lines 33-40):
link `cur` before `pos`; the four pointer writes in source order, each
read taken from the heap produced by the preceding writes. -/
def insertNode (m : Mem α) (pos cur : Nat) : Mem α :=
  let m1 := setNxt m cur pos
  let m2 := setPrv m1 cur (m1.prv pos)
  let m3 := setNxt m2 (m2.prv pos) cur
  setPrv m3 pos cur

/-- `list<T>::erase(node* pos)` (src/list.hpp lines 41-46): unlink `pos`
without destroying it; two pointer writes in source order. -/
def eraseNode (m : Mem α) (pos : Nat) : Mem α :=
  let m1 := setNxt m (m.prv pos) (m.nxt pos)
  setPrv m1 (m1.nxt pos) (m1.prv pos)

/-- One forward link of the ring: `m.nxt a` is `b` and `m.prv b` is `a`. -/
def linkRel (m : Mem α) (a b : Nat) : Prop := m.nxt a = b ∧ m.prv b = a

instance (m : Mem α) : DecidableRel (linkRel m) := fun a b =>
  inferInstanceAs (Decidable (m.nxt a = b ∧ m.prv b = a))

/-- The cyclic node sequence of a ring: sentinel, data nodes, sentinel. -/
def ringL (s : Nat) (l : List Nat) : List Nat := s :: l ++ [s]

/-- The ring rooted at sentinel `s` holds exactly the data nodes `l`, in
order: consecutive nodes of `s :: l ++ [s]` are doubly linked, and all
the node ids are distinct. -/
def isRing (m : Mem α) (s : Nat) (l : List Nat) : Prop :=
  (s :: l).Nodup ∧ List.Chain' (linkRel m) (ringL s l)

/-- A structurally recursive decision procedure for ring chains (the
library's `Chain'` instance is tactic-built and does not reduce in the
kernel). -/
def decChain' (m : Mem α) : (L : List Nat) → Decidable (List.Chain' (linkRel m) L)
  | [] => isTrue List.chain'_nil
  | [a] => isTrue (List.chain'_singleton a)
  | a :: b :: L =>
      match decChain' m (b :: L), Nat.decEq (m.nxt a) b, Nat.decEq (m.prv b) a with
      | isTrue h, isTrue h1, isTrue h2 => isTrue (List.chain'_cons.mpr ⟨⟨h1, h2⟩, h⟩)
      | isFalse h, _, _ => isFalse (fun hc => h (List.chain'_cons.mp hc).2)
      | _, isFalse h1, _ => isFalse (fun hc => h1 (List.chain'_cons.mp hc).1.1)
      | _, _, isFalse h2 => isFalse (fun hc => h2 (List.chain'_cons.mp hc).1.2)

instance (m : Mem α) (s : Nat) (l : List Nat) : Decidable (isRing m s l) :=
  @instDecidableAnd _ _ (List.nodupDecidable _) (decChain' m (ringL s l))

/-- The full state invariant of one container: its ring is `l`, the count
matches, every ring node was allocated, the sentinel's value slot is
empty and every data node's value slot is populated. -/
def ContInv (m : Mem α) (c : Cont) (l : List Nat) : Prop :=
  isRing m c.s l ∧ c.n = l.length ∧ (∀ x ∈ c.s :: l, x < m.fresh) ∧
    (m.val c.s).isNone ∧ (∀ x ∈ l, (m.val x).isSome)

instance (m : Mem α) (c : Cont) (l : List Nat) : Decidable (ContInv m c l) :=
  inferInstanceAs (Decidable (isRing m c.s l ∧ c.n = l.length ∧ (∀ x ∈ c.s :: l, x < m.fresh) ∧
    (m.val c.s).isNone ∧ (∀ x ∈ l, (m.val x).isSome)))

/-- Two containers living in the same heap with disjoint node sets. -/
def ContInv2 (m : Mem α) (c1 c2 : Cont) (l1 l2 : List Nat) : Prop :=
  ContInv m c1 l1 ∧ ContInv m c2 l2 ∧ ∀ x ∈ c1.s :: l1, x ∉ c2.s :: l2

instance (m : Mem α) (c1 c2 : Cont) (l1 l2 : List Nat) : Decidable (ContInv2 m c1 c2 l1 l2) :=
  inferInstanceAs (Decidable (ContInv m c1 l1 ∧ ContInv m c2 l2 ∧ ∀ x ∈ c1.s :: l1, x ∉ c2.s :: l2))

/-! ### Iterator operations (src/list.hpp lines 50-153)

Each operation first runs the validation of the source verbatim
(`owner == nullptr || p == nullptr || ...`) and then performs the pointer
move.  `operator--` reads `owner->n`, so the decrement operations take
the owner's current count as an argument; theorems about them require
the iterator's owner to be the container whose count is passed. -/

/-- `iterator::operator++()` (lines 65-69): fails unless the iterator has
an owner, a node, and the node is not the owner's sentinel; then moves to
the next node. -/
def itIncr (m : Mem α) (it : Iter) : Except Err Iter :=
  match it.owner, it.p with
  | some ow, some p =>
      if p = ow then .error .invalidIterator else .ok ⟨some ow, some (m.nxt p)⟩
  | _, _ => .error .invalidIterator

/-- `iterator::operator++(int)` (lines 59-64): same checks; returns the
old iterator together with the advanced one. -/
def itIncrPost (m : Mem α) (it : Iter) : Except Err (Iter × Iter) :=
  match it.owner, it.p with
  | some ow, some p =>
      if p = ow then .error .invalidIterator else .ok (it, ⟨some ow, some (m.nxt p)⟩)
  | _, _ => .error .invalidIterator

/-- `iterator::operator--()` (lines 79-88): fails on a null owner or
node; at the sentinel it additionally fails when the owner's count `cn`
is zero, otherwise it wraps to the last node; at a data node it moves to
the previous node. -/
def itDecr (m : Mem α) (cn : Nat) (it : Iter) : Except Err Iter :=
  match it.owner, it.p with
  | some ow, some p =>
      if p = ow then
        if cn = 0 then .error .invalidIterator
        else .ok ⟨some ow, some (m.prv ow)⟩
      else .ok ⟨some ow, some (m.prv p)⟩
  | _, _ => .error .invalidIterator

/-- `iterator::operator--(int)` (lines 70-78): same checks; returns the
old iterator together with the moved one. -/
def itDecrPost (m : Mem α) (cn : Nat) (it : Iter) : Except Err (Iter × Iter) :=
  match it.owner, it.p with
  | some ow, some p =>
      if p = ow then
        if cn = 0 then .error .invalidIterator
        else .ok (it, ⟨some ow, some (m.prv ow)⟩)
      else .ok (it, ⟨some ow, some (m.prv p)⟩)
  | _, _ => .error .invalidIterator

/-- `iterator::operator*()` (lines 89-92): fails on a null owner or node,
on the owner's sentinel, or on a node with an empty value slot. -/
def itDeref (m : Mem α) (it : Iter) : Except Err α :=
  match it.owner, it.p with
  | some ow, some p =>
      if p = ow then .error .invalidIterator
      else
        match m.val p with
        | none => .error .invalidIterator
        | some v => .ok v
  | _, _ => .error .invalidIterator

/-- `const_iterator::operator++()` (lines 117-121); the const iterator
repeats the mutable iterator's code verbatim. -/
def citIncr (m : Mem α) (it : Iter) : Except Err Iter :=
  match it.owner, it.p with
  | some ow, some p =>
      if p = ow then .error .invalidIterator else .ok ⟨some ow, some (m.nxt p)⟩
  | _, _ => .error .invalidIterator

/-- `const_iterator::operator++(int)` (lines 111-116). -/
def citIncrPost (m : Mem α) (it : Iter) : Except Err (Iter × Iter) :=
  match it.owner, it.p with
  | some ow, some p =>
      if p = ow then .error .invalidIterator else .ok (it, ⟨some ow, some (m.nxt p)⟩)
  | _, _ => .error .invalidIterator

/-- `const_iterator::operator--()` (lines 131-140). -/
def citDecr (m : Mem α) (cn : Nat) (it : Iter) : Except Err Iter :=
  match it.owner, it.p with
  | some ow, some p =>
      if p = ow then
        if cn = 0 then .error .invalidIterator
        else .ok ⟨some ow, some (m.prv ow)⟩
      else .ok ⟨some ow, some (m.prv p)⟩
  | _, _ => .error .invalidIterator

/-- `const_iterator::operator--(int)` (lines 122-130). -/
def citDecrPost (m : Mem α) (cn : Nat) (it : Iter) : Except Err (Iter × Iter) :=
  match it.owner, it.p with
  | some ow, some p =>
      if p = ow then
        if cn = 0 then .error .invalidIterator
        else .ok (it, ⟨some ow, some (m.prv ow)⟩)
      else .ok (it, ⟨some ow, some (m.prv p)⟩)
  | _, _ => .error .invalidIterator

/-- `const_iterator::operator*()` (lines 141-144). -/
def citDeref (m : Mem α) (it : Iter) : Except Err α :=
  match it.owner, it.p with
  | some ow, some p =>
      if p = ow then .error .invalidIterator
      else
        match m.val p with
        | none => .error .invalidIterator
        | some v => .ok v
  | _, _ => .error .invalidIterator

/-! ### Construction and the public mutation API (lines 155-220) -/

/-- A heap with nothing allocated yet. -/
def memEmpty (α : Type) : Mem α := ⟨fun _ => 0, fun _ => 0, fun _ => none, 0⟩

/-- `list()` (line 155): allocate a fresh sentinel whose `prev` and
`next` point to itself (the `node()` constructor) and whose value slot is
empty; count starts at zero. -/
def mkCont (m : Mem α) : Mem α × Cont :=
  let s := m.fresh
  (setPrv (setNxt
    { m with val := Function.update m.val s none, fresh := m.fresh + 1 } s s) s s,
   ⟨s, 0⟩)

/-- `begin()` (line 177). -/
def beginIt (m : Mem α) (c : Cont) : Iter := ⟨some c.s, some (m.nxt c.s)⟩

/-- `end()` (line 179). -/
def endIt (c : Cont) : Iter := ⟨some c.s, some c.s⟩

/-- `insert(iterator pos, const T& value)` (lines 195-201): rejects a
foreign or ownerless `pos` and a null node pointer; otherwise allocates a
node holding the value, links it before `pos`, bumps the count, and
returns an iterator to the new node. -/
def insertIt (m : Mem α) (c : Cont) (pos : Iter) (value : α) :
    Except Err (Iter × Mem α × Cont) :=
  match pos.owner, pos.p with
  | some ow, some p =>
      if ow ≠ c.s then .error .invalidIterator
      else
        let cur := m.fresh
        let m1 : Mem α :=
          { m with val := Function.update m.val cur (some value), fresh := m.fresh + 1 }
        .ok (⟨some c.s, some cur⟩, insertNode m1 p cur, { c with n := c.n + 1 })
  | _, _ => .error .invalidIterator

/-- `erase(iterator pos)` (lines 202-210): the emptiness check comes
first; then `pos` must have this container as owner, a non-null node, and
not the sentinel; the node is unlinked and destroyed, the count drops by
one, and an iterator to the node that followed is returned. -/
def eraseIt (m : Mem α) (c : Cont) (pos : Iter) : Except Err (Iter × Mem α × Cont) :=
  if c.n = 0 then .error .containerIsEmpty
  else
    match pos.owner, pos.p with
    | some ow, some p =>
        if ow ≠ c.s then .error .invalidIterator
        else if p = c.s then .error .invalidIterator
        else
          let nextp := m.nxt p
          .ok (⟨some c.s, some nextp⟩, eraseNode m p, { c with n := c.n - 1 })
    | _, _ => .error .invalidIterator

/-- `push_back(value)` (line 211): `insert(iterator(this, s), value)`;
the insert can never fail here, so the error branch is dead. -/
def pushBack (m : Mem α) (c : Cont) (value : α) : Mem α × Cont :=
  match insertIt m c ⟨some c.s, some c.s⟩ value with
  | .ok (_, m', c') => (m', c')
  | .error _ => (m, c)

/-- `push_front(value)` (line 212): `insert(iterator(this, s->next), value)`. -/
def pushFront (m : Mem α) (c : Cont) (value : α) : Mem α × Cont :=
  match insertIt m c ⟨some c.s, some (m.nxt c.s)⟩ value with
  | .ok (_, m', c') => (m', c')
  | .error _ => (m, c)

/-- `pop_back()` (lines 213-216): fails on an empty container, otherwise
erases at `iterator(this, s->prev)`. -/
def popBack (m : Mem α) (c : Cont) : Except Err (Mem α × Cont) :=
  if c.n = 0 then .error .containerIsEmpty
  else
    match eraseIt m c ⟨some c.s, some (m.prv c.s)⟩ with
    | .ok (_, m', c') => .ok (m', c')
    | .error e => .error e

/-- `pop_front()` (lines 217-220): fails on an empty container, otherwise
erases at `iterator(this, s->next)`. -/
def popFront (m : Mem α) (c : Cont) : Except Err (Mem α × Cont) :=
  if c.n = 0 then .error .containerIsEmpty
  else
    match eraseIt m c ⟨some c.s, some (m.nxt c.s)⟩ with
    | .ok (_, m', c') => .ok (m', c')
    | .error e => .error e

/-- `clear()` (lines 184-194): destroy every data node (their freed
storage keeps its bits in the model) and reset the ring to the sentinel
alone; `s->next = s->prev = s` assigns `prev` first. -/
def clearOp (m : Mem α) (c : Cont) : Mem α × Cont :=
  if c.n = 0 then (setNxt (setPrv m c.s c.s) c.s c.s, c)
  else (setNxt (setPrv m c.s c.s) c.s c.s, { c with n := 0 })

/-- Forward traversal of at most `fuel` data nodes, following `next`
pointers from `x` until the stop node: the loop pattern
`for (node* x = ...; x != s; x = x->next)` of the source. -/
def traverseF (m : Mem α) (stop : Nat) : Nat → Nat → List Nat
  | 0, _ => []
  | fuel + 1, x => if x = stop then [] else x :: traverseF m stop fuel (m.nxt x)

/-- The data node ids of container `c`, read off the heap by forward
traversal (the count bounds the walk). -/
def ringIds (m : Mem α) (c : Cont) : List Nat := traverseF m c.s c.n (m.nxt c.s)

/-- The value sequence of container `c`, as observed by forward
traversal. -/
def valSeq [Inhabited α] (m : Mem α) (c : Cont) : List α := (ringIds m c).map (getv m)

/-- `list(const list& other)` (lines 156-158): a fresh sentinel, then
`push_back(*(x->val))` for each data node of `other` in forward order.
`push_back` never touches `other`'s nodes, so reading all the values
up front from the entry heap coincides with the interleaved reads of the
source loop. -/
def copyCont [Inhabited α] (m : Mem α) (src : Cont) : Mem α × Cont :=
  let vs := (traverseF m src.s src.n (m.nxt src.s)).map (getv m)
  vs.foldl (fun p v => pushBack p.1 p.2 v) (mkCont m)

/-- `operator=(const list& other)` (lines 163-168): a no-op on
self-assignment, otherwise clear the destination and `push_back` each of
the source's values in order. -/
def assignCont [Inhabited α] (m : Mem α) (dst src : Cont) : Mem α × Cont :=
  if dst.s = src.s then (m, dst)
  else
    let vs := (traverseF m src.s src.n (m.nxt src.s)).map (getv m)
    vs.foldl (fun p v => pushBack p.1 p.2 v) (clearOp m dst)

/-- Build a container holding the given values, by `list()` followed by
`push_back` for each value in order. -/
def mkList (vs : List α) (m : Mem α) : Mem α × Cont :=
  vs.foldl (fun p v => pushBack p.1 p.2 v) (mkCont m)

/-- An iterator is valid for container `c` when it has `c` as owner and
denotes either the end position or a live data node of `c`'s current
ring (spec section 4.4). -/
def validIt (m : Mem α) (c : Cont) (it : Iter) : Prop :=
  it.owner = some c.s ∧ (it.p = some c.s ∨ ∃ x ∈ ringIds m c, it.p = some x)

instance (m : Mem α) (c : Cont) (it : Iter) : Decidable (validIt m c it) :=
  inferInstanceAs (Decidable (it.owner = some c.s ∧
    (it.p = some c.s ∨ ∃ x ∈ ringIds m c, it.p = some x)))

/-! ### `sort()` (lines 221-251)

The source loads the node pointers into an array, runs an in-place
bottom-up merge sort over the array, and relinks the ring along the
sorted array.  The embedding runs the same bottom-up merge sort on the
list of node ids: `mergeTwo` is the three `while` loops that merge
`arr[l..mid)` with `arr[mid..r)` (taking from the left when
`!(right < left)`, line 235), `passChunks` is the inner `for` over chunk
pairs (the `take`s perform the `min(_, m)` clamping of `mid` and `r`),
and `widthLoop` is the outer `for` doubling `width` while it is below
the element count. -/

/-- Merge two runs, taking from the left run when `le left right`
(source: when `!(*right < *left)`). -/
def mergeTwo (le : β → β → Bool) : List β → List β → List β
  | [], ys => ys
  | x :: xs, [] => x :: xs
  | x :: xs, y :: ys =>
      if le x y then x :: mergeTwo le xs (y :: ys) else y :: mergeTwo le (x :: xs) ys
termination_by xs ys => xs.length + ys.length

/-- One pass of width `w`: merge adjacent `w`-chunks across the whole
array.  One unit of fuel per chunk pair; `l.length` units suffice. -/
def passChunks (le : β → β → Bool) (w : Nat) : Nat → List β → List β
  | 0, l => l
  | fuel + 1, l =>
      if l.isEmpty then []
      else mergeTwo le (l.take w) ((l.drop w).take w) ++ passChunks le w fuel (l.drop (w + w))

/-- The outer loop: run passes of width `1, 2, 4, ...` while the width is
below `mlen`.  One unit of fuel per pass; `mlen` units suffice. -/
def widthLoop (le : β → β → Bool) (mlen : Nat) : Nat → Nat → List β → List β
  | 0, _, l => l
  | fuel + 1, w, l =>
      if w < mlen then widthLoop le mlen fuel (w + w) (passChunks le w l.length l) else l

/-- The bottom-up merge sort of lines 229-245, on the array of node ids. -/
def buSort (le : β → β → Bool) (l : List β) : List β := widthLoop le l.length l.length 1 l

/-- The relinking pass of lines 246-249: walking the sorted array, set
`p->next = x; x->prev = p` for each consecutive pair starting at the
sentinel, and close the ring back at the sentinel. -/
def relinkAux (s : Nat) : Mem α → Nat → List Nat → Mem α
  | m, p, [] => setPrv (setNxt m p s) s p
  | m, p, x :: xs => relinkAux s (setPrv (setNxt m p x) x p) x xs

/-- `sort()` (lines 221-251): a no-op for `n <= 1`; otherwise sort the
traversed node ids by value (comparisons read the heap, which the array
sort does not modify) and relink the ring along the sorted array. -/
def sortOp [Inhabited α] (lt : α → α → Bool) (m : Mem α) (c : Cont) : Mem α × Cont :=
  if c.n ≤ 1 then (m, c)
  else
    let arr := traverseF m c.s c.n (m.nxt c.s)
    let arr2 := buSort (fun i j => !(lt (getv m j) (getv m i))) arr
    (relinkAux c.s m c.s arr2, c)

/-! ### `merge(other)` (lines 252-294) -/

/-- The advance loop of line 265:
`while (a != s && !(*b->val < *a->val)) a = a->next;` where `vb` is the
value at the current head of `other`.  One unit of fuel per step; the
remaining length of this ring plus one suffices. -/
def advA [Inhabited α] (lt : α → α → Bool) (m : Mem α) (s1 : Nat) (vb : α) :
    Nat → Nat → Nat
  | 0, a => a
  | fuel + 1, a =>
      if a = s1 then a
      else if !(lt vb (getv m a)) then advA lt m s1 vb fuel (m.nxt a) else a

/-- The block-taking loop of line 280:
`while (b != other.s && *b->val < *a->val) { b = b->next; ++cnt; }`;
returns the final `b` and the count. -/
def takeB [Inhabited α] (lt : α → α → Bool) (m : Mem α) (s2 : Nat) (va : α) :
    Nat → Nat → Nat → Nat × Nat
  | 0, b, cnt => (b, cnt)
  | fuel + 1, b, cnt =>
      if b = s2 then (b, cnt)
      else if lt (getv m b) va then takeB lt m s2 va fuel (m.nxt b) (cnt + 1) else (b, cnt)

/-- The write sequence of lines 268-275 (splice the whole remainder
`[b .. other.s->prev]` of `other` at the end of this ring), statement
for statement: `b->prev->next = b_end->next; b_end->next->prev =
b->prev; other.s->next = other.s; other.s->prev = other.s;
s->prev->next = b; b->prev = s->prev; b_end->next = s; s->prev =
b_end;` where `b_end = other.s->prev`. -/
def spliceEndHeap (m : Mem α) (s1 s2 b : Nat) : Mem α :=
  let bEnd := m.prv s2
  let m1 := setNxt m (m.prv b) (m.nxt bEnd)
  let m2 := setPrv m1 (m1.nxt bEnd) (m1.prv b)
  let m3 := setNxt m2 s2 s2
  let m4 := setPrv m3 s2 s2
  let m5 := setNxt m4 (m4.prv s1) b
  let m6 := setPrv m5 b (m5.prv s1)
  let m7 := setNxt m6 bEnd s1
  setPrv m7 s1 bEnd

/-- The write sequence of lines 283-289 (detach the block
`[start .. endblk]` from `other` and link it before `a`), statement for
statement: `start->prev->next = endblk->next; endblk->next->prev =
start->prev; a->prev->next = start; start->prev = a->prev;
endblk->next = a; a->prev = endblk;`. -/
def spliceBlockHeap (m : Mem α) (a start endblk : Nat) : Mem α :=
  let m1 := setNxt m (m.prv start) (m.nxt endblk)
  let m2 := setPrv m1 (m1.nxt endblk) (m1.prv start)
  let m3 := setNxt m2 (m2.prv a) start
  let m4 := setPrv m3 start (m3.prv a)
  let m5 := setNxt m4 endblk a
  setPrv m5 a endblk

/-- The outer `while (b != other.s)` loop of lines 263-293.  Each
iteration advances `a`, then either splices the whole remainder of
`other` at the end of this ring and stops (lines 266-276), or detaches
the maximal block of `other`-nodes below `*a->val` and links it before
`a` (lines 277-292); the heap writes of each branch are those of
`spliceEndHeap` and `spliceBlockHeap`.  One unit of fuel per iteration;
`other`'s count plus one suffices since every iteration removes at
least one node from `other`. -/
def mergeLoop [Inhabited α] (lt : α → α → Bool) :
    Nat → Mem α → Cont → Cont → Nat → Nat → Mem α × Cont × Cont
  | 0, m, c1, c2, _, _ => (m, c1, c2)
  | fuel + 1, m, c1, c2, a0, b =>
      if b = c2.s then (m, c1, c2)
      else
        let a := advA lt m c1.s (getv m b) (c1.n + 1) a0
        if a = c1.s then
          (spliceEndHeap m c1.s c2.s b, { c1 with n := c1.n + c2.n },
            { c2 with n := 0 })
        else
          let bc := takeB lt m c2.s (getv m a) (c2.n + 1) b 0
          let endblk := if bc.1 = c2.s then m.prv c2.s else m.prv bc.1
          mergeLoop lt fuel (spliceBlockHeap m a b endblk)
            { c1 with n := c1.n + bc.2 } { c2 with n := c2.n - bc.2 } a bc.1

/-- The write sequence of lines 256-259 (this container is empty: take
over `other`'s whole ring), statement for statement: `s->next =
other.s->next; s->prev = other.s->prev; s->next->prev = s;
s->prev->next = s; other.s->next = other.s; other.s->prev =
other.s;`. -/
def spliceAllHeap (m : Mem α) (s1 s2 : Nat) : Mem α :=
  let m1 := setNxt m s1 (m.nxt s2)
  let m2 := setPrv m1 s1 (m1.prv s2)
  let m3 := setPrv m2 (m2.nxt s1) s1
  let m4 := setNxt m3 (m3.prv s1) s1
  let m5 := setNxt m4 s2 s2
  setPrv m5 s2 s2

/-- `merge(list& other)` (lines 252-294): a no-op on self-merge (the
`this == &other` address test, rendered as sentinel identity, since an
instance is identified by its unique sentinel) and on an empty `other`;
when this container is empty, the whole ring of `other` is moved across
(lines 254-261); otherwise the splicing loop runs. -/
def mergeOp [Inhabited α] (lt : α → α → Bool) (m : Mem α) (c1 c2 : Cont) :
    Mem α × Cont × Cont :=
  if c1.s = c2.s ∨ c2.n = 0 then (m, c1, c2)
  else if c1.n = 0 then
    (spliceAllHeap m c1.s c2.s, { c1 with n := c2.n }, { c2 with n := 0 })
  else mergeLoop lt (c2.n + 1) m c1 c2 (m.nxt c1.s) (m.nxt c2.s)

/-! ### `reverse()` (lines 295-299) -/

/-- The `do { ... } while (cur != s)` body: swap `cur`'s `next` and
`prev` and step to the old `next`; stop once back at the sentinel.  One
unit of fuel per visited node; the count plus one suffices. -/
def revLoop (m : Mem α) (s : Nat) : Nat → Nat → Mem α
  | 0, _ => m
  | fuel + 1, cur =>
      let t := m.nxt cur
      let m' := setPrv (setNxt m cur (m.prv cur)) cur t
      if t = s then m' else revLoop m' s fuel t

/-- `reverse()` (lines 295-299). -/
def revOp (m : Mem α) (c : Cont) : Mem α × Cont := (revLoop m c.s (c.n + 1) c.s, c)

/-! ### `unique()` (lines 300-310) -/

/-- The inner deletion loop of lines 304-307: starting from
`nx = cur->next`, delete nodes while they are non-sentinel and their
value equals `cur`'s value (compared as `*(cur->val) == *(nx->val)`);
returns the heap, the node where the scan stopped, and how many nodes
were deleted. -/
def uniqueInner [Inhabited α] (beq : α → α → Bool) (m : Mem α) (s : Nat) (vcur : α) :
    Nat → Nat → Mem α × Nat × Nat
  | 0, nx => (m, nx, 0)
  | fuel + 1, nx =>
      if nx = s then (m, nx, 0)
      else if beq vcur (getv m nx) then
        let nx' := m.nxt nx
        let r := uniqueInner beq (eraseNode m nx) s vcur fuel nx'
        (r.1, r.2.1, r.2.2 + 1)
      else (m, nx, 0)

/-- The outer loop of lines 302-309: walk `cur` over the surviving
nodes, running the inner deletion loop after each; returns the heap and
the total number of deleted nodes. -/
def uniqueOuter [Inhabited α] (beq : α → α → Bool) (s : Nat) :
    Nat → Mem α → Nat → Mem α × Nat
  | 0, m, _ => (m, 0)
  | fuel + 1, m, cur =>
      if cur = s then (m, 0)
      else
        let r := uniqueInner beq m s (getv m cur) (fuel + 1) (m.nxt cur)
        let r2 := uniqueOuter beq s fuel r.1 r.2.1
        (r2.1, r2.2 + r.2.2)

/-- `unique()` (lines 300-310): a no-op for `n <= 1`; otherwise run the
deletion loops and subtract the number of deleted nodes from the count
(the source decrements `n` once per deletion). -/
def uniqueOp [Inhabited α] (beq : α → α → Bool) (m : Mem α) (c : Cont) : Mem α × Cont :=
  if c.n ≤ 1 then (m, c)
  else
    let r := uniqueOuter beq c.s c.n m (m.nxt c.s)
    (r.1, { c with n := c.n - r.2 })

/-- Reference description of `unique()` on a sequence of node ids: keep
the first node of every maximal run of consecutive nodes whose values
equal the run head's value under `beq`. -/
def uniqRef (beq : α → α → Bool) (v : Nat → α) : List Nat → List Nat
  | [] => []
  | x :: xs => x :: uniqRef beq v (xs.dropWhile fun y => beq (v x) (v y))
termination_by l => l.length
decreasing_by
  simp only [List.length_cons]
  exact Nat.lt_succ_of_le (List.dropWhile_suffix _).sublist.length_le

/-- The same description at the level of value sequences: keep the first
value of each maximal run of consecutive values equal (under `beq`) to
the run head. -/
def uniqRefV (beq : α → α → Bool) : List α → List α
  | [] => []
  | x :: xs => x :: uniqRefV beq (xs.dropWhile fun y => beq x y)
termination_by l => l.length
decreasing_by
  simp only [List.length_cons]
  exact Nat.lt_succ_of_le (List.dropWhile_suffix _).sublist.length_le

/-- A strict weak order given as a boolean test: irreflexive, transitive
and negatively transitive.  This is the capability the spec assumes of
`operator<` for `sort` and `merge` ("totally ordered via `<`"). -/
def SWO (lt : α → α → Bool) : Prop :=
  (∀ a, lt a a = false) ∧
  (∀ a b c, lt a b = true → lt b c = true → lt a c = true) ∧
  (∀ a b c, lt a b = false → lt b c = false → lt a c = false)

/-- Invariant of the bottom-up merge sort: the working array splits into
blocks, each an `R`-sorted permutation of the corresponding `w`-aligned
chunk of the original array. -/
inductive ChunkAligned (R : β → β → Prop) (w : Nat) : List β → List β → Prop where
  | nil : ChunkAligned R w [] []
  | cons : ∀ {c rest orig}, orig ≠ [] → List.Perm c (orig.take w) → c.Pairwise R →
      ChunkAligned R w rest (orig.drop w) → ChunkAligned R w (c ++ rest) orig

/-- A two-element sorted list `[false, true]` built in an empty heap
(sentinel 0, data nodes 1 and 2). -/
def mergeDemoA : Mem Bool × Cont := mkList [false, true] (memEmpty Bool)

/-- A second two-element sorted list `[false, true]` built in the same
heap (sentinel 3, data nodes 4 and 5). -/
def mergeDemoB : Mem Bool × Cont := mkList [false, true] mergeDemoA.1

/-! ### Toolkit: chains and ring surgery -/

@[simp] theorem setNxt_nxt (m : Mem α) (a b x : Nat) :
    (setNxt m a b).nxt x = if x = a then b else m.nxt x := by
  simp [setNxt, Function.update]

@[simp] theorem setNxt_prv (m : Mem α) (a b x : Nat) : (setNxt m a b).prv x = m.prv x := rfl

@[simp] theorem setNxt_val (m : Mem α) (a b : Nat) : (setNxt m a b).val = m.val := rfl

@[simp] theorem setNxt_fresh (m : Mem α) (a b : Nat) : (setNxt m a b).fresh = m.fresh := rfl

@[simp] theorem setPrv_prv (m : Mem α) (a b x : Nat) :
    (setPrv m a b).prv x = if x = a then b else m.prv x := by
  simp [setPrv, Function.update]

@[simp] theorem setPrv_nxt (m : Mem α) (a b x : Nat) : (setPrv m a b).nxt x = m.nxt x := rfl

@[simp] theorem setPrv_val (m : Mem α) (a b : Nat) : (setPrv m a b).val = m.val := rfl

@[simp] theorem setPrv_fresh (m : Mem α) (a b : Nat) : (setPrv m a b).fresh = m.fresh := rfl


theorem getLast?_cons_getLastD (a : Nat) (l : List Nat) :
    (a :: l).getLast? = some (l.getLastD a) := by
  induction l generalizing a with
  | nil => rfl
  | cons x xs ih => rw [List.getLast?_cons_cons, ih]; cases xs <;> simp [List.getLastD]

theorem head?_append_singleton (w : List Nat) (s : Nat) :
    (w ++ [s]).head? = some (w.headD s) := by
  cases w <;> simp

/-- Transport a chain along an implication that may use membership of the
left element anywhere in the list and of the right element in its tail. -/
theorem chain'_mem_congr {R S : Nat → Nat → Prop} :
    ∀ {L : List Nat}, (∀ a ∈ L, ∀ b ∈ L.tail, R a b → S a b) →
      List.Chain' R L → List.Chain' S L
  | [], _, _ => List.chain'_nil
  | [a], _, _ => List.chain'_singleton a
  | a :: b :: L, h, hc => by
      rw [List.chain'_cons] at hc ⊢
      refine ⟨h a (by simp) b (by simp) hc.1, chain'_mem_congr ?_ hc.2⟩
      intro x hx y hy hr
      exact h x (List.mem_cons_of_mem a hx) y (List.mem_cons_of_mem b hy) hr


theorem mem_of_mem_ringL {s x : Nat} {l : List Nat} (h : x ∈ ringL s l) : x ∈ s :: l := by
  simp only [ringL, List.cons_append, List.mem_cons, List.mem_append,
    List.mem_singleton] at h ⊢
  tauto

/-- A ring predicate only reads `nxt` and `prv` at its own nodes. -/
theorem isRing_congr {m m' : Mem α} {s : Nat} {l : List Nat}
    (h : ∀ x ∈ s :: l, m'.nxt x = m.nxt x ∧ m'.prv x = m.prv x)
    (hr : isRing m s l) : isRing m' s l := by
  refine ⟨hr.1, chain'_mem_congr (fun a ha b hb hab => ?_) hr.2⟩
  have ha' := mem_of_mem_ringL ha
  have hb' := mem_of_mem_ringL (List.mem_of_mem_tail hb)
  exact ⟨(h a ha').1.trans hab.1, (h b hb').2.trans hab.2⟩

/-- The ring chain around a chosen data node, regrouped. -/
theorem ringL_decomp (s x : Nat) (u w : List Nat) :
    ringL s (u ++ x :: w) = (s :: u) ++ (x :: (w ++ [s])) := by
  simp [ringL]

/-- Adjacency around a data node: its `prev` is the node before it (or
the sentinel) and its `next` is the node after it (or the sentinel). -/
theorem ring_adj {m : Mem α} {s : Nat} {u w : List Nat} {x : Nat}
    (hr : isRing m s (u ++ x :: w)) :
    linkRel m (u.getLastD s) x ∧ linkRel m x (w.headD s) := by
  have hc := hr.2
  rw [ringL_decomp, List.chain'_append] at hc
  obtain ⟨h1, h2, hbr⟩ := hc
  rw [List.chain'_cons'] at h2
  constructor
  · exact hbr _ (by rw [getLast?_cons_getLastD]; rfl) x rfl
  · exact h2.1 _ (by rw [head?_append_singleton]; rfl)

/-- Adjacency at the sentinel: its `next` is the first data node and its
`prev` is the last (itself when the ring is empty). -/
theorem ring_sentinel {m : Mem α} {s : Nat} {l : List Nat} (hr : isRing m s l) :
    linkRel m s (l.headD s) ∧ linkRel m (l.getLastD s) s := by
  have hc := hr.2
  constructor
  · have he : ringL s l = s :: (l ++ [s]) := by simp [ringL]
    rw [he, List.chain'_cons'] at hc
    exact hc.1 _ (by rw [head?_append_singleton]; rfl)
  · have he : ringL s l = (s :: l) ++ [s] := by simp [ringL]
    rw [he, List.chain'_append] at hc
    exact hc.2.2 _ (by rw [getLast?_cons_getLastD]; rfl) s rfl

/-- Pointwise effect of `eraseNode` on `next` fields. -/
theorem eraseNode_nxt (m : Mem α) (x q : Nat) :
    (eraseNode m x).nxt q = if q = m.prv x then m.nxt x else m.nxt q := by
  simp [eraseNode]

/-- Pointwise effect of `eraseNode` on `prev` fields. -/
theorem eraseNode_prv (m : Mem α) (x q : Nat) :
    (eraseNode m x).prv q = if q = m.nxt x then m.prv x else m.prv q := by
  simp only [eraseNode, setPrv_prv, setNxt_prv, setNxt_nxt, ite_self]

@[simp] theorem eraseNode_val (m : Mem α) (x : Nat) : (eraseNode m x).val = m.val := rfl

@[simp] theorem eraseNode_fresh (m : Mem α) (x : Nat) : (eraseNode m x).fresh = m.fresh := rfl

/-- A link not involving the unlinked node survives `eraseNode`, given
the ring facts at `x`. -/
theorem linkRel_eraseNode {m : Mem α} {x a b : Nat}
    (h1 : m.nxt (m.prv x) = x) (h2 : m.prv (m.nxt x) = x)
    (hab : linkRel m a b) (ha : a ≠ x) (hb : b ≠ x) :
    linkRel (eraseNode m x) a b := by
  obtain ⟨hn, hp⟩ := hab
  constructor
  · rw [eraseNode_nxt]
    split
    · next heq => rw [heq, h1] at hn; exact absurd hn.symm hb
    · exact hn
  · rw [eraseNode_prv]
    split
    · next heq => rw [heq, h2] at hp; exact absurd hp.symm ha
    · exact hp

/-- Unlinking a data node removes exactly it from the ring. -/
theorem isRing_eraseNode {m : Mem α} {s : Nat} {u w : List Nat} {x : Nat}
    (hr : isRing m s (u ++ x :: w)) : isRing (eraseNode m x) s (u ++ w) := by
  obtain ⟨hadj1, hadj2⟩ := ring_adj hr
  have hnd := hr.1
  obtain ⟨hsmem, hnd2⟩ := List.nodup_cons.mp hnd
  have hsu : s ∉ u := fun h => hsmem (List.mem_append_left _ h)
  have hsxw : s ∉ x :: w := fun h => hsmem (List.mem_append_right _ h)
  have hsx : s ≠ x := fun h => hsxw (by rw [h]; exact List.mem_cons_self x w)
  have hsw : s ∉ w := fun h => hsxw (List.mem_cons_of_mem _ h)
  have hxu : x ∉ u := by
    rw [List.nodup_append] at hnd2
    exact fun h => hnd2.2.2 h (List.mem_cons_self x w)
  have hxw : x ∉ w := by
    rw [List.nodup_append] at hnd2
    exact (List.nodup_cons.mp hnd2.2.1).1
  have h1 : m.nxt (m.prv x) = x := by rw [hadj1.2]; exact hadj1.1
  have h2 : m.prv (m.nxt x) = x := by rw [hadj2.1]; exact hadj2.2
  constructor
  · exact hnd.sublist (((List.sublist_cons_self x w).append_left u).cons₂ s)
  · have hc := hr.2
    rw [ringL_decomp, List.chain'_append] at hc
    obtain ⟨hA, hxwch, _⟩ := hc
    rw [List.chain'_cons'] at hxwch
    have hB := hxwch.2
    have goal_eq : ringL s (u ++ w) = (s :: u) ++ (w ++ [s]) := by simp [ringL]
    rw [goal_eq, List.chain'_append]
    refine ⟨?_, ?_, ?_⟩
    · refine chain'_mem_congr (fun a ha b hb hab => ?_) hA
      refine linkRel_eraseNode h1 h2 hab ?_ ?_
      · rintro rfl
        rcases List.mem_cons.mp ha with h | h
        · exact hsx h.symm
        · exact hxu h
      · rintro rfl
        exact hxu hb
    · refine chain'_mem_congr (fun a ha b hb hab => ?_) hB
      refine linkRel_eraseNode h1 h2 hab ?_ ?_
      · rintro rfl
        rcases List.mem_append.mp ha with h | h
        · exact hxw h
        · exact hsx (List.mem_singleton.mp h).symm
      · rintro rfl
        rcases List.mem_append.mp (List.mem_of_mem_tail hb) with h | h
        · exact hxw h
        · exact hsx (List.mem_singleton.mp h).symm
    · intro p hp q hq
      rw [getLast?_cons_getLastD, Option.mem_def, Option.some_inj] at hp
      rw [head?_append_singleton, Option.mem_def, Option.some_inj] at hq
      subst hp; subst hq
      constructor
      · rw [eraseNode_nxt, if_pos hadj1.2.symm]; exact hadj2.1
      · rw [eraseNode_prv, if_pos hadj2.1.symm]; exact hadj1.2

theorem headD_ne_mem_tail {L : List Nat} {b d : Nat} (h : L.Nodup) (hb : b ∈ L.tail) :
    b ≠ L.headD d := by
  cases L with
  | nil => simp at hb
  | cons hd t =>
      intro he
      rw [show (hd :: t).headD d = hd from rfl] at he
      exact (List.nodup_cons.mp h).1 (he ▸ hb)

/-- Pointwise effect of `insertNode` on `next` fields (the later write to
`pos->prev->next` shadows the earlier write to `cur->next` on aliasing). -/
theorem insertNode_nxt (m : Mem α) (pos cur q : Nat) :
    (insertNode m pos cur).nxt q =
      if q = m.prv pos then cur else if q = cur then pos else m.nxt q := by
  simp only [insertNode, setPrv_nxt, setNxt_nxt, setPrv_prv, setNxt_prv, ite_self]

/-- Pointwise effect of `insertNode` on `prev` fields. -/
theorem insertNode_prv (m : Mem α) (pos cur q : Nat) :
    (insertNode m pos cur).prv q =
      if q = pos then cur else if q = cur then m.prv pos else m.prv q := by
  simp only [insertNode, setPrv_prv, setNxt_prv, ite_self]

@[simp] theorem insertNode_val (m : Mem α) (pos cur : Nat) :
    (insertNode m pos cur).val = m.val := rfl

@[simp] theorem insertNode_fresh (m : Mem α) (pos cur : Nat) :
    (insertNode m pos cur).fresh = m.fresh := rfl

/-- A link not involving the new node nor ending at the insertion point
survives `insertNode`. -/
theorem linkRel_insertNode {m : Mem α} {pos cur a b : Nat}
    (hpp : m.nxt (m.prv pos) = pos)
    (hab : linkRel m a b) (ha : a ≠ cur) (hb : b ≠ cur) (hbp : b ≠ pos) :
    linkRel (insertNode m pos cur) a b := by
  obtain ⟨hn, hp⟩ := hab
  constructor
  · rw [insertNode_nxt]
    by_cases h1 : a = m.prv pos
    · rw [h1, hpp] at hn; exact absurd hn.symm hbp
    · rw [if_neg h1, if_neg ha]; exact hn
  · rw [insertNode_prv, if_neg hbp, if_neg hb]; exact hp

theorem headD_append_singleton (w : List Nat) (s d : Nat) :
    (w ++ [s]).headD d = w.headD s := by
  cases w <;> rfl

theorem getLastD_append_singleton (u : List Nat) (x d : Nat) :
    (u ++ [x]).getLastD d = x := by
  rw [List.getLastD_eq_getLast?, List.getLast?_append_cons]; rfl

/-- Linking a fresh node before position `w.headD s` (the first node of
`w`, or the sentinel when `w` is empty) inserts it between `u` and `w`. -/
theorem isRing_insertNode {m : Mem α} {s : Nat} {u w : List Nat} {cur : Nat}
    (hr : isRing m s (u ++ w)) (hcur : cur ∉ s :: (u ++ w)) :
    isRing (insertNode m (w.headD s) cur) s (u ++ cur :: w) := by
  obtain ⟨hsmem, hnd2⟩ := List.nodup_cons.mp hr.1
  have hsu : s ∉ u := fun h => hsmem (List.mem_append_left _ h)
  have hsw : s ∉ w := fun h => hsmem (List.mem_append_right _ h)
  have hcs : cur ≠ s := fun h => hcur (by rw [h]; exact List.mem_cons_self s _)
  have hcu : cur ∉ u := fun h => hcur (List.mem_cons_of_mem s (List.mem_append_left _ h))
  have hcw : cur ∉ w := fun h => hcur (List.mem_cons_of_mem s (List.mem_append_right _ h))
  have hduw : u.Disjoint w := by
    rw [List.nodup_append] at hnd2; exact hnd2.2.2
  have hwnd : w.Nodup := by rw [List.nodup_append] at hnd2; exact hnd2.2.1
  -- the link across the insertion gap
  have hlink : linkRel m (u.getLastD s) (w.headD s) := by
    cases w with
    | nil =>
        have h := (ring_sentinel hr).2
        rw [List.append_nil] at h
        exact h
    | cons y w' => exact (ring_adj hr).1
  have hpp : m.nxt (m.prv (w.headD s)) = w.headD s := by
    rw [hlink.2]; exact hlink.1
  have hposu : w.headD s ∉ u := by
    cases w with
    | nil => exact hsu
    | cons y w' => exact fun h => hduw h (List.mem_cons_self y w')
  have hposcur : w.headD s ≠ cur := by
    cases w with
    | nil => exact fun h => hcs h.symm
    | cons y w' => exact fun h => hcw (h ▸ List.mem_cons_self y w')
  constructor
  · have hperm : List.Perm (s :: (u ++ cur :: w)) (cur :: s :: (u ++ w)) :=
      (List.perm_middle.cons s).trans (List.Perm.swap cur s _)
    exact hperm.nodup_iff.mpr (List.nodup_cons.mpr ⟨hcur, hr.1⟩)
  · have hc := hr.2
    have he : ringL s (u ++ w) = (s :: u) ++ (w ++ [s]) := by simp [ringL]
    rw [he, List.chain'_append] at hc
    obtain ⟨hA, hB, _⟩ := hc
    rw [ringL_decomp, List.chain'_append]
    refine ⟨?_, ?_, ?_⟩
    · refine chain'_mem_congr (fun a ha b hb hab => ?_) hA
      refine linkRel_insertNode hpp hab ?_ ?_ ?_
      · rintro rfl
        rcases List.mem_cons.mp ha with h | h
        · exact hcs h
        · exact hcu h
      · rintro rfl; exact hcu hb
      · rintro rfl; exact hposu hb
    · rw [List.chain'_cons']
      refine ⟨?_, ?_⟩
      · intro y hy
        rw [head?_append_singleton, Option.mem_def, Option.some_inj] at hy
        subst hy
        constructor
        · rw [insertNode_nxt]
          have : cur ≠ m.prv (w.headD s) := by
            rw [hlink.2]
            cases u with
            | nil => exact hcs
            | cons z u' =>
                intro h
                rw [List.getLastD_cons] at h
                exact hcu (h ▸ List.getLastD_mem_cons u' z)
          rw [if_neg this, if_pos rfl]
        · rw [insertNode_prv, if_pos rfl]
      · refine chain'_mem_congr (fun a ha b hb hab => ?_) hB
        refine linkRel_insertNode hpp hab ?_ ?_ ?_
        · rintro rfl
          rcases List.mem_append.mp ha with h | h
          · exact hcw h
          · exact hcs (List.mem_singleton.mp h)
        · rintro rfl
          rcases List.mem_append.mp (List.mem_of_mem_tail hb) with h | h
          · exact hcw h
          · exact hcs (List.mem_singleton.mp h)
        · have hnodupws : (w ++ [s]).Nodup := by
            rw [List.nodup_append]
            exact ⟨hwnd, List.nodup_singleton s, fun a haw has => hsw ((List.mem_singleton.mp has) ▸ haw)⟩
          intro h
          have := headD_ne_mem_tail hnodupws hb (d := s)
          rw [headD_append_singleton] at this
          exact this h
    · intro p hp q hq
      rw [getLast?_cons_getLastD, Option.mem_def, Option.some_inj] at hp
      rw [List.head?_cons, Option.mem_def, Option.some_inj] at hq
      subst hp; subst hq
      constructor
      · rw [insertNode_nxt, if_pos hlink.2.symm]
      · rw [insertNode_prv, if_neg hposcur.symm, if_pos rfl]
        exact hlink.2

/-! ### Specifications of the public mutation API -/

theorem mem_ring_lt_fresh {m : Mem α} {c : Cont} {l : List Nat}
    (hi : ContInv m c l) : m.fresh ∉ c.s :: l := by
  intro h
  exact absurd (hi.2.2.1 _ h) (lt_irrefl _)

theorem sentinel_not_mem {m : Mem α} {c : Cont} {l : List Nat}
    (hi : ContInv m c l) : c.s ∉ l :=
  (List.nodup_cons.mp hi.1.1).1

/-- `insert` at the position before `w` (the head of `w`, or the end
position when `w` is empty) succeeds and splices a freshly allocated node
carrying the value between `u` and `w`. -/
theorem insertIt_spec {m : Mem α} {c : Cont} {u w : List Nat} (value : α)
    (hi : ContInv m c (u ++ w)) :
    ∃ m' : Mem α,
      insertIt m c ⟨some c.s, some (w.headD c.s)⟩ value =
        .ok (⟨some c.s, some m.fresh⟩, m', { c with n := c.n + 1 }) ∧
      ContInv m' { c with n := c.n + 1 } (u ++ m.fresh :: w) ∧
      m'.fresh = m.fresh + 1 ∧ (∀ x, x ≠ m.fresh → m'.val x = m.val x) ∧
      m'.val m.fresh = some value ∧
      (∀ x, x ≠ m.fresh → x ≠ m.prv (w.headD c.s) → m'.nxt x = m.nxt x) ∧
      (∀ x, x ≠ m.fresh → x ≠ w.headD c.s → m'.prv x = m.prv x) := by
  set pos := w.headD c.s with hposdef
  set m1 : Mem α :=
    { m with val := Function.update m.val m.fresh (some value), fresh := m.fresh + 1 }
     with hm1
  refine ⟨insertNode m1 pos m.fresh, ?_, ?_, ?_, ?_, ?_, ?_, ?_⟩
  · simp [insertIt]
  · have hfr : m.fresh ∉ c.s :: (u ++ w) := mem_ring_lt_fresh hi
    have hr1 : isRing m1 c.s (u ++ w) := isRing_congr (fun x _ => ⟨rfl, rfl⟩) hi.1
    have hr2 := isRing_insertNode hr1 hfr
    refine ⟨hr2, ?_, ?_, ?_, ?_⟩
    · have := hi.2.1
      simp only [List.length_append, List.length_cons] at this ⊢
      omega
    · intro x hx
      rw [show ({ c with n := c.n + 1 } : Cont).s = c.s from rfl] at hx
      rw [show (insertNode m1 pos m.fresh).fresh = m.fresh + 1 from rfl]
      have hb := hi.2.2.1
      rcases List.mem_cons.mp hx with h | h
      · have := hb c.s (List.mem_cons_self _ _); omega
      · rcases List.mem_append.mp h with h | h
        · have := hb x (List.mem_cons_of_mem _ (List.mem_append_left _ h)); omega
        · rcases List.mem_cons.mp h with h | h
          · omega
          · have := hb x (List.mem_cons_of_mem _ (List.mem_append_right _ h)); omega
    · have hcs : c.s ≠ m.fresh := by
        have := hi.2.2.1 c.s (List.mem_cons_self _ _); omega
      rw [show ({ c with n := c.n + 1 } : Cont).s = c.s from rfl,
          show (insertNode m1 pos m.fresh).val = m1.val from rfl, hm1]
      simpa [Function.update, hcs] using hi.2.2.2.1
    · intro x hx
      rw [show (insertNode m1 pos m.fresh).val = m1.val from rfl, hm1]
      rcases List.mem_append.mp hx with h | h
      · have hxf : x ≠ m.fresh := by
          have := hi.2.2.1 x (List.mem_cons_of_mem _ (List.mem_append_left _ h)); omega
        simpa [Function.update, hxf] using hi.2.2.2.2 x (List.mem_append_left _ h)
      · rcases List.mem_cons.mp h with h | h
        · subst h; simp [Function.update]
        · have hxf : x ≠ m.fresh := by
            have := hi.2.2.1 x (List.mem_cons_of_mem _ (List.mem_append_right _ h)); omega
          simpa [Function.update, hxf] using hi.2.2.2.2 x (List.mem_append_right _ h)
  · rfl
  · intro x hx
    simp only [insertNode_val, hm1]
    simp [Function.update, hx]
  · simp [insertNode_val, hm1, Function.update]
  · intro x hx1 hx2
    rw [insertNode_nxt]
    have : m1.prv pos = m.prv pos := rfl
    rw [this, if_neg hx2, if_neg hx1]
  · intro x hx1 hx2
    rw [insertNode_prv, if_neg hx2, if_neg hx1]

/-- `erase` at a live data node succeeds: the node is unlinked, the count
drops, and the returned iterator denotes the node that followed. -/
theorem eraseIt_spec {m : Mem α} {c : Cont} {u w : List Nat} {x : Nat}
    (hi : ContInv m c (u ++ x :: w)) :
    eraseIt m c ⟨some c.s, some x⟩ =
      .ok (⟨some c.s, some (w.headD c.s)⟩, eraseNode m x, { c with n := c.n - 1 }) ∧
    ContInv (eraseNode m x) { c with n := c.n - 1 } (u ++ w) := by
  have hn0 : c.n ≠ 0 := by
    have := hi.2.1; simp only [List.length_append, List.length_cons] at this; omega
  have hxs : x ≠ c.s := by
    intro h
    exact sentinel_not_mem hi (h ▸ List.mem_append_right u (List.mem_cons_self x w))
  have hnx : m.nxt x = w.headD c.s := (ring_adj hi.1).2.1
  constructor
  · simp [eraseIt, hn0, hxs, hnx]
  · refine ⟨isRing_eraseNode hi.1, ?_, ?_, ?_, ?_⟩
    · have := hi.2.1
      simp only [List.length_append, List.length_cons] at this ⊢
      omega
    · intro y hy
      simp only [eraseNode_fresh]
      refine hi.2.2.1 y ?_
      rcases List.mem_cons.mp hy with h | h
      · simp [h]
      · rcases List.mem_append.mp h with h | h
        · exact List.mem_cons_of_mem _ (List.mem_append_left _ h)
        · exact List.mem_cons_of_mem _ (List.mem_append_right _ (List.mem_cons_of_mem _ h))
    · simpa using hi.2.2.2.1
    · intro y hy
      simp only [eraseNode_val]
      refine hi.2.2.2.2 y ?_
      rcases List.mem_append.mp hy with h | h
      · exact List.mem_append_left _ h
      · exact List.mem_append_right _ (List.mem_cons_of_mem _ h)

/-- `push_back` appends a fresh node at the back. -/
theorem pushBack_spec {m : Mem α} {c : Cont} {l : List Nat} (value : α)
    (hi : ContInv m c l) :
    ∃ m', pushBack m c value = (m', { c with n := c.n + 1 }) ∧
      ContInv m' { c with n := c.n + 1 } (l ++ [m.fresh]) ∧
      m'.fresh = m.fresh + 1 ∧ (∀ x, x ≠ m.fresh → m'.val x = m.val x) ∧
      m'.val m.fresh = some value ∧
      (∀ x, x ≠ m.fresh → x ≠ m.prv c.s → m'.nxt x = m.nxt x) ∧
      (∀ x, x ≠ m.fresh → x ≠ c.s → m'.prv x = m.prv x) := by
  have hi' : ContInv m c (l ++ []) := by rwa [List.append_nil]
  obtain ⟨m', heq, hinv, hf, hv, hvf, hnx, hpv⟩ := insertIt_spec value hi'
  refine ⟨m', ?_, ?_, hf, hv, hvf, fun x h1 h2 => hnx x h1 h2, fun x h1 h2 => hpv x h1 h2⟩
  · rw [show (([] : List Nat).headD c.s) = c.s from rfl] at heq
    simp [pushBack, heq]
  · have : l ++ [m.fresh] = l ++ m.fresh :: [] := rfl
    rw [this]; exact hinv

/-- `push_front` prepends a fresh node at the front. -/
theorem pushFront_spec {m : Mem α} {c : Cont} {l : List Nat} (value : α)
    (hi : ContInv m c l) :
    ∃ m', pushFront m c value = (m', { c with n := c.n + 1 }) ∧
      ContInv m' { c with n := c.n + 1 } (m.fresh :: l) ∧
      m'.fresh = m.fresh + 1 ∧ (∀ x, x ≠ m.fresh → m'.val x = m.val x) ∧
      m'.val m.fresh = some value := by
  have hi' : ContInv m c ([] ++ l) := by simpa using hi
  obtain ⟨m', heq, hinv, hf, hv, hvf, _, _⟩ := insertIt_spec value hi'
  have hsent : m.nxt c.s = l.headD c.s := (ring_sentinel hi.1).1.1
  refine ⟨m', ?_, by simpa using hinv, hf, hv, hvf⟩
  rw [← hsent] at heq
  simp [pushFront, heq]

/-- `pop_back` erases the last node. -/
theorem popBack_spec {m : Mem α} {c : Cont} {u : List Nat} {x : Nat}
    (hi : ContInv m c (u ++ [x])) :
    popBack m c = .ok (eraseNode m x, { c with n := c.n - 1 }) ∧
    ContInv (eraseNode m x) { c with n := c.n - 1 } u := by
  have hn0 : c.n ≠ 0 := by
    have := hi.2.1; simp only [List.length_append, List.length_cons] at this; omega
  have hlast : m.prv c.s = x := by
    have := (ring_sentinel hi.1).2.2
    rwa [getLastD_append_singleton] at this
  have hi' : ContInv m c (u ++ x :: []) := hi
  obtain ⟨heq, hinv⟩ := eraseIt_spec hi'
  constructor
  · rw [popBack, if_neg hn0, hlast, heq]
  · simpa using hinv

/-- `pop_front` erases the first node. -/
theorem popFront_spec {m : Mem α} {c : Cont} {w : List Nat} {x : Nat}
    (hi : ContInv m c (x :: w)) :
    popFront m c = .ok (eraseNode m x, { c with n := c.n - 1 }) ∧
    ContInv (eraseNode m x) { c with n := c.n - 1 } w := by
  have hn0 : c.n ≠ 0 := by
    have := hi.2.1; simp only [List.length_cons] at this; omega
  have hfirst : m.nxt c.s = x := (ring_sentinel hi.1).1.1
  have hi' : ContInv m c ([] ++ x :: w) := hi
  obtain ⟨heq, hinv⟩ := eraseIt_spec hi'
  constructor
  · rw [popFront, if_neg hn0, hfirst, heq]
  · simpa using hinv

/-- `list()` produces an empty, well-formed container on fresh storage. -/
theorem mkCont_spec (m : Mem α) :
    ContInv (mkCont m).1 (mkCont m).2 [] ∧ (mkCont m).1.fresh = m.fresh + 1 ∧
    (mkCont m).2 = ⟨m.fresh, 0⟩ ∧
    (∀ x, x ≠ m.fresh → (mkCont m).1.val x = m.val x) ∧
    (∀ x, x ≠ m.fresh → (mkCont m).1.nxt x = m.nxt x ∧ (mkCont m).1.prv x = m.prv x) := by
  refine ⟨⟨⟨List.nodup_singleton _, ?_⟩, rfl, ?_, ?_, by simp⟩, rfl, rfl, ?_, ?_⟩
  · show List.Chain' _ [m.fresh, m.fresh]
    refine List.chain'_cons.mpr ⟨⟨?_, ?_⟩, List.chain'_singleton _⟩ <;> simp [mkCont]
  · intro x hx
    simp only [List.mem_singleton] at hx
    subst hx
    simp [mkCont]
  · simp [mkCont, Function.update]
  · intro x hx
    simp [mkCont, Function.update, hx]
  · intro x hx
    constructor <;> simp [mkCont, hx]

/-- Forward traversal from the head of a ring suffix returns exactly
that suffix, whenever the fuel covers its length. -/
theorem traverseF_spec {m : Mem α} {s : Nat} {l : List Nat} (hr : isRing m s l) :
    ∀ w u fuel, l = u ++ w → w.length ≤ fuel →
      traverseF m s fuel (w.headD s) = w := by
  intro w
  induction w with
  | nil =>
      intro u fuel _ _
      cases fuel with
      | zero => rfl
      | succ f => simp [traverseF]
  | cons y w' ih =>
      intro u fuel hdec hlen
      cases fuel with
      | zero => simp at hlen
      | succ f =>
          have hys : y ≠ s := by
            intro h
            subst hdec
            exact (List.nodup_cons.mp hr.1).1
              (h ▸ List.mem_append_right u (List.mem_cons_self y w'))
          have hadj : m.nxt y = w'.headD s := by
            subst hdec
            exact (ring_adj hr).2.1
          rw [show ((y :: w').headD s) = y from rfl]
          rw [traverseF, if_neg hys, hadj]
          rw [ih (u ++ [y]) f (by simp [hdec]) (by simp at hlen; omega)]

/-- Under the invariant, heap traversal reads off the abstract ring. -/
theorem ringIds_eq {m : Mem α} {c : Cont} {l : List Nat} (hi : ContInv m c l) :
    ringIds m c = l := by
  have h0 : m.nxt c.s = l.headD c.s := (ring_sentinel hi.1).1.1
  rw [ringIds, h0]
  exact traverseF_spec hi.1 l [] c.n (by simp) (le_of_eq hi.2.1.symm)

/-- `clear` resets any well-formed container to the empty ring without
touching values or allocation state. -/
theorem clearOp_spec {m : Mem α} {c : Cont} {l : List Nat} (hi : ContInv m c l) :
    clearOp m c = (setNxt (setPrv m c.s c.s) c.s c.s, { c with n := 0 }) ∧
    ContInv (setNxt (setPrv m c.s c.s) c.s c.s) { c with n := 0 } [] := by
  constructor
  · rw [clearOp]
    split
    · next h =>
        have : ({ c with n := 0 } : Cont) = c := by
          cases c with
          | mk s n => simp at h; simp [h]
        rw [this]
    · rfl
  · refine ⟨⟨List.nodup_singleton _, ?_⟩, rfl, ?_, ?_, by simp⟩
    · show List.Chain' _ [c.s, c.s]
      refine List.chain'_cons.mpr ⟨⟨?_, ?_⟩, List.chain'_singleton _⟩ <;> simp
    · intro x hx
      simp only [List.mem_singleton] at hx
      subst hx
      simp
      exact hi.2.2.1 c.s (List.mem_cons_self _ _)
    · simpa using hi.2.2.2.1

/-! ### `reverse()` -/

/-- Adjacency of two consecutive nodes anywhere in `s :: l`. -/
theorem ring_adj_pairs {m : Mem α} {s : Nat} {l : List Nat} (hr : isRing m s l)
    {p v : List Nat} {x y : Nat} (hdec : s :: l = p ++ x :: y :: v) :
    linkRel m x y := by
  have hc := hr.2
  have he : ringL s l = p ++ x :: y :: (v ++ [s]) := by
    rw [ringL, show s :: l ++ [s] = (s :: l) ++ [s] from rfl, hdec]
    simp
  rw [he, List.chain'_append_cons_cons] at hc
  exact hc.2.1

/-- The element after the head of a decomposition suffix is a data node. -/
theorem snd_mem_data {s : Nat} {l p v : List Nat} {x y : Nat}
    (hdec : s :: l = p ++ x :: y :: v) : y ∈ l := by
  cases p with
  | nil =>
      injection hdec with h1 h2
      rw [h2]
      exact List.mem_cons_self y v
  | cons z p' =>
      injection hdec with h1 h2
      rw [h2]
      exact List.mem_append_right p' (List.mem_cons_of_mem x (List.mem_cons_self y v))

/-- The body of `reverse()` starting anywhere in the ring: it swaps the
`next`/`prev` fields of the still-unvisited nodes `cur :: v` (relative
to the pristine heap `m0`) and leaves every other node alone. -/
theorem revLoop_spec {m0 : Mem α} {s : Nat} {l : List Nat} (hr : isRing m0 s l) :
    ∀ (v p : List Nat) (m : Mem α) (cur : Nat),
      s :: l = p ++ cur :: v →
      (∀ x ∈ cur :: v, m.nxt x = m0.nxt x ∧ m.prv x = m0.prv x) →
      (∀ x ∈ cur :: v, (revLoop m s (v.length + 1) cur).nxt x = m0.prv x ∧
          (revLoop m s (v.length + 1) cur).prv x = m0.nxt x) ∧
      (∀ x, x ∉ cur :: v → (revLoop m s (v.length + 1) cur).nxt x = m.nxt x ∧
          (revLoop m s (v.length + 1) cur).prv x = m.prv x) ∧
      (revLoop m s (v.length + 1) cur).val = m.val ∧
      (revLoop m s (v.length + 1) cur).fresh = m.fresh := by
  intro v
  induction v with
  | nil =>
      intro p m cur hdec hagree
      have hlast : m0.nxt cur = s := by
        have h1 : (s :: l).getLast? = some cur := by
          rw [hdec]
          rw [show p ++ [cur] = p ++ cur :: [] from rfl]
          cases p with
          | nil => rfl
          | cons z p' => rw [List.getLast?_concat]
        rw [getLast?_cons_getLastD, Option.some_inj] at h1
        rw [← h1]
        exact (ring_sentinel hr).2.1
      have ht : m.nxt cur = s := by
        rw [(hagree cur (List.mem_cons_self _ _)).1, hlast]
      simp only [List.length_nil, revLoop, ht, if_pos rfl]
      refine ⟨?_, ?_, rfl, rfl⟩
      · intro x hx
        rcases List.mem_cons.mp hx with h | h
        · subst h
          constructor
          · simp [(hagree x (List.mem_cons_self _ _)).2]
          · simp [ht, hlast]
        · simp at h
      · intro x hx
        have : x ≠ cur := fun h => hx (h ▸ List.mem_cons_self _ _)
        constructor <;> simp [this]
  | cons y v' ih =>
      intro p m cur hdec hagree
      have hcury : linkRel m0 cur y := ring_adj_pairs hr hdec
      have hyl : y ∈ l := snd_mem_data hdec
      have hys : y ≠ s := by
        intro h
        exact (List.nodup_cons.mp hr.1).1 (h ▸ hyl)
      have hcurnot : cur ∉ y :: v' := by
        have hnd : (p ++ cur :: y :: v').Nodup := by rw [← hdec]; exact hr.1
        have := List.Nodup.sublist (List.sublist_append_right p _) hnd
        exact (List.nodup_cons.mp this).1
      have ht : m.nxt cur = y := by
        rw [(hagree cur (List.mem_cons_self _ _)).1]; exact hcury.1
      set m1 := setPrv (setNxt m cur (m.prv cur)) cur (m.nxt cur) with hm1
      have hstep : revLoop m s (List.length (y :: v') + 1) cur = revLoop m1 s (v'.length + 1) y := by
        rw [show List.length (y :: v') + 1 = (v'.length + 1) + 1 from by simp]
        rw [revLoop]
        rw [← hm1, ht, if_neg hys]
      rw [hstep]
      have hagree1 : ∀ x ∈ y :: v', m1.nxt x = m0.nxt x ∧ m1.prv x = m0.prv x := by
        intro x hx
        have hxc : x ≠ cur := fun h => hcurnot (h ▸ hx)
        have := hagree x (List.mem_cons_of_mem cur hx)
        rw [hm1]
        constructor <;> simp [hxc, this.1, this.2]
      obtain ⟨hswap, hrest, hval, hfresh⟩ :=
        ih (p ++ [cur]) m1 y (by rw [hdec]; simp) hagree1
      refine ⟨?_, ?_, ?_, ?_⟩
      · intro x hx
        rcases List.mem_cons.mp hx with h | h
        · subst h
          have hnot : x ∉ y :: v' := hcurnot
          obtain ⟨h1, h2⟩ := hrest x hnot
          rw [h1, h2, hm1]
          have := hagree x (List.mem_cons_self _ _)
          constructor
          · simp [this.2]
          · simp [ht, hcury.1]
        · exact hswap x h
      · intro x hx
        have hxc : x ≠ cur := fun h => hx (h ▸ List.mem_cons_self _ _)
        have hxy : x ∉ y :: v' := fun h => hx (List.mem_cons_of_mem cur h)
        obtain ⟨h1, h2⟩ := hrest x hxy
        rw [h1, h2, hm1]
        constructor <;> simp [hxc]
      · rw [hval, hm1]; rfl
      · rw [hfresh, hm1]; rfl

/-- `reverse()` reverses the ring in place: every ring node's pointer
fields are swapped, values and allocation state are untouched, and the
invariant holds for the reversed node sequence. -/
theorem revOp_spec {m : Mem α} {c : Cont} {l : List Nat} (hi : ContInv m c l) :
    ∃ m', revOp m c = (m', c) ∧ ContInv m' c l.reverse ∧
      m'.val = m.val ∧ m'.fresh = m.fresh ∧
      (∀ x ∈ c.s :: l, m'.nxt x = m.prv x ∧ m'.prv x = m.nxt x) := by
  obtain ⟨hswap, hrest, hval, hfresh⟩ :=
    revLoop_spec hi.1 l [] m c.s rfl (fun x _ => ⟨rfl, rfl⟩)
  set m' := revLoop m c.s (l.length + 1) c.s with hm'
  have hcnt : c.n + 1 = l.length + 1 := by rw [hi.2.1]
  refine ⟨m', by rw [revOp, hcnt], ?_, hval, hfresh, hswap⟩
  have hring' : isRing m' c.s l.reverse := by
    constructor
    · have := hi.1.1
      rw [List.nodup_cons] at this ⊢
      exact ⟨fun h => this.1 (List.mem_reverse.mp h), List.nodup_reverse.mpr this.2⟩
    · have hflip : List.Chain' (flip (linkRel m')) (ringL c.s l) := by
        refine chain'_mem_congr (fun a ha b hb hab => ?_) hi.1.2
        have ha' := mem_of_mem_ringL ha
        have hb' := mem_of_mem_ringL (List.mem_of_mem_tail hb)
        obtain ⟨hna, hpa⟩ := hswap a ha'
        obtain ⟨hnb, hpb⟩ := hswap b hb'
        exact ⟨by rw [hnb, hab.2], by rw [hpa, hab.1]⟩
      have hrev : ringL c.s l.reverse = (ringL c.s l).reverse := by
        simp [ringL]
      rw [hrev, List.chain'_reverse]
      exact hflip
  refine ⟨hring', ?_, ?_, ?_, ?_⟩
  · rw [hi.2.1]; simp
  · intro x hx
    rw [hfresh]
    refine hi.2.2.1 x ?_
    rcases List.mem_cons.mp hx with h | h
    · simp [h]
    · exact List.mem_cons_of_mem _ (List.mem_reverse.mp h)
  · rw [hval]; exact hi.2.2.2.1
  · intro x hx
    rw [hval]
    exact hi.2.2.2.2 x (List.mem_reverse.mp hx)

/-- Under the invariant the observable value sequence is the ring's
node values. -/
theorem valSeq_eq [Inhabited α] {m : Mem α} {c : Cont} {l : List Nat}
    (hi : ContInv m c l) : valSeq m c = l.map (getv m) := by
  rw [valSeq, ringIds_eq hi]

/-! ### `unique()` -/

theorem uniqRef_sublist (beq : α → α → Bool) (v : Nat → α) :
    ∀ l : List Nat, List.Sublist (uniqRef beq v l) l
  | [] => by rw [uniqRef]
  | x :: xs => by
      rw [uniqRef]
      refine List.Sublist.cons₂ x ?_
      exact (uniqRef_sublist beq v _).trans (List.dropWhile_suffix _).sublist
termination_by l => l.length
decreasing_by
  simp only [List.length_cons]
  exact Nat.lt_succ_of_le (List.dropWhile_suffix _).sublist.length_le

theorem uniqRef_map (beq : α → α → Bool) (v : Nat → α) :
    ∀ l : List Nat, (uniqRef beq v l).map v = uniqRefV beq (l.map v)
  | [] => by simp [uniqRef, uniqRefV]
  | x :: xs => by
      rw [uniqRef, show (x :: xs).map v = v x :: xs.map v from rfl, uniqRefV]
      rw [List.map_cons, uniqRef_map beq v _]
      congr 1
      rw [List.dropWhile_map]
      rfl
termination_by l => l.length
decreasing_by
  simp only [List.length_cons]
  exact Nat.lt_succ_of_le (List.dropWhile_suffix _).sublist.length_le

theorem head?_dropWhile_false (p : α → Bool) :
    ∀ l : List α, ∀ r ∈ (l.dropWhile p).head?, p r = false
  | [], r, hr => by simp [List.dropWhile] at hr
  | x :: xs, r, hr => by
      rw [List.dropWhile_cons] at hr
      by_cases hx : p x = true
      · rw [if_pos hx] at hr
        exact head?_dropWhile_false p xs r hr
      · rw [if_neg hx] at hr
        simp only [List.head?_cons, Option.mem_def, Option.some_inj] at hr
        subst hr
        simpa using hx

/-- The inner deletion loop erases exactly the nodes of `run` (a block
of consecutive nodes following `cur` whose values all equal `cur`'s
representative value), stopping at the first node of `rest`. -/
theorem uniqueInner_spec [Inhabited α] (beq : α → α → Bool) {s : Nat} :
    ∀ (run : List Nat) (m : Mem α) (u rest : List Nat) (cur : Nat) (fuel : Nat),
      isRing m s (u ++ cur :: (run ++ rest)) →
      (∀ x ∈ run, beq (getv m cur) (getv m x) = true) →
      (∀ r ∈ rest.head?, beq (getv m cur) (getv m r) = false) →
      run.length ≤ fuel →
      ∃ m', uniqueInner beq m s (getv m cur) fuel (m.nxt cur) =
          (m', rest.headD s, run.length) ∧
        isRing m' s (u ++ cur :: rest) ∧ m'.val = m.val ∧ m'.fresh = m.fresh := by
  intro run
  induction run with
  | nil =>
      intro m u rest cur fuel hr hrun hrest hfuel
      have hnxt : m.nxt cur = rest.headD s := by
        have := (ring_adj (u := u) (x := cur) (w := rest) (by simpa using hr)).2.1
        exact this
      refine ⟨m, ?_, by simpa using hr, rfl, rfl⟩
      cases fuel with
      | zero => rw [uniqueInner, hnxt]; rfl
      | succ f =>
          rw [uniqueInner, hnxt]
          cases rest with
          | nil => simp [uniqueInner]
          | cons r rest' =>
              have hrs : r ≠ s := by
                intro h
                refine (List.nodup_cons.mp hr.1).1 ?_
                rw [h] at *
                exact List.mem_append_right u (List.mem_cons_of_mem cur
                  (by simp))
              have hbeq := hrest r rfl
              rw [show ((r :: rest').headD s) = r from rfl]
              simp [hrs, hbeq]
  | cons y run' ih =>
      intro m u rest cur fuel hr hrun hrest hfuel
      cases fuel with
      | zero => simp at hfuel
      | succ f =>
          have hnxt : m.nxt cur = y := by
            have := (ring_adj (u := u) (x := cur) (w := y :: (run' ++ rest)) hr).2.1
            simpa using this
          have hys : y ≠ s := by
            intro h
            refine (List.nodup_cons.mp hr.1).1 ?_
            rw [← h]
            exact List.mem_append_right u (List.mem_cons_of_mem cur
              (List.mem_append_left _ (List.mem_cons_self y run')))
          have hbeq := hrun y (List.mem_cons_self y run')
          have hr2 : isRing (eraseNode m y) s (u ++ cur :: (run' ++ rest)) := by
            have hsplit : u ++ cur :: ((y :: run') ++ rest) =
                (u ++ [cur]) ++ y :: (run' ++ rest) := by simp
            have hsplit2 : u ++ cur :: (run' ++ rest) =
                (u ++ [cur]) ++ (run' ++ rest) := by simp
            rw [hsplit2]
            exact isRing_eraseNode (by rw [← hsplit]; exact hr)
          have hnxty : m.nxt y = (eraseNode m y).nxt cur := by
            have hprvy : m.prv y = cur := by
              have := (ring_adj (u := u ++ [cur]) (x := y) (w := run' ++ rest)
                (by simpa using hr)).1.2
              rw [getLastD_append_singleton] at this
              exact this
            rw [eraseNode_nxt, hprvy, if_pos rfl]
          have hvals : (eraseNode m y).val = m.val := rfl
          have hgv : ∀ z, getv (eraseNode m y) z = getv m z := fun z => rfl
          obtain ⟨m', heq, hring, hval, hfresh⟩ :=
            ih (eraseNode m y) u rest cur f hr2
              (fun x hx => by rw [hgv, hgv]; exact hrun x (List.mem_cons_of_mem y hx))
              (fun r hrr => by rw [hgv, hgv]; exact hrest r hrr)
              (by simp only [List.length_cons] at hfuel; omega)
          refine ⟨m', ?_, hring, hval, hfresh⟩
          have heq' : uniqueInner beq (eraseNode m y) s (getv m cur) f (m.nxt y) =
              (m', rest.headD s, run'.length) := by
            rw [← hnxty] at heq
            exact heq
          rw [uniqueInner, hnxt, if_neg hys]
          simp only [hbeq, if_true]
          rw [heq']
          simp

/-- The outer loop of `unique()` starting at the head of `suffix`
transforms the remaining ring into its `uniqRef` image and reports the
number of deletions. -/
theorem uniqueOuter_spec [Inhabited α] (beq : α → α → Bool) {s : Nat} :
    ∀ (fuel : Nat) (suffix : List Nat) (m : Mem α) (done : List Nat),
      isRing m s (done ++ suffix) →
      suffix.length ≤ fuel →
      ∃ m', uniqueOuter beq s fuel m (suffix.headD s) =
          (m', suffix.length - (uniqRef beq (getv m) suffix).length) ∧
        isRing m' s (done ++ uniqRef beq (getv m) suffix) ∧
        m'.val = m.val ∧ m'.fresh = m.fresh := by
  intro fuel
  induction fuel with
  | zero =>
      intro suffix m done hr hlen
      rw [Nat.le_zero, List.length_eq_zero] at hlen
      subst hlen
      exact ⟨m, by rw [uniqueOuter, uniqRef]; rfl, by rw [uniqRef]; simpa using hr, rfl, rfl⟩
  | succ f ih =>
      intro suffix m done hr hlen
      cases suffix with
      | nil =>
          exact ⟨m, by rw [uniqueOuter]; simp [uniqRef], by rw [uniqRef]; simpa using hr,
            rfl, rfl⟩
      | cons cur rest0 =>
          have hcs : cur ≠ s := by
            intro h
            exact (List.nodup_cons.mp hr.1).1
              (h ▸ List.mem_append_right done (List.mem_cons_self cur rest0))
          set p : Nat → Bool := fun y => beq (getv m cur) (getv m y) with hp
          have hdecomp : rest0 = rest0.takeWhile p ++ rest0.dropWhile p :=
            (List.takeWhile_append_dropWhile p rest0).symm
          obtain ⟨m1, heq1, hring1, hval1, hfresh1⟩ :=
            uniqueInner_spec beq (rest0.takeWhile p) m done (rest0.dropWhile p) cur (f + 1)
              (by rw [← hdecomp]; exact hr)
              (fun x hx => by
                have h2 := List.mem_takeWhile_imp hx
                rw [hp] at h2
                simpa using h2)
              (fun r hrr => by
                have h2 := head?_dropWhile_false p rest0 r hrr
                rw [hp] at h2
                simpa using h2)
              (by
                have := (List.takeWhile_sublist (l := rest0) p).length_le
                simp only [List.length_cons] at hlen
                omega)
          have hgv1 : getv m1 = getv (α := α) m := by
            funext z; rw [getv, getv, hval1]
          obtain ⟨m2, heq2, hring2, hval2, hfresh2⟩ :=
            ih (rest0.dropWhile p) m1 (done ++ [cur])
              (by simpa using hring1)
              (by
                have := (List.dropWhile_suffix (l := rest0) p).sublist.length_le
                simp only [List.length_cons] at hlen
                omega)
          rw [hgv1] at heq2 hring2
          have hueq : uniqRef beq (getv m) (cur :: rest0) =
              cur :: uniqRef beq (getv m) (rest0.dropWhile p) := by
            rw [uniqRef]
          refine ⟨m2, ?_, ?_, by rw [hval2, hval1], by rw [hfresh2, hfresh1]⟩
          · rw [show ((cur :: rest0).headD s) = cur from rfl]
            rw [uniqueOuter, if_neg hcs]
            simp only
            rw [heq1]
            simp only
            rw [show ((rest0.dropWhile p).headD s) = ((rest0.dropWhile p).headD s) from rfl]
            rw [heq2]
            have hsub1 := (uniqRef_sublist beq (getv m) (rest0.dropWhile p)).length_le
            have hsub2 := (List.dropWhile_suffix (l := rest0) p).sublist.length_le
            have htw := (List.takeWhile_sublist (l := rest0) p).length_le
            have hlensplit : rest0.length =
                (rest0.takeWhile p).length + (rest0.dropWhile p).length := by
              conv in rest0.length => rw [hdecomp]
              rw [List.length_append]
            rw [hueq]
            simp only [List.length_cons]
            congr 1
            omega
          · rw [hueq]
            simpa using hring2

/-- `unique()` rewrites the ring to `uniqRef` of it: one representative
per maximal run, count reduced accordingly, values untouched. -/
theorem uniqueOp_spec [Inhabited α] (beq : α → α → Bool) {m : Mem α} {c : Cont}
    {l : List Nat} (hi : ContInv m c l) :
    ∃ m', uniqueOp beq m c = (m', { c with n := (uniqRef beq (getv m) l).length }) ∧
      ContInv m' { c with n := (uniqRef beq (getv m) l).length } (uniqRef beq (getv m) l) ∧
      m'.val = m.val ∧ m'.fresh = m.fresh := by
  by_cases hn : c.n ≤ 1
  · have hll : l.length ≤ 1 := hi.2.1 ▸ hn
    have hul : uniqRef beq (getv m) l = l := by
      cases l with
      | nil => rw [uniqRef]
      | cons x xs =>
          cases xs with
          | nil =>
              rw [uniqRef,
                show (List.dropWhile (fun y => beq (getv m x) (getv m y)) [] : List Nat) =
                  [] from rfl, uniqRef]
          | cons y ys => simp at hll
    have hcc : ({ c with n := (uniqRef beq (getv m) l).length } : Cont) = c := by
      rw [hul, ← hi.2.1]
    refine ⟨m, ?_, ?_, rfl, rfl⟩
    · rw [uniqueOp, if_pos hn, hcc]
    · rw [hcc, hul]; exact hi
  · have hfirst : m.nxt c.s = l.headD c.s := (ring_sentinel hi.1).1.1
    obtain ⟨m', heq, hring, hval, hfresh⟩ :=
      uniqueOuter_spec beq c.n l m [] (by simpa using hi.1) (le_of_eq hi.2.1.symm)
    have hsub := (uniqRef_sublist beq (getv m) l).length_le
    refine ⟨m', ?_, ?_, hval, hfresh⟩
    · rw [uniqueOp, if_neg hn, hfirst, heq]
      have harith : c.n - (l.length - (uniqRef beq (getv m) l).length) =
          (uniqRef beq (getv m) l).length := by
        rw [hi.2.1]; omega
      simp only
      rw [harith]
    · refine ⟨by simpa using hring, rfl, ?_, ?_, ?_⟩
      · intro x hx
        rw [hfresh]
        refine hi.2.2.1 x ?_
        rcases List.mem_cons.mp hx with h | h
        · simp [h]
        · exact List.mem_cons_of_mem _ ((uniqRef_sublist beq (getv m) l).mem h)
      · rw [hval]; exact hi.2.2.2.1
      · intro x hx
        rw [hval]
        exact hi.2.2.2.2 x ((uniqRef_sublist beq (getv m) l).mem hx)

/-! ### The bottom-up merge sort, at the list level -/

theorem mergeTwo_nil_right (le : β → β → Bool) : ∀ xs, mergeTwo le xs [] = xs
  | [] => by rw [mergeTwo]
  | x :: xs => by rw [mergeTwo]

theorem mergeTwo_perm (le : β → β → Bool) :
    ∀ xs ys, List.Perm (mergeTwo le xs ys) (xs ++ ys)
  | [], ys => by rw [mergeTwo]; simp
  | x :: xs, [] => by rw [mergeTwo]; simp
  | x :: xs, y :: ys => by
      rw [mergeTwo]
      split
      · exact (mergeTwo_perm le xs (y :: ys)).cons x
      · refine ((mergeTwo_perm le (x :: xs) ys).cons y).trans ?_
        exact List.perm_middle.symm
termination_by xs ys => xs.length + ys.length

theorem mergeTwo_left_peel (le : β → β → Bool) (b : β) (rb : List β) :
    ∀ t r, (∀ x ∈ t, le x b = true) →
      mergeTwo le (t ++ r) (b :: rb) = t ++ mergeTwo le r (b :: rb)
  | [], r, _ => by simp
  | x :: t, r, h => by
      rw [List.cons_append, mergeTwo, if_pos (h x (List.mem_cons_self x t))]
      rw [mergeTwo_left_peel le b rb t r (fun z hz => h z (List.mem_cons_of_mem x hz))]
      rfl

theorem mergeTwo_right_peel (le : β → β → Bool) (a : β) (r : List β) :
    ∀ blk rest, (∀ y ∈ blk, le a y = false) →
      mergeTwo le (a :: r) (blk ++ rest) = blk ++ mergeTwo le (a :: r) rest
  | [], rest, _ => by simp
  | y :: blk, rest, h => by
      rw [List.cons_append, mergeTwo,
        if_neg (by simp [h y (List.mem_cons_self y blk)])]
      rw [mergeTwo_right_peel le a r blk rest (fun z hz => h z (List.mem_cons_of_mem y hz))]
      rfl

/-- Merging two `R`-sorted runs yields an `R`-sorted run, whenever the
boolean test decides `R` on every cross pair. -/
theorem mergeTwo_pairwise {R : β → β → Prop} (htrans : Transitive R) (le : β → β → Bool) :
    ∀ L1 L2, L1.Pairwise R → L2.Pairwise R →
      (∀ a ∈ L1, ∀ b ∈ L2, (le a b = true → R a b) ∧ (le a b = false → R b a)) →
      (mergeTwo le L1 L2).Pairwise R
  | [], L2, _, h2, _ => by rw [mergeTwo]; exact h2
  | x :: L1, [], h1, _, _ => by rw [mergeTwo]; exact h1
  | x :: L1, y :: L2, h1, h2, hc => by
      rw [mergeTwo]
      split
      · next hxy =>
          rw [List.pairwise_cons]
          refine ⟨?_, ?_⟩
          · intro z hz
            have hz' := (mergeTwo_perm le L1 (y :: L2)).mem_iff.mp hz
            rcases List.mem_append.mp hz' with h | h
            · exact (List.pairwise_cons.mp h1).1 z h
            · have hxy' : R x y := ((hc x (List.mem_cons_self x L1) y
                (List.mem_cons_self y L2)).1 (by simpa using hxy))
              rcases List.mem_cons.mp h with h | h
              · rw [h]; exact hxy'
              · exact htrans hxy' ((List.pairwise_cons.mp h2).1 z h)
          · refine mergeTwo_pairwise htrans le L1 (y :: L2)
              (List.pairwise_cons.mp h1).2 h2 ?_
            intro a ha b hb
            exact hc a (List.mem_cons_of_mem x ha) b hb
      · next hxy =>
          rw [List.pairwise_cons]
          have hxyB : le x y = false := by
            cases hle : le x y with
            | false => rfl
            | true => exact absurd (by simp [hle]) hxy
          have hyx : R y x := (hc x (List.mem_cons_self x L1) y
            (List.mem_cons_self y L2)).2 hxyB
          refine ⟨?_, ?_⟩
          · intro z hz
            have hz' := (mergeTwo_perm le (x :: L1) L2).mem_iff.mp hz
            rcases List.mem_append.mp hz' with h | h
            · rcases List.mem_cons.mp h with h | h
              · rw [h]; exact hyx
              · exact htrans hyx ((List.pairwise_cons.mp h1).1 z h)
            · exact (List.pairwise_cons.mp h2).1 z h
          · refine mergeTwo_pairwise htrans le (x :: L1) L2 h1
              (List.pairwise_cons.mp h2).2 ?_
            intro a ha b hb
            exact hc a ha b (List.mem_cons_of_mem y hb)
termination_by L1 L2 => L1.length + L2.length

theorem passChunks_perm (le : β → β → Bool) (w : Nat) :
    ∀ fuel l, List.Perm (passChunks le w fuel l) l
  | 0, l => List.Perm.refl l
  | fuel + 1, l => by
      rw [passChunks]
      split
      · next h =>
          rw [List.isEmpty_iff] at h
          rw [h]
      · refine ((mergeTwo_perm le _ _).append (passChunks_perm le w fuel _)).trans ?_
        rw [List.append_assoc]
        rw [show l.drop (w + w) = (l.drop w).drop w from by rw [List.drop_drop]]
        rw [List.take_append_drop, List.take_append_drop]

theorem widthLoop_perm (le : β → β → Bool) (mlen : Nat) :
    ∀ fuel w l, List.Perm (widthLoop le mlen fuel w l) l
  | 0, _, l => List.Perm.refl l
  | fuel + 1, w, l => by
      rw [widthLoop]
      split
      · exact (widthLoop_perm le mlen fuel (w + w) _).trans (passChunks_perm le w _ l)
      · exact List.Perm.refl l

theorem buSort_perm (le : β → β → Bool) (l : List β) : List.Perm (buSort le l) l :=
  widthLoop_perm le l.length l.length 1 l

theorem buSort_small (le : β → β → Bool) {l : List β} (h : l.length ≤ 1) :
    buSort le l = l := by
  cases l with
  | nil => rfl
  | cons x xs =>
      cases xs with
      | nil => rfl
      | cons y ys => simp at h

theorem chunkAligned_init (R : β → β → Prop) :
    ∀ l : List β, ChunkAligned R 1 l l
  | [] => ChunkAligned.nil
  | x :: xs => by
      have h : ChunkAligned R 1 ([x] ++ xs) (x :: xs) :=
        ChunkAligned.cons (by simp) (by simp) (List.pairwise_singleton R x)
          (chunkAligned_init R xs)
      simpa using h

theorem chunkAligned_perm {R : β → β → Prop} {w : Nat} :
    ∀ {cur orig : List β}, ChunkAligned R w cur orig → List.Perm cur orig := by
  intro cur orig h
  induction h with
  | nil => exact List.Perm.refl []
  | cons hne hperm hpw _ ih =>
      refine (hperm.append ih).trans ?_
      rw [List.take_append_drop]

theorem chunkAligned_nil_right {R : β → β → Prop} {w : Nat} {r : List β}
    (h : ChunkAligned R w r ([] : List β)) : r = [] := by
  cases h with
  | nil => rfl
  | cons hne2 _ _ _ => exact absurd rfl hne2

/-- Extraction: once the chunk width covers the whole array there is a
single sorted chunk. -/
theorem chunkAligned_total {R : β → β → Prop} {w : Nat} {cur orig : List β}
    (h : ChunkAligned R w cur orig) (hw : orig.length ≤ w) :
    List.Perm cur orig ∧ cur.Pairwise R := by
  cases h with
  | nil => exact ⟨List.Perm.refl [], List.Pairwise.nil⟩
  | cons hne hperm hpw hrest =>
      have hdrop : orig.drop w = [] := List.drop_eq_nil_of_le hw
      rw [hdrop] at hrest
      rw [chunkAligned_nil_right hrest, List.append_nil]
      have htake : orig.take w = orig := List.take_of_length_le hw
      rw [htake] at hperm
      exact ⟨hperm, hpw⟩

theorem passChunks_nil (le : β → β → Bool) (w : Nat) :
    ∀ fuel, passChunks le w fuel ([] : List β) = []
  | 0 => rfl
  | fuel + 1 => by rw [passChunks]; simp

theorem chunkAligned_cons_inv {R : β → β → Prop} {w : Nat} {r o : List β}
    (h : ChunkAligned R w r o) (ho : o ≠ []) :
    ∃ c rest, r = c ++ rest ∧ List.Perm c (o.take w) ∧ c.Pairwise R ∧
      ChunkAligned R w rest (o.drop w) := by
  cases h with
  | nil => exact absurd rfl ho
  | cons hne hperm hpw hrest => exact ⟨_, _, rfl, hperm, hpw, hrest⟩

/-- One pass with width `w` merges adjacent chunk pairs: blocks double. -/
theorem chunkAligned_step {R : β → β → Prop} (htrans : Transitive R) (le : β → β → Bool)
    {w : Nat} (hw : 1 ≤ w) :
    ∀ (fuel : Nat) (orig cur : List β),
      orig.Pairwise (fun a b => (le a b = true → R a b) ∧ (le a b = false → R b a)) →
      ChunkAligned R w cur orig → cur.length ≤ fuel →
      ChunkAligned R (w + w) (passChunks le w fuel cur) orig := by
  intro fuel
  induction fuel with
  | zero =>
      intro orig cur hC h hlen
      rw [Nat.le_zero, List.length_eq_zero] at hlen
      subst hlen
      have horig : orig = [] := ((chunkAligned_perm h).symm).eq_nil
      subst horig
      exact ChunkAligned.nil
  | succ f ih =>
      intro orig cur hC h hlen
      cases h with
      | nil => rw [passChunks_nil]; exact ChunkAligned.nil
      | cons hne hperm1 hpw1 hrest1 =>
          rename_i c1 rest1
          have hlen1 : c1.length = min w orig.length := by
            rw [hperm1.length_eq, List.length_take]
          by_cases hle : orig.length ≤ w
          · -- a single final chunk
            have hrest1nil : rest1 = [] := by
              rw [List.drop_eq_nil_of_le hle] at hrest1
              exact chunkAligned_nil_right hrest1
            subst hrest1nil
            rw [List.append_nil]
            have hc1len : c1.length = orig.length := by
              rw [hlen1]; omega
            have hc1ne : ¬ c1.isEmpty := by
              rw [List.isEmpty_iff]
              intro hnil
              rw [hnil] at hc1len
              exact hne (List.length_eq_zero.mp hc1len.symm)
            rw [passChunks, if_neg hc1ne]
            have ht1 : c1.take w = c1 := List.take_of_length_le (by omega)
            have hd1 : c1.drop w = [] := List.drop_eq_nil_of_le (by omega)
            have hd2 : c1.drop (w + w) = [] := List.drop_eq_nil_of_le (by omega)
            rw [ht1, hd1, hd2, passChunks_nil]
            rw [List.take_nil, mergeTwo_nil_right, List.append_nil]
            have hgoal : ChunkAligned R (w + w) (c1 ++ ([] : List β)) orig :=
              ChunkAligned.cons hne
              (by rw [List.take_of_length_le (le_trans hle (by omega))]
                  rw [List.take_of_length_le hle] at hperm1
                  exact hperm1)
              hpw1
              (by rw [List.drop_eq_nil_of_le (le_trans hle (by omega))]
                  exact ChunkAligned.nil)
            simpa using hgoal
          · push_neg at hle
            have hc1len : c1.length = w := by rw [hlen1]; omega
            have hdropne : orig.drop w ≠ [] := by
              intro hnil
              have := List.length_drop w orig
              rw [hnil] at this
              simp at this
              omega
            obtain ⟨c2, rest2, hr1eq, hperm2, hpw2, hrest2⟩ :=
              chunkAligned_cons_inv hrest1 hdropne
            subst hr1eq
            have hc2len : c2.length = min w (orig.length - w) := by
              rw [hperm2.length_eq, List.length_take, List.length_drop]
            have htake2 : (c2 ++ rest2).take w = c2 ∧ (c2 ++ rest2).drop w = rest2 := by
              by_cases hle2 : orig.length - w ≤ w
              · have hrest2nil : rest2 = [] := by
                  rw [List.drop_drop, List.drop_eq_nil_of_le (by omega)] at hrest2
                  exact chunkAligned_nil_right hrest2
                subst hrest2nil
                rw [List.append_nil]
                constructor
                · exact List.take_of_length_le (by omega)
                · exact List.drop_eq_nil_of_le (by omega)
              · have hc2w : c2.length = w := by omega
                constructor
                · rw [← hc2w, List.take_left]
                · rw [← hc2w, List.drop_left]
            have hcur_ne : ¬ (c1 ++ (c2 ++ rest2)).isEmpty := by
              rw [List.isEmpty_iff, List.append_eq_nil]
              rintro ⟨h1, -⟩
              rw [h1] at hc1len
              simp at hc1len
              omega
            rw [passChunks, if_neg hcur_ne]
            have htk : (c1 ++ (c2 ++ rest2)).take w = c1 := by
              rw [← hc1len, List.take_left]
            have hdr : (c1 ++ (c2 ++ rest2)).drop w = c2 ++ rest2 := by
              rw [← hc1len, List.drop_left]
            have hdr2 : (c1 ++ (c2 ++ rest2)).drop (w + w) = rest2 := by
              rw [← List.drop_drop, hdr, htake2.2]
            rw [htk, hdr, htake2.1, hdr2]
            have hcross : ∀ a ∈ c1, ∀ b ∈ c2,
                (le a b = true → R a b) ∧ (le a b = false → R b a) := by
              intro a ha b hb
              have hC' : (orig.take w ++ orig.drop w).Pairwise
                  (fun a b => (le a b = true → R a b) ∧ (le a b = false → R b a)) := by
                rw [List.take_append_drop]; exact hC
              refine (List.pairwise_append.mp hC').2.2 a ?_ b ?_
              · exact hperm1.subset ha
              · exact (List.take_sublist w _).subset (hperm2.subset hb)
            refine ChunkAligned.cons hne ?_ ?_ ?_
            · refine (mergeTwo_perm le c1 c2).trans ?_
              rw [List.take_add]
              exact hperm1.append hperm2
            · exact mergeTwo_pairwise htrans le c1 c2 hpw1 hpw2 hcross
            · refine ih (orig.drop (w + w)) rest2 ?_ ?_ ?_
              · exact hC.sublist (List.drop_sublist _ _)
              · rw [List.drop_drop] at hrest2
                exact hrest2
              · have hlc : (c1 ++ (c2 ++ rest2)).length =
                    c1.length + c2.length + rest2.length := by simp [Nat.add_assoc]
                rw [hlc] at hlen
                omega

/-- The width-doubling loop delivers a sorted permutation once
`2 ^ fuel * w` covers the array. -/
theorem widthLoop_aligned {R : β → β → Prop} (htrans : Transitive R) (le : β → β → Bool)
    {orig : List β}
    (hC : orig.Pairwise fun a b => (le a b = true → R a b) ∧ (le a b = false → R b a)) :
    ∀ (fuel w : Nat) (cur : List β), 1 ≤ w →
      ChunkAligned R w cur orig → orig.length ≤ 2 ^ fuel * w →
      (widthLoop le orig.length fuel w cur).Pairwise R ∧
      List.Perm (widthLoop le orig.length fuel w cur) orig := by
  intro fuel
  induction fuel with
  | zero =>
      intro w cur hw h hbound
      rw [widthLoop]
      simp only [pow_zero, one_mul] at hbound
      have hres := chunkAligned_total h hbound
      exact ⟨hres.2, hres.1⟩
  | succ f ih =>
      intro w cur hw h hbound
      rw [widthLoop]
      split
      · next hlt =>
          refine ih (w + w) (passChunks le w cur.length cur) (by omega) ?_ ?_
          · exact chunkAligned_step htrans le hw cur.length orig cur hC h le_rfl
          · have hpow : 2 ^ (f + 1) * w = 2 ^ f * (w + w) := by ring
            omega
      · next hge =>
          push_neg at hge
          have hres := chunkAligned_total h hge
          exact ⟨hres.2, hres.1⟩

/-- Bottom-up merge sort is a sorted permutation with respect to any
transitive relation that the test decides on the pairs of the input. -/
theorem buSort_sorted_perm {R : β → β → Prop} (htrans : Transitive R) (le : β → β → Bool)
    {l : List β}
    (hC : l.Pairwise fun a b => (le a b = true → R a b) ∧ (le a b = false → R b a)) :
    (buSort le l).Pairwise R ∧ List.Perm (buSort le l) l := by
  rw [buSort]
  refine widthLoop_aligned htrans le hC l.length 1 l le_rfl (chunkAligned_init R l) ?_
  have := Nat.lt_two_pow l.length
  omega

/-! ### Relinking and `sort()` -/

/-- The relink pass writes exactly the chain
`p -> xs[0] -> ... -> xs[last] -> s` (closing at the sentinel), leaving
every other node's fields alone. -/
theorem relinkAux_spec {s : Nat} :
    ∀ (xs : List Nat) (m : Mem α) (p : Nat),
      (p :: xs).Nodup → s ∉ xs →
      List.Chain' (linkRel (relinkAux s m p xs)) (p :: xs ++ [s]) ∧
      (∀ q, q ∉ p :: xs → (relinkAux s m p xs).nxt q = m.nxt q) ∧
      (∀ q, q ∉ xs → q ≠ s → (relinkAux s m p xs).prv q = m.prv q) ∧
      (relinkAux s m p xs).val = m.val ∧ (relinkAux s m p xs).fresh = m.fresh
  | [], m, p, _, _ => by
      refine ⟨?_, ?_, ?_, rfl, rfl⟩
      · refine List.chain'_cons.mpr ⟨⟨?_, ?_⟩, List.chain'_singleton s⟩ <;>
          simp [relinkAux]
      · intro q hq
        have : q ≠ p := by simpa using hq
        simp [relinkAux, this]
      · intro q _ hqs
        simp [relinkAux, hqs]
  | x :: xs, m, p, hnd, hs => by
      have hpx : p ≠ x := by
        intro h
        exact (List.nodup_cons.mp hnd).1 (h ▸ List.mem_cons_self x xs)
      have hx_xs : x ∉ xs := (List.nodup_cons.mp (List.nodup_cons.mp hnd).2).1
      have hxs : x ≠ s := fun h => hs (h ▸ List.mem_cons_self x xs)
      have hs' : s ∉ xs := fun h => hs (List.mem_cons_of_mem x h)
      have hnd' : (x :: xs).Nodup := (List.nodup_cons.mp hnd).2
      set m1 := setPrv (setNxt m p x) x p with hm1
      obtain ⟨hchain, hnxtf, hprvf, hval, hfresh⟩ := relinkAux_spec xs m1 x hnd' hs'
      have hrw : relinkAux s m p (x :: xs) = relinkAux s m1 x xs := by rw [relinkAux]
      rw [hrw]
      refine ⟨?_, ?_, ?_, ?_, ?_⟩
      · rw [show p :: (x :: xs) ++ [s] = p :: (x :: xs ++ [s]) from rfl]
        refine List.chain'_cons'.mpr ⟨?_, hchain⟩
        intro y hy
        rw [show (x :: xs ++ [s]).head? = some x from rfl, Option.mem_def,
          Option.some_inj] at hy
        subst hy
        constructor
        · rw [hnxtf p (by simp [hpx, (List.nodup_cons.mp hnd).1])]
          rw [hm1]
          simp
        · rw [hprvf x hx_xs hxs, hm1]
          simp
      · intro q hq
        have hq1 : q ∉ x :: xs := fun h => hq (List.mem_cons_of_mem p h)
        have hqp : q ≠ p := fun h => hq (h ▸ List.mem_cons_self p _)
        rw [hnxtf q hq1, hm1]
        simp [hqp]
      · intro q hq hqs
        have hq1 : q ∉ xs := fun h => hq (List.mem_cons_of_mem x h)
        have hqx : q ≠ x := fun h => hq (h ▸ List.mem_cons_self x xs)
        rw [hprvf q hq1 hqs, hm1]
        simp [hqx]
      · rw [hval, hm1]; rfl
      · rw [hfresh, hm1]; rfl

/-- `sort()` rewrites the ring to the bottom-up merge sort of the node
ids, compared by stored value; values and allocation are untouched, and
`n <= 1` is a strict no-op. -/
theorem sortOp_spec [Inhabited α] (lt : α → α → Bool) {m : Mem α} {c : Cont}
    {l : List Nat} (hi : ContInv m c l) :
    ∃ m', sortOp lt m c = (m', c) ∧
      ContInv m' c (buSort (fun i j => !(lt (getv m j) (getv m i))) l) ∧
      m'.val = m.val ∧ m'.fresh = m.fresh ∧
      (c.n ≤ 1 → sortOp lt m c = (m, c)) := by
  set le : Nat → Nat → Bool := fun i j => !(lt (getv m j) (getv m i)) with hle
  by_cases hn : c.n ≤ 1
  · have hsmall : buSort le l = l := buSort_small le (hi.2.1 ▸ hn)
    exact ⟨m, by rw [sortOp, if_pos hn], by rw [hsmall]; exact hi, rfl, rfl,
      fun _ => by rw [sortOp, if_pos hn]⟩
  · have htrav : traverseF m c.s c.n (m.nxt c.s) = l := by
      rw [(ring_sentinel hi.1).1.1]
      exact traverseF_spec hi.1 l [] c.n (by simp) (le_of_eq hi.2.1.symm)
    have hperm : List.Perm (buSort le l) l := buSort_perm le l
    have hnd : (c.s :: buSort le l).Nodup := by
      refine (List.Perm.nodup_iff ?_).mpr hi.1.1
      exact (hperm.cons c.s)
    have hs_not : c.s ∉ buSort le l := (List.nodup_cons.mp hnd).1
    obtain ⟨hchain, _, _, hval, hfresh⟩ :=
      relinkAux_spec (s := c.s) (buSort le l) m c.s hnd hs_not
    refine ⟨relinkAux c.s m c.s (buSort le l), ?_, ?_, hval, hfresh, fun h => absurd h hn⟩
    · rw [sortOp, if_neg hn, htrav]
    · refine ⟨⟨hnd, ?_⟩, ?_, ?_, ?_, ?_⟩
      · rw [ringL]
        exact hchain
      · rw [hperm.length_eq]; exact hi.2.1
      · intro x hx
        rw [hfresh]
        refine hi.2.2.1 x ?_
        rcases List.mem_cons.mp hx with h | h
        · simp [h]
        · exact List.mem_cons_of_mem _ (hperm.subset h)
      · rw [hval]; exact hi.2.2.2.1
      · intro x hx
        rw [hval]
        exact hi.2.2.2.2 x (hperm.subset hx)

/-! ### Strict-weak-order consequences and the stability relation -/

theorem pairwise_indexOf_lt {l : List Nat} (h : l.Nodup) :
    l.Pairwise fun i j => l.indexOf i < l.indexOf j := by
  rw [List.pairwise_iff_get]
  intro i j hij
  rw [List.get_indexOf h i, List.get_indexOf h j]
  exact hij

/-- The rank relation: strictly smaller value, or equivalent value and
an earlier position in the reference order.  It is the strict total
order whose sorted permutations are exactly the stable sorts. -/
theorem rankRel_trans {lt : α → α → Bool} (hswo : SWO lt) (v : Nat → α) (rank : Nat → Nat) :
    Transitive (fun i j => lt (v i) (v j) = true ∨
      (lt (v i) (v j) = false ∧ lt (v j) (v i) = false ∧ rank i < rank j)) := by
  obtain ⟨hirr, htr, hneg⟩ := hswo
  intro a b c hab hbc
  rcases hab with h1 | ⟨h1, h1', hr1⟩
  · rcases hbc with h2 | ⟨h2, h2', hr2⟩
    · exact Or.inl (htr _ _ _ h1 h2)
    · cases hac : lt (v a) (v c) with
      | true => exact Or.inl rfl
      | false =>
          have hf := hneg (v a) (v c) (v b) hac h2'
          rw [h1] at hf
          exact absurd hf (by simp)
  · rcases hbc with h2 | ⟨h2, h2', hr2⟩
    · cases hac : lt (v a) (v c) with
      | true => exact Or.inl rfl
      | false =>
          have hf := hneg (v b) (v a) (v c) h1' hac
          rw [h2] at hf
          exact absurd hf (by simp)
    · exact Or.inr ⟨hneg _ _ _ h1 h2, hneg _ _ _ h2' h1', Nat.lt_trans hr1 hr2⟩

theorem rankRel_antisymm {lt : α → α → Bool} (hswo : SWO lt) (v : Nat → α)
    (rank : Nat → Nat) :
    ∀ i j, (lt (v i) (v j) = true ∨
        (lt (v i) (v j) = false ∧ lt (v j) (v i) = false ∧ rank i < rank j)) →
      (lt (v j) (v i) = true ∨
        (lt (v j) (v i) = false ∧ lt (v i) (v j) = false ∧ rank j < rank i)) → i = j := by
  obtain ⟨hirr, htr, hneg⟩ := hswo
  intro i j hij hji
  exfalso
  rcases hij with h1 | ⟨h1, h1', hr1⟩
  · rcases hji with h2 | ⟨h2, h2', hr2⟩
    · have := htr _ _ _ h1 h2
      rw [hirr] at this
      exact absurd this (by simp)
    · rw [h1] at h2'
      exact absurd h2' (by simp)
  · rcases hji with h2 | ⟨h2, h2', hr2⟩
    · rw [h2] at h1'
      exact absurd h1' (by simp)
    · omega

/-- The pairwise precondition of `buSort_sorted_perm` for the rank
relation holds on any reference list, provided ranks increase along it. -/
theorem rankRel_pairwise_C (lt : α → α → Bool) (v : Nat → α) (rank : Nat → Nat)
    {l : List Nat} (hrank : l.Pairwise fun i j => rank i < rank j) :
    l.Pairwise fun i j =>
      ((fun i j => !(lt (v j) (v i))) i j = true →
        (lt (v i) (v j) = true ∨
          (lt (v i) (v j) = false ∧ lt (v j) (v i) = false ∧ rank i < rank j))) ∧
      ((fun i j => !(lt (v j) (v i))) i j = false →
        (lt (v j) (v i) = true ∨
          (lt (v j) (v i) = false ∧ lt (v i) (v j) = false ∧ rank j < rank i))) := by
  refine hrank.imp ?_
  intro a b hr
  constructor
  · intro hle
    simp only [Bool.not_eq_true'] at hle
    cases hab : lt (v a) (v b) with
    | true => exact Or.inl rfl
    | false => exact Or.inr ⟨rfl, hle, hr⟩
  · intro hle
    simp only [Bool.not_eq_false'] at hle
    exact Or.inl hle

/-! ### `merge(other)`: the advance and block-taking loops -/

/-- The advance loop of line 265 stops at the first remaining node of
this ring whose value the probe value is below, or at the sentinel. -/
theorem advA_spec [Inhabited α] (lt : α → α → Bool) {m : Mem α} {s1 : Nat} (vb : α) :
    ∀ (restA done : List Nat) (fuel : Nat), isRing m s1 (done ++ restA) →
      restA.length + 1 ≤ fuel →
      advA lt m s1 vb fuel (restA.headD s1) =
        (restA.dropWhile fun x => !(lt vb (getv m x))).headD s1 := by
  intro restA
  induction restA with
  | nil =>
      intro done fuel _ hfuel
      cases fuel with
      | zero => simp at hfuel
      | succ f => simp [advA]
  | cons x restA' ih =>
      intro done fuel hr hfuel
      cases fuel with
      | zero => simp at hfuel
      | succ f =>
          have hs1 : s1 ∉ done ++ x :: restA' := (List.nodup_cons.mp hr.1).1
          have hx : x ≠ s1 := by
            intro h
            exact hs1 (h ▸ List.mem_append_right done (List.mem_cons_self x restA'))
          have hnx : m.nxt x = restA'.headD s1 :=
            (ring_adj (u := done) (w := restA') hr).2.1
          rw [show ((x :: restA').headD s1) = x from rfl, advA, if_neg hx,
            List.dropWhile_cons]
          cases hp : lt vb (getv m x) with
          | false =>
              simp only [hp, Bool.not_false, if_true]
              rw [hnx]
              refine ih (done ++ [x]) f ?_ ?_
              · rwa [List.append_assoc, List.singleton_append]
              · simp at hfuel ⊢; omega
          | true => simp [hp]

/-- The block-taking loop of line 280 walks `other`'s remaining nodes
while their values are below the probe value, counting them; it returns
the first node not taken (or the sentinel) and the count. -/
theorem takeB_spec [Inhabited α] (lt : α → α → Bool) {m : Mem α} {s2 : Nat} (va : α) :
    ∀ (restB done : List Nat) (fuel cnt : Nat), isRing m s2 (done ++ restB) →
      restB.length + 1 ≤ fuel →
      takeB lt m s2 va fuel (restB.headD s2) cnt =
        ((restB.dropWhile fun y => lt (getv m y) va).headD s2,
          cnt + (restB.takeWhile fun y => lt (getv m y) va).length) := by
  intro restB
  induction restB with
  | nil =>
      intro done fuel cnt _ hfuel
      cases fuel with
      | zero => simp at hfuel
      | succ f => simp [takeB]
  | cons y restB' ih =>
      intro done fuel cnt hr hfuel
      cases fuel with
      | zero => simp at hfuel
      | succ f =>
          have hs2 : s2 ∉ done ++ y :: restB' := (List.nodup_cons.mp hr.1).1
          have hy : y ≠ s2 := by
            intro h
            exact hs2 (h ▸ List.mem_append_right done (List.mem_cons_self y restB'))
          have hny : m.nxt y = restB'.headD s2 :=
            (ring_adj (u := done) (w := restB') hr).2.1
          rw [show ((y :: restB').headD s2) = y from rfl, takeB, if_neg hy,
            List.dropWhile_cons, List.takeWhile_cons]
          cases hp : lt (getv m y) va with
          | false => simp [hp]
          | true =>
              simp only [hp, if_true]
              rw [hny]
              rw [ih (done ++ [y]) f (cnt + 1)
                (by rwa [List.append_assoc, List.singleton_append])
                (by simp at hfuel ⊢; omega)]
              refine congrArg _ ?_
              simp; omega

/-! ### `merge(other)`: normal forms of the three splice write
sequences, under the adjacency facts of the rings they operate on -/

theorem spliceBlockHeap_eq {m : Mem α} {a start endblk s2 h0 gd : Nat}
    (h1 : m.prv start = s2) (h2 : m.nxt endblk = h0) (h3 : m.prv a = gd)
    (hns : endblk ≠ s2) (hnh : a ≠ h0) :
    spliceBlockHeap m a start endblk =
      setPrv (setNxt (setPrv (setNxt (setPrv (setNxt m s2 h0) h0 s2) gd start)
        start gd) endblk a) a endblk := by
  simp only [spliceBlockHeap]
  rw [h1, h2]
  rw [show (setNxt m s2 h0).nxt endblk = h0 from by
    rw [setNxt_nxt, if_neg hns]; exact h2]
  rw [show (setNxt m s2 h0).prv start = s2 from by rw [setNxt_prv]; exact h1]
  rw [show (setPrv (setNxt m s2 h0) h0 s2).prv a = gd from by
    rw [setPrv_prv, if_neg hnh, setNxt_prv]; exact h3]
  rw [show (setNxt (setPrv (setNxt m s2 h0) h0 s2) gd start).prv a = gd from by
    rw [setNxt_prv, setPrv_prv, if_neg hnh, setNxt_prv]; exact h3]

theorem spliceEndHeap_eq {m : Mem α} {s1 s2 b be gd1 : Nat}
    (hbe : m.prv s2 = be) (hpb : m.prv b = s2) (hnbe : m.nxt be = s2)
    (hprs1 : m.prv s1 = gd1) (hbs2 : be ≠ s2) (hs1s2 : s1 ≠ s2) :
    spliceEndHeap m s1 s2 b =
      setPrv (setNxt (setPrv (setNxt (setPrv (setNxt (setPrv (setNxt m s2 s2)
        s2 s2) s2 s2) s2 s2) gd1 b) b gd1) be s1) s1 be := by
  simp only [spliceEndHeap]
  rw [hbe, hpb, hnbe]
  rw [show (setNxt m s2 s2).nxt be = s2 from by
    rw [setNxt_nxt, if_neg hbs2]; exact hnbe]
  rw [show (setNxt m s2 s2).prv b = s2 from by rw [setNxt_prv]; exact hpb]
  rw [show (setPrv (setNxt (setPrv (setNxt m s2 s2) s2 s2) s2 s2) s2 s2).prv s1 =
      gd1 from by
    rw [setPrv_prv, if_neg hs1s2, setNxt_prv, setPrv_prv, if_neg hs1s2, setNxt_prv]
    exact hprs1]
  rw [show (setNxt (setPrv (setNxt (setPrv (setNxt m s2 s2) s2 s2) s2 s2) s2 s2)
      gd1 b).prv s1 = gd1 from by
    rw [setNxt_prv, setPrv_prv, if_neg hs1s2, setNxt_prv, setPrv_prv,
      if_neg hs1s2, setNxt_prv]
    exact hprs1]

theorem spliceAllHeap_eq {m : Mem α} {s1 s2 h2 g2 : Nat}
    (hn2 : m.nxt s2 = h2) (hp2 : m.prv s2 = g2) (hsh : s1 ≠ h2) :
    spliceAllHeap m s1 s2 =
      setPrv (setNxt (setNxt (setPrv (setPrv (setNxt m s1 h2) s1 g2) h2 s1) g2 s1)
        s2 s2) s2 s2 := by
  simp only [spliceAllHeap]
  rw [hn2]
  rw [show (setNxt m s1 h2).prv s2 = g2 from by rw [setNxt_prv]; exact hp2]
  rw [show (setPrv (setNxt m s1 h2) s1 g2).nxt s1 = h2 from by
    rw [setPrv_nxt, setNxt_nxt, if_pos rfl]]
  rw [show (setPrv (setPrv (setNxt m s1 h2) s1 g2) h2 s1).prv s1 = g2 from by
    rw [setPrv_prv, if_neg hsh, setPrv_prv, if_pos rfl]]

/-! ### `merge(other)`: ring surgery -/

theorem headD_mem {l : List Nat} (h : l ≠ []) (d : Nat) : l.headD d ∈ l := by
  cases l with
  | nil => exact absurd rfl h
  | cons x xs => exact List.mem_cons_self x xs

theorem getLastD_mem : ∀ {l : List Nat}, l ≠ [] → ∀ d : Nat, l.getLastD d ∈ l
  | [], h, _ => absurd rfl h
  | [x], _, _ => by simp
  | x :: y :: l, _, d => by
      rw [List.getLastD_cons]
      exact List.mem_cons_of_mem x (getLastD_mem (List.cons_ne_nil y l) x)

theorem getLastD_mem_cons (l : List Nat) (d : Nat) : l.getLastD d ∈ d :: l := by
  cases l with
  | nil => simp
  | cons x xs => exact List.mem_cons_of_mem d (getLastD_mem (List.cons_ne_nil x xs) d)

/-- Inserting a fresh pairwise-disjoint segment between two parts of a
node list keeps it duplicate-free. -/
theorem nodup_splice {P B Q : List Nat} (h : (P ++ Q).Nodup) (hB : B.Nodup)
    (hd : ∀ x ∈ P ++ Q, x ∉ B) : (P ++ (B ++ Q)).Nodup := by
  have h1 : List.Perm ((P ++ B) ++ Q) ((B ++ P) ++ Q) :=
    List.Perm.append_right Q List.perm_append_comm
  rw [List.append_assoc, List.append_assoc] at h1
  rw [h1.nodup_iff]
  exact List.nodup_append.mpr ⟨hB, h, fun x hxB hxPQ => hd x hxPQ hxB⟩

/-- Taking over the whole ring of `other` when this container is empty:
after the writes of lines 256-259, this ring holds `other`'s data nodes
and `other`'s ring is empty. -/
theorem spliceAll_ring {m M : Mem α} {s1 s2 : Nat} {l2 : List Nat}
    (hM : M = setPrv (setNxt (setNxt (setPrv (setPrv (setNxt m s1 (l2.headD s2)) s1
      (l2.getLastD s2)) (l2.headD s2) s1) (l2.getLastD s2) s1) s2 s2) s2 s2)
    (h2 : isRing m s2 l2) (hdisj : s1 ∉ s2 :: l2) (hl2 : l2 ≠ []) :
    isRing M s1 l2 ∧ isRing M s2 [] := by
  obtain ⟨z0, zz, rfl⟩ := List.exists_cons_of_ne_nil hl2
  set h2' := (z0 :: zz).headD s2 with hh2'
  set g2 := (z0 :: zz).getLastD s2 with hg2
  have hd2 : (s2 :: z0 :: zz).Nodup := h2.1
  have hs2l2 : s2 ∉ z0 :: zz := (List.nodup_cons.mp hd2).1
  have hl2nd : (z0 :: zz).Nodup := (List.nodup_cons.mp hd2).2
  have hs1s2 : s1 ≠ s2 := fun h => hdisj (h ▸ List.mem_cons_self s2 (z0 :: zz))
  have hs1l2 : s1 ∉ z0 :: zz := fun h => hdisj (List.mem_cons_of_mem s2 h)
  have hg2mem : g2 ∈ z0 :: zz := getLastD_mem (List.cons_ne_nil z0 zz) s2
  have hsent := ring_sentinel h2
  have hns2 : m.nxt s2 = h2' := hsent.1.1
  have hph : m.prv h2' = s2 := hsent.1.2
  have hng : m.nxt g2 = s2 := hsent.2.1
  have hps2 : m.prv s2 = g2 := hsent.2.2
  have hN : ∀ q, M.nxt q =
      if q = s2 then s2 else if q = g2 then s1 else if q = s1 then h2' else
        m.nxt q := by
    intro q; rw [hM]
    simp only [setPrv_nxt, setNxt_nxt, setPrv_prv, setNxt_prv]
  have hP : ∀ q, M.prv q =
      if q = s2 then s2 else if q = h2' then s1 else if q = s1 then g2 else
        m.prv q := by
    intro q; rw [hM]
    simp only [setPrv_nxt, setNxt_nxt, setPrv_prv, setNxt_prv]
  have hold : List.Chain' (linkRel m) ((s2 :: z0 :: zz) ++ [s2]) := by
    have := h2.2; rwa [show ringL s2 (z0 :: zz) = (s2 :: z0 :: zz) ++ [s2] from by
      simp [ringL]] at this
  have holdC : List.Chain' (linkRel m) (z0 :: zz) :=
    (List.chain'_append.mp hold).1.tail
  constructor
  · refine ⟨List.nodup_cons.mpr ⟨hs1l2, hl2nd⟩, ?_⟩
    rw [show ringL s1 (z0 :: zz) = s1 :: ((z0 :: zz) ++ [s1]) from by simp [ringL]]
    rw [List.chain'_cons']
    constructor
    · intro y hy
      rw [head?_append_singleton] at hy
      simp only [Option.mem_def, Option.some.injEq] at hy
      subst hy
      constructor
      · rw [hN s1, if_neg hs1s2, if_neg (fun h : s1 = g2 => hs1l2 (h ▸ hg2mem)), if_pos rfl]
        rfl
      · rw [show (z0 :: zz).headD s1 = h2' from rfl, hP h2',
          if_neg (fun h : h2' = s2 => hs2l2 (h ▸ headD_mem (List.cons_ne_nil z0 zz) s2)),
          if_pos rfl]
    · rw [List.chain'_append]
      refine ⟨?_, List.chain'_singleton s1, ?_⟩
      · refine chain'_mem_congr (fun x hx y hy hab => ?_) holdC
        have hys : y ∈ z0 :: zz := List.mem_of_mem_tail hy
        by_cases hxg : x = g2
        · exfalso
          have hy2 : y = s2 := by rw [← hab.1, hxg, hng]
          exact hs2l2 (hy2 ▸ hys)
        constructor
        · rw [hN x, if_neg (fun h : x = s2 => hs2l2 (h ▸ hx)), if_neg hxg,
            if_neg (fun h : x = s1 => hs1l2 (h ▸ hx))]
          exact hab.1
        · rw [hP y, if_neg (fun h : y = s2 => hs2l2 (h ▸ hys)),
            if_neg (headD_ne_mem_tail hl2nd hy),
            if_neg (fun h : y = s1 => hs1l2 (h ▸ hys))]
          exact hab.2
      · intro p hp q hq
        rw [getLast?_cons_getLastD] at hp
        simp only [Option.mem_def, Option.some.injEq, List.head?_cons] at hp hq
        subst hp; subst hq
        have hgz : g2 = zz.getLastD z0 := by rw [hg2, List.getLastD_cons]
        rw [← hgz]
        constructor
        · rw [hN g2, if_neg (fun h : g2 = s2 => hs2l2 (h ▸ hg2mem)), if_pos rfl]
        · rw [hP s1, if_neg hs1s2,
            if_neg (fun h : s1 = h2' => hs1l2 (h ▸ headD_mem (List.cons_ne_nil z0 zz) s2)),
            if_pos rfl]
  · refine ⟨by simp, ?_⟩
    rw [show ringL s2 [] = [s2, s2] from rfl]
    refine List.chain'_cons.mpr ⟨⟨?_, ?_⟩, List.chain'_singleton s2⟩
    · rw [hN s2, if_pos rfl]
    · rw [hP s2, if_pos rfl]

/-- Splicing the whole remainder of `other` at the end of this ring:
after the writes of lines 268-275, this ring is `L1 ++ rB` and `other`'s
ring is empty. -/
theorem spliceEnd_ring {m M : Mem α} {s1 s2 : Nat} {L1 rB : List Nat}
    (hM : M = setPrv (setNxt (setPrv (setNxt (setPrv (setNxt (setPrv (setNxt m s2 s2)
      s2 s2) s2 s2) s2 s2) (L1.getLastD s1) (rB.headD s2)) (rB.headD s2)
      (L1.getLastD s1)) (rB.getLastD s2) s1) s1 (rB.getLastD s2))
    (hr1 : isRing m s1 L1) (hr2 : isRing m s2 rB)
    (hdisj : ∀ x ∈ s1 :: L1, x ∉ s2 :: rB) (hrB : rB ≠ []) :
    isRing M s1 (L1 ++ rB) ∧ isRing M s2 [] := by
  obtain ⟨b0, rbt, rfl⟩ := List.exists_cons_of_ne_nil hrB
  set bh := (b0 :: rbt).headD s2 with hbh
  set be := (b0 :: rbt).getLastD s2 with hbe
  set gd := L1.getLastD s1 with hgd
  have hd1 : (s1 :: L1).Nodup := hr1.1
  have hd2 : (s2 :: b0 :: rbt).Nodup := hr2.1
  have hs2rB : s2 ∉ b0 :: rbt := (List.nodup_cons.mp hd2).1
  have hrBnd : (b0 :: rbt).Nodup := (List.nodup_cons.mp hd2).2
  have hs1L1 : s1 ∉ L1 := (List.nodup_cons.mp hd1).1
  have hs1s2 : s1 ≠ s2 :=
    fun h => hdisj s1 (List.mem_cons_self s1 L1) (h ▸ List.mem_cons_self s2 (b0 :: rbt))
  have hbemem : be ∈ b0 :: rbt := getLastD_mem (List.cons_ne_nil b0 rbt) s2
  have hgdmem : gd ∈ s1 :: L1 := getLastD_mem_cons L1 s1
  have hngd : m.nxt gd = s1 := (ring_sentinel hr1).2.1
  have hnbe : m.nxt be = s2 := (ring_sentinel hr2).2.1
  have hdisj' : ∀ x ∈ s1 :: L1, x ∉ b0 :: rbt :=
    fun x hx hx2 => hdisj x hx (List.mem_cons_of_mem s2 hx2)
  have hbe_ne : ∀ x ∈ s1 :: L1, x ≠ be := fun x hx h => hdisj' x hx (h ▸ hbemem)
  have hb0_ne : ∀ x ∈ s1 :: L1, x ≠ b0 :=
    fun x hx h => hdisj' x hx (h ▸ List.mem_cons_self b0 rbt)
  have hs2_ne : ∀ x ∈ s1 :: L1, x ≠ s2 :=
    fun x hx h => hdisj x hx (h ▸ List.mem_cons_self s2 (b0 :: rbt))
  have hgd_ne2 : ∀ x ∈ b0 :: rbt, x ≠ gd := fun x hx h => hdisj' gd hgdmem (h ▸ hx)
  have hs1_ne2 : ∀ x ∈ b0 :: rbt, x ≠ s1 :=
    fun x hx h => hdisj' s1 (List.mem_cons_self s1 L1) (h ▸ hx)
  have hN : ∀ q, M.nxt q = if q = be then s1 else if q = gd then bh else
      if q = s2 then s2 else if q = s2 then s2 else m.nxt q := by
    intro q; rw [hM]; simp only [setPrv_nxt, setNxt_nxt, setPrv_prv, setNxt_prv]
  have hP : ∀ q, M.prv q = if q = s1 then be else if q = bh then gd else
      if q = s2 then s2 else if q = s2 then s2 else m.prv q := by
    intro q; rw [hM]; simp only [setPrv_nxt, setNxt_nxt, setPrv_prv, setNxt_prv]
  have hold1 : List.Chain' (linkRel m) ((s1 :: L1) ++ [s1]) := by
    have := hr1.2
    rwa [show ringL s1 L1 = (s1 :: L1) ++ [s1] from by simp [ringL]] at this
  have hA : List.Chain' (linkRel m) (s1 :: L1) := (List.chain'_append.mp hold1).1
  have hold2 : List.Chain' (linkRel m) ((s2 :: b0 :: rbt) ++ [s2]) := by
    have := hr2.2
    rwa [show ringL s2 (b0 :: rbt) = (s2 :: b0 :: rbt) ++ [s2] from by
      simp [ringL]] at this
  have hB : List.Chain' (linkRel m) (b0 :: rbt) :=
    (List.chain'_append.mp hold2).1.tail
  constructor
  · constructor
    · rw [show s1 :: (L1 ++ b0 :: rbt) = (s1 :: L1) ++ (b0 :: rbt) from rfl]
      exact List.nodup_append.mpr ⟨hd1, hrBnd, hdisj'⟩
    · rw [show ringL s1 (L1 ++ b0 :: rbt) =
        (s1 :: L1) ++ ((b0 :: rbt) ++ [s1]) from by simp [ringL]]
      rw [List.chain'_append]
      refine ⟨?_, ?_, ?_⟩
      · refine chain'_mem_congr (fun x hx y hy hab => ?_) hA
        have hyL1 : y ∈ L1 := hy
        have hyL : y ∈ s1 :: L1 := List.mem_cons_of_mem s1 hyL1
        by_cases hxg : x = gd
        · exfalso
          have hh : y = s1 := by rw [← hab.1, hxg, hngd]
          exact hs1L1 (hh ▸ hyL1)
        constructor
        · rw [hN x, if_neg (hbe_ne x hx), if_neg hxg, if_neg (hs2_ne x hx),
            if_neg (hs2_ne x hx)]
          exact hab.1
        · rw [hP y, if_neg (fun h : y = s1 => hs1L1 (h ▸ hyL1)),
            if_neg (fun h : y = bh => hdisj' y hyL
              (by rw [h]; exact List.mem_cons_self b0 rbt)),
            if_neg (hs2_ne y hyL), if_neg (hs2_ne y hyL)]
          exact hab.2
      · rw [List.chain'_append]
        refine ⟨?_, List.chain'_singleton s1, ?_⟩
        · refine chain'_mem_congr (fun x hx y hy hab => ?_) hB
          have hyr : y ∈ b0 :: rbt := List.mem_of_mem_tail hy
          by_cases hxbe : x = be
          · exfalso
            have hh : y = s2 := by rw [← hab.1, hxbe, hnbe]
            exact hs2rB (hh ▸ hyr)
          constructor
          · rw [hN x, if_neg hxbe, if_neg (hgd_ne2 x hx),
              if_neg (fun h : x = s2 => hs2rB (h ▸ hx)),
              if_neg (fun h : x = s2 => hs2rB (h ▸ hx))]
            exact hab.1
          · rw [hP y, if_neg (hs1_ne2 y hyr), if_neg (headD_ne_mem_tail hrBnd hy),
              if_neg (fun h : y = s2 => hs2rB (h ▸ hyr)),
              if_neg (fun h : y = s2 => hs2rB (h ▸ hyr))]
            exact hab.2
        · intro p hp q hq
          rw [getLast?_cons_getLastD] at hp
          simp only [Option.mem_def, Option.some.injEq, List.head?_cons] at hp hq
          subst hp; subst hq
          have hbz : be = rbt.getLastD b0 := by rw [hbe, List.getLastD_cons]
          rw [← hbz]
          constructor
          · rw [hN be, if_pos rfl]
          · rw [hP s1, if_pos rfl]
      · intro p hp q hq
        rw [getLast?_cons_getLastD] at hp
        rw [head?_append_singleton] at hq
        simp only [Option.mem_def, Option.some.injEq, List.headD_cons] at hp hq
        subst hp; subst hq
        constructor
        · rw [hN gd, if_neg (hbe_ne gd hgdmem), if_pos rfl]
          rfl
        · rw [hP b0, if_neg (hs1_ne2 b0 (List.mem_cons_self b0 rbt)),
            if_pos (show b0 = bh from rfl)]
  · refine ⟨by simp, ?_⟩
    rw [show ringL s2 [] = [s2, s2] from rfl]
    refine List.chain'_cons.mpr ⟨⟨?_, ?_⟩, List.chain'_singleton s2⟩
    · rw [hN s2, if_neg (fun h : s2 = be => hs2rB (h ▸ hbemem)),
        if_neg (fun h : s2 = gd => hs2_ne gd hgdmem h.symm), if_pos rfl]
    · rw [hP s2, if_neg (fun h : s2 = s1 => hs1s2 h.symm),
        if_neg (fun h : s2 = bh => hs2rB (by rw [h]; exact List.mem_cons_self b0 rbt)),
        if_pos rfl]

/-- Detaching a non-empty prefix block from `other`'s ring and linking
it immediately before node `a` of this ring: after the writes of lines
283-289, this ring is `done ++ blk ++ a :: w` and `other`'s ring is the
remainder `rest'`. -/
theorem spliceBlock_ring {m M : Mem α} {s1 s2 a : Nat} {done w blk rest' : List Nat}
    (hM : M = setPrv (setNxt (setPrv (setNxt (setPrv (setNxt m s2 (rest'.headD s2))
      (rest'.headD s2) s2) (done.getLastD s1) (blk.headD s2)) (blk.headD s2)
      (done.getLastD s1)) (blk.getLastD s2) a) a (blk.getLastD s2))
    (hr1 : isRing m s1 (done ++ a :: w)) (hr2 : isRing m s2 (blk ++ rest'))
    (hdisj : ∀ x ∈ s1 :: (done ++ a :: w), x ∉ s2 :: (blk ++ rest'))
    (hblk : blk ≠ []) :
    isRing M s1 (done ++ blk ++ a :: w) ∧ isRing M s2 rest' := by
  obtain ⟨bh0, bt, rfl⟩ := List.exists_cons_of_ne_nil hblk
  set bh := (bh0 :: bt).headD s2 with hbh
  set eb := (bh0 :: bt).getLastD s2 with hebd
  set gd := done.getLastD s1 with hgdd
  set h0 := rest'.headD s2 with hh0d
  have hd1 : (s1 :: (done ++ a :: w)).Nodup := hr1.1
  have hd2 : (s2 :: ((bh0 :: bt) ++ rest')).Nodup := hr2.1
  have hs1_notin : s1 ∉ done ++ a :: w := (List.nodup_cons.mp hd1).1
  have hnd1' : (done ++ a :: w).Nodup := (List.nodup_cons.mp hd1).2
  have hs2_notin : s2 ∉ (bh0 :: bt) ++ rest' := (List.nodup_cons.mp hd2).1
  have hnd2' : ((bh0 :: bt) ++ rest').Nodup := (List.nodup_cons.mp hd2).2
  have hnd1s := List.nodup_append.mp hnd1'
  have haw_nd : (a :: w).Nodup := hnd1s.2.1
  have hdisj_dw : List.Disjoint done (a :: w) := hnd1s.2.2
  have ha_done : a ∉ done := fun h => hdisj_dw h (List.mem_cons_self a w)
  have ha_w : a ∉ w := (List.nodup_cons.mp haw_nd).1
  have hamem : a ∈ done ++ a :: w := List.mem_append_right done (List.mem_cons_self a w)
  have has1 : a ≠ s1 := fun h => hs1_notin (h ▸ hamem)
  have hnd2s := List.nodup_append.mp hnd2'
  have hblk_nd : (bh0 :: bt).Nodup := hnd2s.1
  have hrest_nd : rest'.Nodup := hnd2s.2.1
  have hdisj_br : List.Disjoint (bh0 :: bt) rest' := hnd2s.2.2
  have hebmem : eb ∈ bh0 :: bt := getLastD_mem (List.cons_ne_nil bh0 bt) s2
  have hbh0mem : bh0 ∈ bh0 :: bt := List.mem_cons_self bh0 bt
  have hgdS1 : gd ∈ s1 :: (done ++ a :: w) := by
    rcases List.mem_cons.mp (getLastD_mem_cons done s1) with h | h
    · exact h ▸ List.mem_cons_self _ _
    · exact List.mem_cons_of_mem s1 (List.mem_append_left _ h)
  have haS1 : a ∈ s1 :: (done ++ a :: w) := List.mem_cons_of_mem s1 hamem
  have hs1S1 : s1 ∈ s1 :: (done ++ a :: w) := List.mem_cons_self _ _
  have hebS2 : eb ∈ s2 :: ((bh0 :: bt) ++ rest') :=
    List.mem_cons_of_mem s2 (List.mem_append_left rest' hebmem)
  have hbhS2 : bh0 ∈ s2 :: ((bh0 :: bt) ++ rest') :=
    List.mem_cons_of_mem s2 (List.mem_append_left rest' hbh0mem)
  have hs2S2 : s2 ∈ s2 :: ((bh0 :: bt) ++ rest') := List.mem_cons_self _ _
  have hh0S2 : h0 ∈ s2 :: ((bh0 :: bt) ++ rest') := by
    cases rest' with
    | nil => exact List.mem_cons_self _ _
    | cons r0 rr =>
        exact List.mem_cons_of_mem s2
          (List.mem_append_right _ (List.mem_cons_self r0 rr))
  have hh0blk : h0 ∉ bh0 :: bt := by
    cases rest' with
    | nil => exact fun h => hs2_notin (List.mem_append_left _ h)
    | cons r0 rr => exact fun h => hdisj_br h (List.mem_cons_self r0 rr)
  have hne_eb : ∀ x ∈ s1 :: (done ++ a :: w), x ≠ eb :=
    fun x hx h => hdisj x hx (h ▸ hebS2)
  have hne_bh : ∀ x ∈ s1 :: (done ++ a :: w), x ≠ bh :=
    fun x hx h => hdisj x hx (h ▸ hbhS2)
  have hne_s2 : ∀ x ∈ s1 :: (done ++ a :: w), x ≠ s2 :=
    fun x hx h => hdisj x hx (h ▸ hs2S2)
  have hne_h0 : ∀ x ∈ s1 :: (done ++ a :: w), x ≠ h0 :=
    fun x hx h => hdisj x hx (h ▸ hh0S2)
  have hne2_gd : ∀ x ∈ s2 :: ((bh0 :: bt) ++ rest'), x ≠ gd :=
    fun x hx h => hdisj gd hgdS1 (h ▸ hx)
  have hne2_a : ∀ x ∈ s2 :: ((bh0 :: bt) ++ rest'), x ≠ a :=
    fun x hx h => hdisj a haS1 (h ▸ hx)
  have hnga : m.nxt gd = a := (ring_adj (u := done) (w := w) hr1).1.1
  have hns2 : m.nxt s2 = bh0 := (ring_sentinel hr2).1.1
  have hold1 : List.Chain' (linkRel m) ((s1 :: done) ++ (a :: (w ++ [s1]))) := by
    have := hr1.2
    rwa [show ringL s1 (done ++ a :: w) = (s1 :: done) ++ (a :: (w ++ [s1])) from by
      simp [ringL]] at this
  have holdA : List.Chain' (linkRel m) (s1 :: done) := (List.chain'_append.mp hold1).1
  have holdC : List.Chain' (linkRel m) (a :: (w ++ [s1])) :=
    (List.chain'_append.mp hold1).2.1
  have hold2 : List.Chain' (linkRel m)
      ((s2 :: bh0 :: bt) ++ (rest' ++ [s2])) := by
    have := hr2.2
    rwa [show ringL s2 ((bh0 :: bt) ++ rest') =
      (s2 :: bh0 :: bt) ++ (rest' ++ [s2]) from by simp [ringL]] at this
  have holdB : List.Chain' (linkRel m) (bh0 :: bt) :=
    (List.chain'_append.mp hold2).1.tail
  have holdD : List.Chain' (linkRel m) (rest' ++ [s2]) :=
    (List.chain'_append.mp hold2).2.1
  have hneb : m.nxt eb = h0 := by
    have hbr := (List.chain'_append.mp hold2).2.2
    exact (hbr eb (by rw [getLast?_cons_getLastD]; rfl) h0
      (by rw [head?_append_singleton]; rfl)).1
  have hN : ∀ q, M.nxt q = if q = eb then a else if q = gd then bh else
      if q = s2 then h0 else m.nxt q := by
    intro q; rw [hM]; simp only [setPrv_nxt, setNxt_nxt, setPrv_prv, setNxt_prv]
  have hP : ∀ q, M.prv q = if q = a then eb else if q = bh then gd else
      if q = h0 then s2 else m.prv q := by
    intro q; rw [hM]; simp only [setPrv_nxt, setNxt_nxt, setPrv_prv, setNxt_prv]
  have hmemC : ∀ x ∈ a :: (w ++ [s1]), x ∈ s1 :: (done ++ a :: w) := by
    intro x hx; simp at hx ⊢; tauto
  have hmemD : ∀ x ∈ rest' ++ [s2], x ∈ s2 :: ((bh0 :: bt) ++ rest') := by
    intro x hx; simp at hx ⊢; tauto
  have ha_not_tail : a ∉ w ++ [s1] := by
    intro h
    rcases List.mem_append.mp h with h | h
    · exact ha_w h
    · exact has1 (by simpa using h)
  have heb_notD : eb ∉ rest' ++ [s2] := by
    intro h
    rcases List.mem_append.mp h with h | h
    · exact hdisj_br hebmem h
    · have h' : eb = s2 := by simpa using h
      exact hs2_notin (h' ▸ List.mem_append_left rest' hebmem)
  have hbh_notD : bh0 ∉ rest' ++ [s2] := by
    intro h
    rcases List.mem_append.mp h with h | h
    · exact hdisj_br hbh0mem h
    · have h' : bh0 = s2 := by simpa using h
      exact hs2_notin (h' ▸ List.mem_append_left rest' hbh0mem)
  constructor
  · constructor
    · rw [show s1 :: (done ++ (bh0 :: bt) ++ a :: w) =
        (s1 :: done) ++ ((bh0 :: bt) ++ (a :: w)) from by simp]
      refine nodup_splice ?_ hblk_nd ?_
      · rw [show (s1 :: done) ++ (a :: w) = s1 :: (done ++ a :: w) from rfl]
        exact hd1
      · intro x hx
        have hx1 : x ∈ s1 :: (done ++ a :: w) := by
          rw [show (s1 :: done) ++ (a :: w) = s1 :: (done ++ a :: w) from rfl] at hx
          exact hx
        exact fun h => hdisj x hx1 (List.mem_cons_of_mem s2 (List.mem_append_left rest' h))
    · rw [show ringL s1 (done ++ (bh0 :: bt) ++ a :: w) =
        (s1 :: done) ++ ((bh0 :: bt) ++ (a :: (w ++ [s1]))) from by
        simp [ringL]]
      rw [List.chain'_append]
      refine ⟨?_, ?_, ?_⟩
      · refine chain'_mem_congr (fun x hx y hy hab => ?_) holdA
        have hyd : y ∈ done := hy
        have hxS1 : x ∈ s1 :: (done ++ a :: w) := by
          rcases List.mem_cons.mp hx with h | h
          · exact h ▸ hs1S1
          · exact List.mem_cons_of_mem s1 (List.mem_append_left _ h)
        have hyS1 : y ∈ s1 :: (done ++ a :: w) :=
          List.mem_cons_of_mem s1 (List.mem_append_left _ hyd)
        by_cases hxg : x = gd
        · exfalso
          have hh : y = a := by rw [← hab.1, hxg, hnga]
          exact ha_done (hh ▸ hyd)
        constructor
        · rw [hN x, if_neg (hne_eb x hxS1), if_neg hxg, if_neg (hne_s2 x hxS1)]
          exact hab.1
        · rw [hP y, if_neg (fun h : y = a => ha_done (h ▸ hyd)),
            if_neg (hne_bh y hyS1), if_neg (hne_h0 y hyS1)]
          exact hab.2
      · rw [List.chain'_append]
        refine ⟨?_, ?_, ?_⟩
        · refine chain'_mem_congr (fun x hx y hy hab => ?_) holdB
          have hyblk : y ∈ bh0 :: bt := List.mem_of_mem_tail hy
          have hxS2 : x ∈ s2 :: ((bh0 :: bt) ++ rest') :=
            List.mem_cons_of_mem s2 (List.mem_append_left rest' hx)
          have hyS2 : y ∈ s2 :: ((bh0 :: bt) ++ rest') :=
            List.mem_cons_of_mem s2 (List.mem_append_left rest' hyblk)
          by_cases hxe : x = eb
          · exfalso
            have hh : y = h0 := by rw [← hab.1, hxe, hneb]
            exact hh0blk (hh ▸ hyblk)
          constructor
          · rw [hN x, if_neg hxe, if_neg (hne2_gd x hxS2),
              if_neg (fun h : x = s2 => hs2_notin (h ▸ List.mem_append_left rest' hx))]
            exact hab.1
          · rw [hP y, if_neg (hne2_a y hyS2),
              if_neg (headD_ne_mem_tail hblk_nd hy),
              if_neg (fun h : y = h0 => hh0blk (h ▸ hyblk))]
            exact hab.2
        · refine chain'_mem_congr (fun x hx y hy hab => ?_) holdC
          have hxS1 : x ∈ s1 :: (done ++ a :: w) := hmemC x hx
          have hyS1 : y ∈ s1 :: (done ++ a :: w) :=
            hmemC y (List.mem_cons_of_mem a hy)
          by_cases hxg : x = gd
          · exfalso
            have hh : y = a := by rw [← hab.1, hxg, hnga]
            exact ha_not_tail (hh ▸ hy)
          constructor
          · rw [hN x, if_neg (hne_eb x hxS1), if_neg hxg, if_neg (hne_s2 x hxS1)]
            exact hab.1
          · rw [hP y, if_neg (fun h : y = a => ha_not_tail (h ▸ hy)),
              if_neg (hne_bh y hyS1), if_neg (hne_h0 y hyS1)]
            exact hab.2
        · intro p hp q hq
          rw [getLast?_cons_getLastD] at hp
          simp only [Option.mem_def, Option.some.injEq, List.head?_cons] at hp hq
          subst hp; subst hq
          have hbz : eb = bt.getLastD bh0 := by rw [hebd, List.getLastD_cons]
          rw [← hbz]
          constructor
          · rw [hN eb, if_pos rfl]
          · rw [hP a, if_pos rfl]
      · intro p hp q hq
        rw [getLast?_cons_getLastD] at hp
        simp only [Option.mem_def, Option.some.injEq, List.cons_append,
          List.head?_cons] at hp hq
        subst hp; subst hq
        constructor
        · rw [hN gd, if_neg (hne_eb gd hgdS1), if_pos rfl]
          rfl
        · rw [hP bh0, if_neg (hne2_a bh0 hbhS2),
            if_pos (show bh0 = bh from rfl)]
  · constructor
    · exact List.nodup_cons.mpr
        ⟨fun h => hs2_notin (List.mem_append_right _ h), hrest_nd⟩
    · rw [show ringL s2 rest' = s2 :: (rest' ++ [s2]) from by simp [ringL]]
      rw [List.chain'_cons']
      constructor
      · intro y hy
        rw [head?_append_singleton] at hy
        simp only [Option.mem_def, Option.some.injEq] at hy
        subst hy
        constructor
        · rw [hN s2,
            if_neg (fun h : s2 = eb =>
              hs2_notin (h ▸ List.mem_append_left rest' hebmem)),
            if_neg (hne2_gd s2 hs2S2), if_pos rfl]
        · rw [show rest'.headD s2 = h0 from rfl, hP h0,
            if_neg (hne2_a h0 hh0S2),
            if_neg (fun h : h0 = bh => hh0blk (by rw [h]; exact hbh0mem)),
            if_pos rfl]
      · refine chain'_mem_congr (fun x hx y hy hab => ?_) holdD
        have hy' : y ∈ rest' ++ [s2] := List.mem_of_mem_tail hy
        have hndD : (rest' ++ [s2]).Nodup := by
          refine List.nodup_append.mpr ⟨hrest_nd, List.nodup_singleton s2, ?_⟩
          intro x hxr hxs
          have hxs2 : x = s2 := by simpa using hxs
          exact hs2_notin (hxs2 ▸ List.mem_append_right _ hxr)
        have hy_ne_h0 : y ≠ h0 := by
          have hh := headD_ne_mem_tail (d := 0) hndD hy
          rwa [headD_append_singleton] at hh
        by_cases hx2 : x = s2
        · exfalso
          have hh : y = bh0 := by rw [← hab.1, hx2, hns2]
          exact hbh_notD (hh ▸ hy')
        by_cases hxe : x = eb
        · exact absurd (hxe ▸ hx) heb_notD
        constructor
        · rw [hN x, if_neg hxe, if_neg (hne2_gd x (hmemD x hx)), if_neg hx2]
          exact hab.1
        · rw [hP y, if_neg (hne2_a y (hmemD y hy')),
            if_neg (fun h : y = bh => hbh_notD (show bh ∈ rest' ++ [s2] from h ▸ hy')),
            if_neg hy_ne_h0]
          exact hab.2

/-- The outer merge loop (lines 263-293): under the structural ring
invariants alone (no sortedness assumed), the loop computes exactly the
two-run merge `mergeTwo` of the remaining node sequences, with this
container's processed prefix `done` untouched in front; `other` is left
empty, the counts are updated accordingly, and no value slot or
allocation state changes. -/
theorem mergeLoop_spec [Inhabited α] (lt : α → α → Bool) {s1 s2 : Nat} :
    ∀ (fuel : Nat) (m : Mem α) (done restA restB : List Nat),
      isRing m s1 (done ++ restA) → isRing m s2 restB →
      (∀ x ∈ s1 :: (done ++ restA), x ∉ s2 :: restB) →
      restB.length + 1 ≤ fuel →
      ∃ m' : Mem α,
        mergeLoop lt fuel m ⟨s1, done.length + restA.length⟩ ⟨s2, restB.length⟩
            (restA.headD s1) (restB.headD s2) =
          (m', ⟨s1, done.length + (restA.length + restB.length)⟩, ⟨s2, 0⟩) ∧
        isRing m' s1
          (done ++ mergeTwo (fun i j => !(lt (getv m j) (getv m i))) restA restB) ∧
        isRing m' s2 [] ∧ m'.val = m.val ∧ m'.fresh = m.fresh := by
  intro fuel
  induction fuel with
  | zero => intro m done restA restB _ _ _ hfuel; omega
  | succ f ih =>
      intro m done restA restB hr1 hr2 hdisj hfuel
      cases restB with
      | nil =>
          refine ⟨m, ?_, ?_, hr2, rfl, rfl⟩
          · rw [mergeLoop]
            simp
          · rw [mergeTwo_nil_right]
            exact hr1
      | cons b0 rbt =>
          have hd2 : (s2 :: b0 :: rbt).Nodup := hr2.1
          have hb0s2 : b0 ≠ s2 :=
            fun h => (List.nodup_cons.mp hd2).1 (h ▸ List.mem_cons_self b0 rbt)
          have hs1dA : s1 ∉ done ++ restA := (List.nodup_cons.mp hr1.1).1
          have hadv := advA_spec lt (getv m b0) restA done
            (done.length + restA.length + 1) hr1 (by omega)
          set t := restA.takeWhile (fun x => !(lt (getv m b0) (getv m x))) with ht
          set rr := restA.dropWhile (fun x => !(lt (getv m b0) (getv m x))) with hrrd
          have hsplit : t ++ rr = restA :=
            List.takeWhile_append_dropWhile (fun x => !(lt (getv m b0) (getv m x))) restA
          by_cases hrnil : rr = []
          · -- the advance loop ran off the end: splice everything at the end
            have hadv0 : advA lt m s1 (getv m b0)
                (done.length + restA.length + 1) (restA.headD s1) = s1 := by
              rw [hadv, hrnil]; rfl
            have htall : t = restA := by
              have hh := hsplit
              rw [hrnil, List.append_nil] at hh
              exact hh
            have hple : ∀ x ∈ restA,
                (fun i j : Nat => !(lt (getv m j) (getv m i))) x b0 = true := by
              intro x hx
              rw [← htall, ht] at hx
              have hq := List.mem_takeWhile_imp hx
              exact hq
            have hbe0 : m.prv s2 = (b0 :: rbt).getLastD s2 := (ring_sentinel hr2).2.2
            have hpb0 : m.prv b0 = s2 := (ring_sentinel hr2).1.2
            have hnbe0 : m.nxt ((b0 :: rbt).getLastD s2) = s2 := (ring_sentinel hr2).2.1
            have hprs1 : m.prv s1 = (done ++ restA).getLastD s1 :=
              (ring_sentinel hr1).2.2
            have hbs2 : (b0 :: rbt).getLastD s2 ≠ s2 :=
              fun h => (List.nodup_cons.mp hd2).1
                (h ▸ getLastD_mem (List.cons_ne_nil b0 rbt) s2)
            have hs1s2 : s1 ≠ s2 :=
              fun h => hdisj s1 (List.mem_cons_self _ _)
                (h ▸ List.mem_cons_self s2 (b0 :: rbt))
            have hM := spliceEndHeap_eq (b := b0) hbe0 hpb0 hnbe0 hprs1 hbs2 hs1s2
            have hsurg := spliceEnd_ring hM hr1 hr2 hdisj (List.cons_ne_nil b0 rbt)
            refine ⟨spliceEndHeap m s1 s2 b0, ?_, ?_, hsurg.2, rfl, rfl⟩
            · rw [mergeLoop]
              simp only [List.headD_cons]
              rw [if_neg hb0s2, hadv0, if_pos rfl, Nat.add_assoc]
            · have hmt : mergeTwo (fun i j : Nat => !(lt (getv m j) (getv m i)))
                  restA (b0 :: rbt) = restA ++ (b0 :: rbt) := by
                have h1 := mergeTwo_left_peel
                  (fun i j : Nat => !(lt (getv m j) (getv m i))) b0 rbt restA [] hple
                rw [List.append_nil] at h1
                rw [h1, show mergeTwo (fun i j : Nat => !(lt (getv m j) (getv m i)))
                  ([] : List Nat) (b0 :: rbt) = b0 :: rbt from by rw [mergeTwo]]
              rw [hmt, ← List.append_assoc]
              exact hsurg.1
          · -- a stopped at a live node a1: detach a block and continue
            obtain ⟨a1, rA, hra⟩ := List.exists_cons_of_ne_nil hrnil
            have hT : t ++ (a1 :: rA) = restA := by rw [← hra]; exact hsplit
            have hL1 := congrArg List.length hT
            rw [List.length_append] at hL1
            have ha1mem : a1 ∈ restA := by
              rw [← hT]
              exact List.mem_append_right t (List.mem_cons_self a1 rA)
            have ha1s1 : a1 ≠ s1 :=
              fun h => hs1dA (h ▸ List.mem_append_right done ha1mem)
            have hadv' : advA lt m s1 (getv m b0)
                (done.length + restA.length + 1) (restA.headD s1) = a1 := by
              rw [hadv, hra]; rfl
            have hpa1f : (fun x => !(lt (getv m b0) (getv m x))) a1 = false := by
              apply head?_dropWhile_false (fun x => !(lt (getv m b0) (getv m x))) restA
              rw [← hrrd, hra]; rfl
            have htakeB := takeB_spec lt (getv m a1) (b0 :: rbt) []
              ((b0 :: rbt).length + 1) 0 (by rw [List.nil_append]; exact hr2)
              (by omega)
            set blk := (b0 :: rbt).takeWhile (fun y => lt (getv m y) (getv m a1))
              with hblkd
            set rest2 := (b0 :: rbt).dropWhile (fun y => lt (getv m y) (getv m a1))
              with hrest2d
            have hB2 : blk ++ rest2 = b0 :: rbt :=
              List.takeWhile_append_dropWhile (fun y => lt (getv m y) (getv m a1)) (b0 :: rbt)
            have hL2 := congrArg List.length hB2
            rw [List.length_append] at hL2
            have hq_b0 : lt (getv m b0) (getv m a1) = true := by
              have hh := hpa1f
              simp only [Bool.not_eq_false'] at hh
              exact hh
            have hblk_cons : blk = b0 :: rbt.takeWhile
                (fun y => lt (getv m y) (getv m a1)) := by
              rw [hblkd, List.takeWhile_cons, if_pos hq_b0]
            have hblk_ne : blk ≠ [] := by rw [hblk_cons]; exact List.cons_ne_nil _ _
            have hblk_len : 1 ≤ blk.length := by rw [hblk_cons]; simp
            have htake' : takeB lt m s2 (getv m a1) ((b0 :: rbt).length + 1) b0 0 =
                (rest2.headD s2, 0 + blk.length) := htakeB
            -- ring reshapes
            have hr1' : isRing m s1 ((done ++ t) ++ a1 :: rA) := by
              rw [List.append_assoc, hT]; exact hr1
            have hr2' : isRing m s2 (blk ++ rest2) := by rw [hB2]; exact hr2
            have hdisj2 : ∀ x ∈ s1 :: ((done ++ t) ++ a1 :: rA),
                x ∉ s2 :: (blk ++ rest2) := by
              intro x hx
              rw [List.append_assoc, hT] at hx
              rw [hB2]
              exact hdisj x hx
            -- the endblk expression evaluates to the last node of the block
            have hbr2 : List.Chain' (linkRel m) ((s2 :: blk) ++ (rest2 ++ [s2])) := by
              have := hr2'.2
              rwa [show ringL s2 (blk ++ rest2) = (s2 :: blk) ++ (rest2 ++ [s2]) from by
                simp [ringL]] at this
            have hlink_eb : linkRel m (blk.getLastD s2) (rest2.headD s2) :=
              (List.chain'_append.mp hbr2).2.2 (blk.getLastD s2)
                (by rw [getLast?_cons_getLastD]; rfl) (rest2.headD s2)
                (by rw [head?_append_singleton]; rfl)
            have hebmem : blk.getLastD s2 ∈ b0 :: rbt := by
              rw [← hB2]
              exact List.mem_append_left rest2 (getLastD_mem hblk_ne s2)
            have hns : blk.getLastD s2 ≠ s2 :=
              fun h => (List.nodup_cons.mp hd2).1 (h ▸ hebmem)
            have hend : (if rest2.headD s2 = s2 then m.prv s2
                else m.prv (rest2.headD s2)) = blk.getLastD s2 := by
              cases hcase : rest2 with
              | nil =>
                  rw [show (([] : List Nat)).headD s2 = s2 from rfl, if_pos rfl]
                  have hh := (ring_sentinel hr2).2.2
                  rw [hh]
                  have hb2' := hB2
                  rw [hcase, List.append_nil] at hb2'
                  rw [← hb2']
              | cons r0 rr0 =>
                  have hr0s2 : r0 ≠ s2 := by
                    intro h
                    refine (List.nodup_cons.mp hd2).1 ?_
                    rw [← h, ← hB2, hcase]
                    exact List.mem_append_right blk (List.mem_cons_self r0 rr0)
                  rw [show ((r0 :: rr0) : List Nat).headD s2 = r0 from rfl, if_neg hr0s2]
                  have hadj := ring_adj (u := blk) (w := rr0)
                    (by rw [← hcase]; exact hr2')
                  exact hadj.1.2
            have hh0S2 : rest2.headD s2 ∈ s2 :: (blk ++ rest2) := by
              cases hcase : rest2 with
              | nil => exact List.mem_cons_self _ _
              | cons r0 rr0 =>
                  exact List.mem_cons_of_mem s2
                    (List.mem_append_right blk (List.mem_cons_self r0 rr0))
            have hnh : a1 ≠ rest2.headD s2 := by
              intro h
              refine hdisj2 a1 ?_ (h ▸ hh0S2)
              exact List.mem_cons_of_mem s1
                (List.mem_append_right (done ++ t) (List.mem_cons_self a1 rA))
            have hpb0 : m.prv b0 = s2 := (ring_sentinel hr2).1.2
            have hpa1 : m.prv a1 = (done ++ t).getLastD s1 :=
              (ring_adj (u := done ++ t) (w := rA) hr1').1.2
            have hMeq : spliceBlockHeap m a1 b0
                (if rest2.headD s2 = s2 then m.prv s2 else m.prv (rest2.headD s2)) =
                setPrv (setNxt (setPrv (setNxt (setPrv (setNxt m s2 (rest2.headD s2))
                  (rest2.headD s2) s2) ((done ++ t).getLastD s1) (blk.headD s2))
                  (blk.headD s2) ((done ++ t).getLastD s1)) (blk.getLastD s2) a1) a1
                  (blk.getLastD s2) := by
              have h2' : m.nxt (if rest2.headD s2 = s2 then m.prv s2
                  else m.prv (rest2.headD s2)) = rest2.headD s2 := by
                rw [hend]; exact hlink_eb.1
              have hns' : (if rest2.headD s2 = s2 then m.prv s2
                  else m.prv (rest2.headD s2)) ≠ s2 := by
                rw [hend]; exact hns
              have hb0h : b0 = blk.headD s2 := by rw [hblk_cons]; rfl
              rw [spliceBlockHeap_eq hpb0 h2' hpa1 hns' hnh, hend, hb0h]
            have hsurg := spliceBlock_ring hMeq hr1' hr2' hdisj2 hblk_ne
            -- disjointness for the next iteration
            have hsub2 : ∀ z ∈ s2 :: rest2, z ∈ s2 :: (blk ++ rest2) := by
              intro z hz
              rcases List.mem_cons.mp hz with h | h
              · exact h ▸ List.mem_cons_self _ _
              · exact List.mem_cons_of_mem s2 (List.mem_append_right blk h)
            have hnd2' : (blk ++ rest2).Nodup := by
              rw [hB2]; exact (List.nodup_cons.mp hd2).2
            have hdisj3 : ∀ x ∈ s1 :: (((done ++ t) ++ blk) ++ a1 :: rA),
                x ∉ s2 :: rest2 := by
              intro x hx hx2
              rcases List.mem_cons.mp hx with h | h
              · exact hdisj2 x (h ▸ List.mem_cons_self _ _) (hsub2 x hx2)
              rcases List.mem_append.mp h with h | h
              rcases List.mem_append.mp h with h | h
              · exact hdisj2 x
                  (List.mem_cons_of_mem s1 (List.mem_append_left (a1 :: rA) h))
                  (hsub2 x hx2)
              · -- x sits in the detached block
                rcases List.mem_cons.mp hx2 with h2 | h2
                · have h2' : s2 ∈ blk := h2 ▸ h
                  exact (List.nodup_cons.mp hd2).1
                    (hB2 ▸ List.mem_append_left rest2 h2')
                · exact (List.nodup_append.mp hnd2').2.2 h h2
              · exact hdisj2 x
                  (List.mem_cons_of_mem s1 (List.mem_append_right (done ++ t) h))
                  (hsub2 x hx2)
            have hfuel2 : rest2.length + 1 ≤ f := by omega
            obtain ⟨m', hmeq', hring1', hring2', hval', hfresh'⟩ :=
              ih (spliceBlockHeap m a1 b0
                  (if rest2.headD s2 = s2 then m.prv s2 else m.prv (rest2.headD s2)))
                ((done ++ t) ++ blk) (a1 :: rA) rest2 hsurg.1 hsurg.2 hdisj3 hfuel2
            -- the comparator reads only values, which the splice left untouched
            rw [show (fun i j : Nat =>
                !(lt (getv (spliceBlockHeap m a1 b0 (if rest2.headD s2 = s2
                    then m.prv s2 else m.prv (rest2.headD s2))) j)
                  (getv (spliceBlockHeap m a1 b0 (if rest2.headD s2 = s2
                    then m.prv s2 else m.prv (rest2.headD s2))) i))) =
              (fun i j : Nat => !(lt (getv m j) (getv m i))) from rfl] at hring1'
            refine ⟨m', ?_, ?_, hring2', hval'.trans rfl, hfresh'.trans rfl⟩
            · -- rewrite the recorded equation into the unfolded loop step
              rw [show ((a1 :: rA).headD s1) = a1 from rfl] at hmeq'
              rw [show ((done ++ t) ++ blk).length + ((a1 :: rA).length + rest2.length)
                  = done.length + (restA.length + (b0 :: rbt).length) from by
                simp only [List.length_append]; omega] at hmeq'
              rw [show ((done ++ t) ++ blk).length + (a1 :: rA).length
                  = done.length + restA.length + (0 + blk.length) from by
                simp only [List.length_append]; omega] at hmeq'
              rw [show rest2.length = (b0 :: rbt).length - (0 + blk.length) from by
                omega] at hmeq'
              rw [mergeLoop]
              simp only [List.headD_cons]
              rw [if_neg hb0s2, hadv', if_neg ha1s1, htake']
              exact hmeq'
            · have hple : ∀ x ∈ t,
                  (fun i j : Nat => !(lt (getv m j) (getv m i))) x b0 = true := by
                intro x hx
                rw [ht] at hx
                have hq := List.mem_takeWhile_imp hx
                exact hq
              have hqle : ∀ y ∈ blk,
                  (fun i j : Nat => !(lt (getv m j) (getv m i))) a1 y = false := by
                intro y hy
                rw [hblkd] at hy
                have hq := List.mem_takeWhile_imp hy
                show (!(lt (getv m y) (getv m a1))) = false
                rw [show lt (getv m y) (getv m a1) = true from hq]
                rfl
              have hlist : done ++ mergeTwo
                  (fun i j : Nat => !(lt (getv m j) (getv m i))) restA (b0 :: rbt) =
                  (((done ++ t) ++ blk) ++ mergeTwo
                    (fun i j : Nat => !(lt (getv m j) (getv m i))) (a1 :: rA) rest2) := by
                conv_lhs => rw [← hT,
                  mergeTwo_left_peel (fun i j : Nat => !(lt (getv m j) (getv m i)))
                    b0 rbt t (a1 :: rA) hple,
                  ← hB2,
                  mergeTwo_right_peel (fun i j : Nat => !(lt (getv m j) (getv m i)))
                    a1 rA blk rest2 hqle]
                simp [List.append_assoc]
              rw [hlist]
              exact hring1'

/-- `merge(other)` between two distinct containers: the resulting ring
of `this` carries exactly the two-run merge of the node sequences,
`other` is left empty, the counts are the sum and zero, and no value
slot or allocation state changes.  No sortedness is assumed: this is
what the code computes on any pair of rings. -/
theorem mergeOp_spec [Inhabited α] (lt : α → α → Bool) {m : Mem α} {c1 c2 : Cont}
    {l1 l2 : List Nat} (hi : ContInv2 m c1 c2 l1 l2) (hne : c1.s ≠ c2.s) :
    ∃ m', mergeOp lt m c1 c2 =
        (m', ⟨c1.s, l1.length + l2.length⟩, ⟨c2.s, 0⟩) ∧
      isRing m' c1.s (mergeTwo (fun i j => !(lt (getv m j) (getv m i))) l1 l2) ∧
      isRing m' c2.s [] ∧ m'.val = m.val ∧ m'.fresh = m.fresh := by
  obtain ⟨⟨hr1, hn1, hf1, hv1s, hv1⟩, ⟨hr2, hn2, hf2, hv2s, hv2⟩, hdisj⟩ := hi
  by_cases hc2n : c2.n = 0
  · have hl2 : l2 = [] := List.length_eq_zero.mp (by omega)
    subst hl2
    refine ⟨m, ?_, ?_, hr2, rfl, rfl⟩
    · rw [mergeOp, if_pos (Or.inr hc2n)]
      have h1 : (⟨c1.s, l1.length + ([] : List Nat).length⟩ : Cont) = c1 := by
        rw [show l1.length + ([] : List Nat).length = c1.n from by
          rw [hn1]; rfl]
      have h2 : (⟨c2.s, 0⟩ : Cont) = c2 := by
        rw [show (0 : Nat) = c2.n from hc2n.symm]
      rw [h1, h2]
    · rw [mergeTwo_nil_right]
      exact hr1
  · by_cases hc1n : c1.n = 0
    · have hl1 : l1 = [] := List.length_eq_zero.mp (by omega)
      subst hl1
      have hl2ne : l2 ≠ [] := fun h => hc2n (by rw [hn2, h]; rfl)
      have hn2e : m.nxt c2.s = l2.headD c2.s := (ring_sentinel hr2).1.1
      have hp2e : m.prv c2.s = l2.getLastD c2.s := (ring_sentinel hr2).2.2
      have hsh : c1.s ≠ l2.headD c2.s := by
        intro h
        exact hdisj c1.s (List.mem_cons_self _ _)
          (h ▸ List.mem_cons_of_mem c2.s (headD_mem hl2ne c2.s))
      have hM := spliceAllHeap_eq hn2e hp2e hsh
      have hsurg := spliceAll_ring hM hr2 (hdisj c1.s (List.mem_cons_self _ _)) hl2ne
      refine ⟨spliceAllHeap m c1.s c2.s, ?_, ?_, hsurg.2, rfl, rfl⟩
      · rw [mergeOp, if_neg (fun h => h.elim hne hc2n), if_pos hc1n]
        have h1 : (⟨c1.s, ([] : List Nat).length + l2.length⟩ : Cont) =
            { c1 with n := c2.n } := by
          rw [show ([] : List Nat).length + l2.length = c2.n from by
            rw [hn2]; simp]
        have h2 : (⟨c2.s, 0⟩ : Cont) = { c2 with n := 0 } := rfl
        rw [← h1, ← h2]
      · rw [show mergeTwo (fun i j : Nat => !(lt (getv m j) (getv m i)))
          ([] : List Nat) l2 = l2 from by rw [mergeTwo]]
        exact hsurg.1
    · have ha0 : m.nxt c1.s = l1.headD c1.s := (ring_sentinel hr1).1.1
      have hb0 : m.nxt c2.s = l2.headD c2.s := (ring_sentinel hr2).1.1
      obtain ⟨m', heq, hring1, hring2, hval, hfresh⟩ :=
        mergeLoop_spec lt (c2.n + 1) m [] l1 l2
          (by rw [List.nil_append]; exact hr1) hr2
          (by intro x hx; rw [List.nil_append] at hx; exact hdisj x hx)
          (by omega)
      simp only [List.length_nil, Nat.zero_add] at heq
      rw [show (⟨c1.s, l1.length⟩ : Cont) = c1 from by rw [← hn1],
        show (⟨c2.s, l2.length⟩ : Cont) = c2 from by rw [← hn2]] at heq
      refine ⟨m', ?_, ?_, hring2, hval, hfresh⟩
      · rw [mergeOp, if_neg (fun h => h.elim hne hc2n), if_neg hc1n, ha0, hb0]
        exact heq
      · rw [List.nil_append] at hring1
        exact hring1

/-! ### `merge(other)`: order-theoretic facts about the two-run merge -/

theorem mergeTwo_sublist_left (le : β → β → Bool) :
    ∀ L1 L2, List.Sublist L1 (mergeTwo le L1 L2)
  | [], L2 => by rw [mergeTwo]; exact List.nil_sublist L2
  | x :: L1, [] => by rw [mergeTwo]
  | x :: L1, y :: L2 => by
      rw [mergeTwo]
      split
      · exact List.Sublist.cons₂ x (mergeTwo_sublist_left le L1 (y :: L2))
      · exact List.Sublist.cons y (mergeTwo_sublist_left le (x :: L1) L2)
termination_by L1 L2 => L1.length + L2.length

theorem mergeTwo_sublist_right (le : β → β → Bool) :
    ∀ L1 L2, List.Sublist L2 (mergeTwo le L1 L2)
  | [], L2 => by rw [mergeTwo]
  | x :: L1, [] => by rw [mergeTwo]; exact List.nil_sublist (x :: L1)
  | x :: L1, y :: L2 => by
      rw [mergeTwo]
      split
      · exact List.Sublist.cons x (mergeTwo_sublist_right le L1 (y :: L2))
      · exact List.Sublist.cons₂ y (mergeTwo_sublist_right le (x :: L1) L2)
termination_by L1 L2 => L1.length + L2.length

/-- A strict weak ordering is asymmetric. -/
theorem swo_asymm {lt : α → α → Bool} (hswo : SWO lt) :
    ∀ x y, lt x y = true → lt y x = false := by
  intro x y hxy
  cases hc : lt y x with
  | false => rfl
  | true =>
      have hh := hswo.2.1 x y x hxy hc
      rw [hswo.1 x] at hh
      exact Bool.noConfusion hh

theorem pairwise_of_mem {P : β → β → Prop} :
    ∀ {l : List β}, (∀ a ∈ l, ∀ b ∈ l, P a b) → l.Pairwise P
  | [], _ => List.Pairwise.nil
  | x :: l, h => by
      refine List.Pairwise.cons ?_ (pairwise_of_mem ?_)
      · exact fun b hb => h x (List.mem_cons_self x l) b (List.mem_cons_of_mem x hb)
      · exact fun a ha b hb =>
          h a (List.mem_cons_of_mem x ha) b (List.mem_cons_of_mem x hb)

/-- Stability of the merge across the two runs: when the left run is
sorted and the two runs draw from disjoint node pools, no node of the
right pool ever ends up before an equivalent (incomparable-value) node
of the left pool. -/
theorem mergeTwo_cross {lt : α → α → Bool} (hswo : SWO lt) (v : β → α)
    {S1 S2 : List β} (hdisj : ∀ x ∈ S1, x ∉ S2) :
    ∀ L1 L2, L1.Pairwise (fun i j => lt (v j) (v i) = false) →
      (∀ x ∈ L1, x ∈ S1) → (∀ x ∈ L2, x ∈ S2) →
      (mergeTwo (fun i j => !(lt (v j) (v i))) L1 L2).Pairwise
        (fun i j => i ∈ S2 → j ∈ S1 →
          lt (v i) (v j) = false → lt (v j) (v i) = false → False)
  | [], L2, _, _, h2mem => by
      rw [mergeTwo]
      refine pairwise_of_mem fun a ha b hb haS2 hbS1 _ _ => ?_
      exact hdisj b hbS1 (h2mem b hb)
  | x :: L1, [], _, h1mem, _ => by
      rw [mergeTwo]
      refine pairwise_of_mem fun a ha b hb haS2 hbS1 _ _ => ?_
      exact hdisj a (h1mem a ha) haS2
  | x :: L1, y :: L2, h1sorted, h1mem, h2mem => by
      rw [mergeTwo]
      split
      · refine List.pairwise_cons.mpr ⟨?_, ?_⟩
        · intro z _ hxS2 _ _ _
          exact hdisj x (h1mem x (List.mem_cons_self x L1)) hxS2
        · exact mergeTwo_cross hswo v hdisj L1 (y :: L2)
            (List.pairwise_cons.mp h1sorted).2
            (fun a ha => h1mem a (List.mem_cons_of_mem x ha)) h2mem
      · next hxy =>
          have hyx : lt (v y) (v x) = true := by
            cases hc : lt (v y) (v x) with
            | true => rfl
            | false => exact absurd (show (!(lt (v y) (v x))) = true from by
                rw [hc]; rfl) hxy
          refine List.pairwise_cons.mpr ⟨?_, ?_⟩
          · intro z hz hyS2 hzS1 he1 he2
            have hz' := (mergeTwo_perm
              (fun i j => !(lt (v j) (v i))) (x :: L1) L2).mem_iff.mp hz
            rcases List.mem_append.mp hz' with hzl | hzr
            · rcases List.mem_cons.mp hzl with hzx | hzL1
              · rw [hzx] at he1
                rw [he1] at hyx
                exact Bool.noConfusion hyx
              · have hzx_f : lt (v z) (v x) = false :=
                  (List.pairwise_cons.mp h1sorted).1 z hzL1
                have hh := hswo.2.2 (v y) (v z) (v x) he1 hzx_f
                rw [hyx] at hh
                exact Bool.noConfusion hh
            · exact hdisj z hzS1 (h2mem z (List.mem_cons_of_mem y hzr))
          · exact mergeTwo_cross hswo v hdisj (x :: L1) L2 h1sorted h1mem
              (fun a ha => h2mem a (List.mem_cons_of_mem y ha))
termination_by L1 L2 => L1.length + L2.length

/-- Invariant form of `mergeOp_spec`: the full two-container invariant
survives the merge, with `this` holding the two-run merge and `other`
empty. -/
theorem mergeOp_inv [Inhabited α] (lt : α → α → Bool) {m : Mem α} {c1 c2 : Cont}
    {l1 l2 : List Nat} (hi : ContInv2 m c1 c2 l1 l2) (hne : c1.s ≠ c2.s) :
    ∃ m', mergeOp lt m c1 c2 =
        (m', ⟨c1.s, l1.length + l2.length⟩, ⟨c2.s, 0⟩) ∧
      ContInv2 m' ⟨c1.s, l1.length + l2.length⟩ ⟨c2.s, 0⟩
        (mergeTwo (fun i j => !(lt (getv m j) (getv m i))) l1 l2) [] ∧
      m'.val = m.val ∧ m'.fresh = m.fresh := by
  obtain ⟨m', heq, hring1, hring2, hval, hfresh⟩ := mergeOp_spec lt hi hne
  obtain ⟨⟨hr1, hn1, hf1, hv1s, hv1⟩, ⟨hr2, hn2, hf2, hv2s, hv2⟩, hdisjC⟩ := hi
  have hperm := mergeTwo_perm (fun i j => !(lt (getv m j) (getv m i))) l1 l2
  have hmemlr : ∀ x, x ∈ mergeTwo (fun i j => !(lt (getv m j) (getv m i))) l1 l2 →
      x ∈ l1 ++ l2 := fun x hx => hperm.mem_iff.mp hx
  refine ⟨m', heq, ⟨⟨hring1, ?_, ?_, ?_, ?_⟩,
    ⟨hring2, rfl, ?_, ?_, fun x hx => absurd hx (List.not_mem_nil x)⟩, ?_⟩,
    hval, hfresh⟩
  · rw [hperm.length_eq, List.length_append]
  · intro x hx
    rw [hfresh]
    rcases List.mem_cons.mp hx with h | h
    · subst h; exact hf1 c1.s (List.mem_cons_self _ _)
    · rcases List.mem_append.mp (hmemlr x h) with h | h
      · exact hf1 x (List.mem_cons_of_mem c1.s h)
      · exact hf2 x (List.mem_cons_of_mem c2.s h)
  · rw [hval]; exact hv1s
  · intro x hx
    rw [hval]
    rcases List.mem_append.mp (hmemlr x hx) with h | h
    · exact hv1 x h
    · exact hv2 x h
  · intro x hx
    rw [hfresh]
    rcases List.mem_cons.mp hx with h | h
    · subst h; exact hf2 c2.s (List.mem_cons_self _ _)
    · exact absurd h (List.not_mem_nil x)
  · rw [hval]; exact hv2s
  · intro x hx hx2
    have hxc2 : x = c2.s := by
      rcases List.mem_cons.mp hx2 with h | h
      · exact h
      · exact absurd h (List.not_mem_nil x)
    rcases List.mem_cons.mp hx with h | h
    · exact hne (h ▸ hxc2 ▸ rfl)
    · rcases List.mem_append.mp (hmemlr x h) with h | h
      · exact hdisjC x (List.mem_cons_of_mem c1.s h)
          (hxc2 ▸ List.mem_cons_self c2.s l2)
      · exact (List.nodup_cons.mp hr2.1).1 (hxc2 ▸ h)

/-! ### Copy construction and assignment preserve the invariant -/

/-- The container invariant yields the spec's phrasing of ring health:
every node of the ring satisfies `x.next.prev == x` and
`x.prev.next == x`, the count equals the number of data nodes found by
forward traversal from the sentinel, and the count is zero exactly when
the ring holds only the sentinel. -/
theorem ContInv_ring_props {m : Mem α} {c : Cont} {l : List Nat}
    (hi : ContInv m c l) :
    (∀ x ∈ c.s :: l, m.nxt (m.prv x) = x ∧ m.prv (m.nxt x) = x) ∧
    c.n = (ringIds m c).length ∧ (c.n = 0 ↔ l = []) := by
  refine ⟨?_, ?_, ?_⟩
  · intro x hx
    rcases List.mem_cons.mp hx with h | h
    · subst h
      have h1 := (ring_sentinel hi.1).1
      have h2 := (ring_sentinel hi.1).2
      constructor
      · rw [h2.2]; exact h2.1
      · rw [h1.1]; exact h1.2
    · obtain ⟨u, w, rfl⟩ := List.append_of_mem h
      have hadj := ring_adj hi.1
      constructor
      · rw [hadj.1.2]; exact hadj.1.1
      · rw [hadj.2.1]; exact hadj.2.2
  · rw [ringIds_eq hi, hi.2.1]
  · rw [hi.2.1]; exact List.length_eq_zero

/-- Folding `push_back` over a value list grows the destination ring
while keeping both the destination's and a disjoint bystander
container's invariants. -/
theorem foldl_pushBack_inv2 [Inhabited α] :
    ∀ (vs : List α) (m : Mem α) (c csrc : Cont) (l lsrc : List Nat),
      ContInv2 m c csrc l lsrc →
      ∃ (m' : Mem α) (c' : Cont) (l' : List Nat),
        vs.foldl (fun p v => pushBack p.1 p.2 v) (m, c) = (m', c') ∧
        c'.s = c.s ∧ ContInv2 m' c' csrc l' lsrc
  | [], m, c, _, l, _, hi => ⟨m, c, l, rfl, rfl, hi⟩
  | v :: vs, m, c, csrc, l, lsrc, hi => by
      obtain ⟨hic, hisrc, hdisj⟩ := hi
      obtain ⟨m1, heq1, hinv1, hf1, hv1, hvf1, hnx1, hpv1⟩ :=
        pushBack_spec v hic
      have hsrcb : ∀ x ∈ csrc.s :: lsrc, x < m.fresh := hisrc.2.2.1
      have hplast : m.prv c.s = l.getLastD c.s := (ring_sentinel hic.1).2.2
      have hlmem : l.getLastD c.s ∈ c.s :: l := getLastD_mem_cons l c.s
      have hisrc1 : ContInv m1 csrc lsrc := by
        refine ⟨isRing_congr (fun x hx => ?_) hisrc.1, hisrc.2.1, ?_, ?_, ?_⟩
        · have hxf : x ≠ m.fresh := Nat.ne_of_lt (hsrcb x hx)
          have hxp : x ≠ m.prv c.s := by
            rw [hplast]
            exact fun h => hdisj _ hlmem (h ▸ hx)
          have hxs : x ≠ c.s :=
            fun h => hdisj c.s (List.mem_cons_self _ _) (h ▸ hx)
          exact ⟨hnx1 x hxf hxp, hpv1 x hxf hxs⟩
        · intro x hx
          rw [hf1]
          have := hsrcb x hx
          omega
        · rw [hv1 csrc.s (Nat.ne_of_lt (hsrcb csrc.s (List.mem_cons_self _ _)))]
          exact hisrc.2.2.2.1
        · intro x hx
          rw [hv1 x (Nat.ne_of_lt (hsrcb x (List.mem_cons_of_mem _ hx)))]
          exact hisrc.2.2.2.2 x hx
      have hdisj1 : ∀ x ∈ ({ c with n := c.n + 1 } : Cont).s :: (l ++ [m.fresh]),
          x ∉ csrc.s :: lsrc := by
        intro x hx
        rw [show ({ c with n := c.n + 1 } : Cont).s = c.s from rfl] at hx
        rcases List.mem_cons.mp hx with h | h
        · subst h
          exact hdisj c.s (List.mem_cons_self _ _)
        · rcases List.mem_append.mp h with h | h
          · exact hdisj x (List.mem_cons_of_mem _ h)
          · have hxf : x = m.fresh := by simpa using h
            subst hxf
            exact fun hmem => Nat.lt_irrefl _ (hsrcb _ hmem)
      obtain ⟨m', c', l', heq', hcs', hinv'⟩ :=
        foldl_pushBack_inv2 vs m1 { c with n := c.n + 1 } csrc
          (l ++ [m.fresh]) lsrc ⟨hinv1, hisrc1, hdisj1⟩
      refine ⟨m', c', l', ?_, ?_, hinv'⟩
      · rw [List.foldl_cons,
          show pushBack (m, c).1 (m, c).2 v = pushBack m c v from rfl, heq1]
        exact heq'
      · rw [hcs']

/-- Copy construction: the fresh copy satisfies the invariant jointly
with the (untouched) source. -/
theorem copyCont_inv [Inhabited α] {m : Mem α} {src : Cont} {l : List Nat}
    (hi : ContInv m src l) :
    ∃ (m' : Mem α) (c' : Cont) (l' : List Nat),
      copyCont m src = (m', c') ∧ ContInv2 m' c' src l' l := by
  obtain ⟨hmkinv, hmkf, hmkc, hmkval, hmknp⟩ := mkCont_spec m
  have hsrcb := hi.2.2.1
  have hisrc1 : ContInv (mkCont m).1 src l := by
    refine ⟨isRing_congr (fun x hx => hmknp x (Nat.ne_of_lt (hsrcb x hx))) hi.1,
      hi.2.1, ?_, ?_, ?_⟩
    · intro x hx
      rw [hmkf]
      have := hsrcb x hx
      omega
    · rw [hmkval src.s (Nat.ne_of_lt (hsrcb src.s (List.mem_cons_self _ _)))]
      exact hi.2.2.2.1
    · intro x hx
      rw [hmkval x (Nat.ne_of_lt (hsrcb x (List.mem_cons_of_mem _ hx)))]
      exact hi.2.2.2.2 x hx
  have hdisj0 : ∀ x ∈ (mkCont m).2.s :: ([] : List Nat), x ∉ src.s :: l := by
    intro x hx
    have hx' : x = m.fresh := by
      rcases List.mem_cons.mp hx with h | h
      · rw [h, hmkc]
      · exact absurd h (List.not_mem_nil x)
    subst hx'
    exact fun hmem => Nat.lt_irrefl _ (hsrcb _ hmem)
  obtain ⟨m', c', l', heq, hcs, hinv⟩ := foldl_pushBack_inv2
    ((traverseF m src.s src.n (m.nxt src.s)).map (getv m)) (mkCont m).1 (mkCont m).2
    src [] l ⟨hmkinv, hisrc1, hdisj0⟩
  exact ⟨m', c', l', heq, hinv⟩

/-- Assignment between distinct containers: the destination is cleared
and refilled, and the invariant holds jointly with the source
afterwards; self-assignment is a no-op. -/
theorem assignCont_inv [Inhabited α] {m : Mem α} {dst src : Cont}
    {ldst lsrc : List Nat} (hi : ContInv2 m dst src ldst lsrc)
    (hne : dst.s ≠ src.s) :
    ∃ (m' : Mem α) (c' : Cont) (l' : List Nat),
      assignCont m dst src = (m', c') ∧ c'.s = dst.s ∧
      ContInv2 m' c' src l' lsrc := by
  obtain ⟨hid, his, hdisj⟩ := hi
  obtain ⟨heqc, hinvc⟩ := clearOp_spec hid
  have hsrcd : dst.s ∉ src.s :: lsrc := hdisj dst.s (List.mem_cons_self _ _)
  have hisrc1 : ContInv (setNxt (setPrv m dst.s dst.s) dst.s dst.s) src lsrc := by
    refine ⟨isRing_congr (fun x hx => ?_) his.1, his.2.1, ?_, ?_, ?_⟩
    · have hxd : x ≠ dst.s := fun h => hsrcd (h ▸ hx)
      constructor
      · simp [hxd]
      · simp [hxd]
    · intro x hx
      exact his.2.2.1 x hx
    · exact his.2.2.2.1
    · exact his.2.2.2.2
  have hdisj1 : ∀ x ∈ ({ dst with n := 0 } : Cont).s :: ([] : List Nat),
      x ∉ src.s :: lsrc := by
    intro x hx
    rcases List.mem_cons.mp hx with h | h
    · subst h
      exact hsrcd
    · exact absurd h (List.not_mem_nil x)
  obtain ⟨m', c', l', heq, hcs, hinv⟩ := foldl_pushBack_inv2
    ((traverseF m src.s src.n (m.nxt src.s)).map (getv m))
    (setNxt (setPrv m dst.s dst.s) dst.s dst.s) { dst with n := 0 }
    src [] lsrc ⟨hinvc, hisrc1, hdisj1⟩
  refine ⟨m', c', l', ?_, by rw [hcs], hinv⟩
  rw [assignCont, if_neg hne, heqc]
  exact heq

/-! ### Claims -/

/-- C2: `merge(other)` between two sorted containers.  All of `other`'s
nodes move into `this`, which afterwards holds a sorted, stable merge of
the two node sequences (`other`'s nodes are relinked, not copied: the
value heap and the allocation counter are untouched, each input
sequence survives as a subsequence, and on incomparable values no node
from `other` ever precedes a node of `this`); `other` ends empty, and
self-merge or merging an empty `other` is a no-op. -/
theorem C2_merge [Inhabited α] (lt : α → α → Bool) (hswo : SWO lt)
    {m : Mem α} {c1 c2 : Cont} {l1 l2 : List Nat}
    (hi : ContInv2 m c1 c2 l1 l2) (hne : c1.s ≠ c2.s)
    (hs1 : l1.Pairwise (fun i j => lt (getv m j) (getv m i) = false))
    (hs2 : l2.Pairwise (fun i j => lt (getv m j) (getv m i) = false)) :
    ∃ m' lr,
      mergeOp lt m c1 c2 = (m', ⟨c1.s, l1.length + l2.length⟩, ⟨c2.s, 0⟩) ∧
      ContInv2 m' ⟨c1.s, l1.length + l2.length⟩ ⟨c2.s, 0⟩ lr [] ∧
      List.Perm lr (l1 ++ l2) ∧
      m'.val = m.val ∧ m'.fresh = m.fresh ∧
      valSeq m' ⟨c1.s, l1.length + l2.length⟩ = lr.map (getv m) ∧
      lr.Pairwise (fun i j => lt (getv m j) (getv m i) = false) ∧
      List.Sublist l1 lr ∧ List.Sublist l2 lr ∧
      lr.Pairwise (fun i j => i ∈ l2 → j ∈ l1 →
        lt (getv m i) (getv m j) = false → lt (getv m j) (getv m i) = false →
        False) ∧
      (∀ x ∈ l2, x ∈ lr) ∧
      (∀ c3 : Cont, c3.s = c1.s → mergeOp lt m c1 c3 = (m, c1, c3)) ∧
      (∀ c3 : Cont, c3.n = 0 → mergeOp lt m c1 c3 = (m, c1, c3)) := by
  obtain ⟨m', heq, hinv2, hval, hfresh⟩ := mergeOp_inv lt hi hne
  obtain ⟨⟨hr1, hn1, hf1, hv1s, hv1⟩, ⟨hr2, hn2, hf2, hv2s, hv2⟩, hdisjC⟩ := hi
  have hgv : getv m' = getv m := funext fun x => by rw [getv, getv, hval]
  have hperm := mergeTwo_perm (fun i j => !(lt (getv m j) (getv m i))) l1 l2
  have hdisjL : ∀ x ∈ l1, x ∉ l2 := fun x hx hx2 =>
    hdisjC x (List.mem_cons_of_mem c1.s hx) (List.mem_cons_of_mem c2.s hx2)
  refine ⟨m', mergeTwo (fun i j => !(lt (getv m j) (getv m i))) l1 l2, heq,
    hinv2, hperm, hval, hfresh, ?_, ?_, mergeTwo_sublist_left _ l1 l2,
    mergeTwo_sublist_right _ l1 l2, ?_, ?_, ?_, ?_⟩
  · rw [valSeq_eq hinv2.1, hgv]
  · refine mergeTwo_pairwise ?_ _ l1 l2 hs1 hs2 ?_
    · intro a b c hab hbc
      exact hswo.2.2 (getv m c) (getv m b) (getv m a) hbc hab
    · intro a _ b _
      constructor
      · intro h
        have h' : (!(lt (getv m b) (getv m a))) = true := h
        rw [Bool.not_eq_true'] at h'
        exact h'
      · intro h
        have h' : (!(lt (getv m b) (getv m a))) = false := h
        rw [Bool.not_eq_false'] at h'
        exact swo_asymm hswo (getv m b) (getv m a) h'
  · exact mergeTwo_cross hswo (getv m) hdisjL l1 l2 hs1
      (fun x hx => hx) (fun x hx => hx)
  · exact fun x hx => (mergeTwo_sublist_right _ l1 l2).subset hx
  · intro c3 h
    rw [mergeOp, if_pos (Or.inl h.symm)]
  · intro c3 h
    rw [mergeOp, if_pos (Or.inr h)]

theorem C2_witness :
    SWO (fun a b : Bool => !a && b) ∧
    ContInv2 mergeDemoB.1 mergeDemoA.2 mergeDemoB.2 [1, 2] [4, 5] ∧
    mergeDemoA.2.s ≠ mergeDemoB.2.s ∧
    ([1, 2] : List Nat).Pairwise (fun i j =>
      (fun a b : Bool => !a && b) (getv mergeDemoB.1 j) (getv mergeDemoB.1 i) =
        false) ∧
    ([4, 5] : List Nat).Pairwise (fun i j =>
      (fun a b : Bool => !a && b) (getv mergeDemoB.1 j) (getv mergeDemoB.1 i) =
        false) ∧
    (∃ m' lr,
      mergeOp (fun a b : Bool => !a && b) mergeDemoB.1 mergeDemoA.2 mergeDemoB.2 =
        (m', ⟨mergeDemoA.2.s,
          ([1, 2] : List Nat).length + ([4, 5] : List Nat).length⟩,
          ⟨mergeDemoB.2.s, 0⟩) ∧
      ContInv2 m' ⟨mergeDemoA.2.s,
          ([1, 2] : List Nat).length + ([4, 5] : List Nat).length⟩
        ⟨mergeDemoB.2.s, 0⟩ lr [] ∧
      List.Perm lr ([1, 2] ++ [4, 5]) ∧
      m'.val = mergeDemoB.1.val ∧ m'.fresh = mergeDemoB.1.fresh ∧
      valSeq m' ⟨mergeDemoA.2.s,
          ([1, 2] : List Nat).length + ([4, 5] : List Nat).length⟩ =
        lr.map (getv mergeDemoB.1) ∧
      lr.Pairwise (fun i j =>
        (fun a b : Bool => !a && b) (getv mergeDemoB.1 j) (getv mergeDemoB.1 i) =
          false) ∧
      List.Sublist [1, 2] lr ∧ List.Sublist [4, 5] lr ∧
      lr.Pairwise (fun i j => i ∈ ([4, 5] : List Nat) → j ∈ ([1, 2] : List Nat) →
        (fun a b : Bool => !a && b) (getv mergeDemoB.1 i) (getv mergeDemoB.1 j) =
          false →
        (fun a b : Bool => !a && b) (getv mergeDemoB.1 j) (getv mergeDemoB.1 i) =
          false →
        False) ∧
      (∀ x ∈ ([4, 5] : List Nat), x ∈ lr) ∧
      (∀ c3 : Cont, c3.s = mergeDemoA.2.s →
        mergeOp (fun a b : Bool => !a && b) mergeDemoB.1 mergeDemoA.2 c3 =
          (mergeDemoB.1, mergeDemoA.2, c3)) ∧
      (∀ c3 : Cont, c3.n = 0 →
        mergeOp (fun a b : Bool => !a && b) mergeDemoB.1 mergeDemoA.2 c3 =
          (mergeDemoB.1, mergeDemoA.2, c3))) :=
  ⟨⟨by decide, by decide, by decide⟩, by decide, by decide, by decide, by decide,
   C2_merge (fun a b : Bool => !a && b) ⟨by decide, by decide, by decide⟩
     (by decide) (by decide) (by decide) (by decide)⟩

/-- C4: the ring/count invariant is preserved by every public
operation.  The invariant `ContInv` packages a circular, doubly
consistent ring with the matching count; the first conjunct unfolds it
into the spec's phrasing (`x.next.prev == x`, `x.prev.next == x`, count
= forward-traversal length, count zero iff only the sentinel), and the
remaining conjuncts show each operation — construction, copy
construction, assignment, `insert`, `erase`, `push_back`, `push_front`,
`pop_back`, `pop_front`, `clear`, `sort`, `reverse`, `unique`, `merge`
— carries `ContInv` states to `ContInv` states (with the bystander
container's invariant also kept where two containers are involved). -/
theorem C4_ring_count_invariant [Inhabited α] (lt beq : α → α → Bool) (value : α) :
    (∀ (m : Mem α) (c : Cont) (l : List Nat), ContInv m c l →
      (∀ x ∈ c.s :: l, m.nxt (m.prv x) = x ∧ m.prv (m.nxt x) = x) ∧
      c.n = (ringIds m c).length ∧ (c.n = 0 ↔ l = [])) ∧
    (∀ m : Mem α, ContInv (mkCont m).1 (mkCont m).2 []) ∧
    (∀ (m : Mem α) (src : Cont) (l : List Nat), ContInv m src l →
      ∃ m' c' l', copyCont m src = (m', c') ∧ ContInv2 m' c' src l' l) ∧
    (∀ (m : Mem α) (dst src : Cont) (ldst lsrc : List Nat),
      ContInv2 m dst src ldst lsrc → dst.s ≠ src.s →
      ∃ m' c' l', assignCont m dst src = (m', c') ∧ c'.s = dst.s ∧
        ContInv2 m' c' src l' lsrc) ∧
    (∀ (m : Mem α) (dst src : Cont), dst.s = src.s →
      assignCont m dst src = (m, dst)) ∧
    (∀ (m : Mem α) (c : Cont) (u w : List Nat), ContInv m c (u ++ w) →
      ∃ m', insertIt m c ⟨some c.s, some (w.headD c.s)⟩ value =
          .ok (⟨some c.s, some m.fresh⟩, m', { c with n := c.n + 1 }) ∧
        ContInv m' { c with n := c.n + 1 } (u ++ m.fresh :: w)) ∧
    (∀ (m : Mem α) (c : Cont) (u w : List Nat) (x : Nat),
      ContInv m c (u ++ x :: w) →
      eraseIt m c ⟨some c.s, some x⟩ =
          .ok (⟨some c.s, some (w.headD c.s)⟩, eraseNode m x,
            { c with n := c.n - 1 }) ∧
        ContInv (eraseNode m x) { c with n := c.n - 1 } (u ++ w)) ∧
    (∀ (m : Mem α) (c : Cont) (l : List Nat), ContInv m c l →
      ∃ m', pushBack m c value = (m', { c with n := c.n + 1 }) ∧
        ContInv m' { c with n := c.n + 1 } (l ++ [m.fresh])) ∧
    (∀ (m : Mem α) (c : Cont) (l : List Nat), ContInv m c l →
      ∃ m', pushFront m c value = (m', { c with n := c.n + 1 }) ∧
        ContInv m' { c with n := c.n + 1 } (m.fresh :: l)) ∧
    (∀ (m : Mem α) (c : Cont) (u : List Nat) (x : Nat), ContInv m c (u ++ [x]) →
      popBack m c = .ok (eraseNode m x, { c with n := c.n - 1 }) ∧
        ContInv (eraseNode m x) { c with n := c.n - 1 } u) ∧
    (∀ (m : Mem α) (c : Cont) (w : List Nat) (x : Nat), ContInv m c (x :: w) →
      popFront m c = .ok (eraseNode m x, { c with n := c.n - 1 }) ∧
        ContInv (eraseNode m x) { c with n := c.n - 1 } w) ∧
    (∀ (m : Mem α) (c : Cont) (l : List Nat), ContInv m c l →
      ContInv (clearOp m c).1 (clearOp m c).2 []) ∧
    (∀ (m : Mem α) (c : Cont) (l : List Nat), ContInv m c l →
      ∃ m' l', sortOp lt m c = (m', c) ∧ ContInv m' c l') ∧
    (∀ (m : Mem α) (c : Cont) (l : List Nat), ContInv m c l →
      ∃ m' l', revOp m c = (m', c) ∧ ContInv m' c l') ∧
    (∀ (m : Mem α) (c : Cont) (l : List Nat), ContInv m c l →
      ∃ m' c' l', uniqueOp beq m c = (m', c') ∧ c'.s = c.s ∧
        ContInv m' c' l') ∧
    (∀ (m : Mem α) (c1 c2 : Cont) (l1 l2 : List Nat), ContInv2 m c1 c2 l1 l2 →
      c1.s ≠ c2.s →
      ∃ m' lr, mergeOp lt m c1 c2 =
          (m', ⟨c1.s, l1.length + l2.length⟩, ⟨c2.s, 0⟩) ∧
        ContInv2 m' ⟨c1.s, l1.length + l2.length⟩ ⟨c2.s, 0⟩ lr []) := by
  refine ⟨?_, ?_, ?_, ?_, ?_, ?_, ?_, ?_, ?_, ?_, ?_, ?_, ?_, ?_, ?_, ?_⟩
  · exact fun m c l hi => ContInv_ring_props hi
  · exact fun m => (mkCont_spec m).1
  · exact fun m src l hi => copyCont_inv hi
  · exact fun m dst src ldst lsrc hi hne => assignCont_inv hi hne
  · intro m dst src h
    rw [assignCont, if_pos h]
  · intro m c u w hi
    obtain ⟨m', heq, hinv, _⟩ := insertIt_spec value hi
    exact ⟨m', heq, hinv⟩
  · exact fun m c u w x hi => eraseIt_spec hi
  · intro m c l hi
    obtain ⟨m', heq, hinv, _⟩ := pushBack_spec value hi
    exact ⟨m', heq, hinv⟩
  · intro m c l hi
    obtain ⟨m', heq, hinv, _⟩ := pushFront_spec value hi
    exact ⟨m', heq, hinv⟩
  · exact fun m c u x hi => popBack_spec hi
  · exact fun m c w x hi => popFront_spec hi
  · intro m c l hi
    obtain ⟨he, hinv⟩ := clearOp_spec hi
    rw [he]
    exact hinv
  · intro m c l hi
    obtain ⟨m', heq, hinv, _, _⟩ := sortOp_spec lt hi
    exact ⟨m', _, heq, hinv⟩
  · intro m c l hi
    obtain ⟨m', heq, hinv, _, _, _⟩ := revOp_spec hi
    exact ⟨m', _, heq, hinv⟩
  · intro m c l hi
    obtain ⟨m', heq, hinv, _, _⟩ := uniqueOp_spec beq hi
    exact ⟨m', _, _, heq, rfl, hinv⟩
  · intro m c1 c2 l1 l2 hi hne
    obtain ⟨m', heq, hinv, _, _⟩ := mergeOp_inv lt hi hne
    exact ⟨m', _, heq, hinv⟩

theorem C4_witness :
    ContInv mergeDemoA.1 mergeDemoA.2 [1, 2] ∧
    ((∀ x ∈ mergeDemoA.2.s :: [1, 2],
        mergeDemoA.1.nxt (mergeDemoA.1.prv x) = x ∧
        mergeDemoA.1.prv (mergeDemoA.1.nxt x) = x) ∧
      mergeDemoA.2.n = (ringIds mergeDemoA.1 mergeDemoA.2).length ∧
      (mergeDemoA.2.n = 0 ↔ ([1, 2] : List Nat) = [])) ∧
    (∃ m' c' l', copyCont mergeDemoA.1 mergeDemoA.2 = (m', c') ∧
      ContInv2 m' c' mergeDemoA.2 l' [1, 2]) :=
  ⟨by decide,
   (C4_ring_count_invariant (fun a b : Bool => !a && b)
     (fun a b : Bool => a == b) true).1 mergeDemoA.1 mergeDemoA.2 [1, 2]
     (by decide),
   (C4_ring_count_invariant (fun a b : Bool => !a && b)
     (fun a b : Bool => a == b) true).2.2.1 mergeDemoA.1 mergeDemoA.2 [1, 2]
     (by decide)⟩

/-- C5: the `erase(pos)` contract.  On an empty container every call
fails with `EmptyContainer` (this check precedes and is independent of
the iterator checks, so even a foreign, null, or end iterator gets
`EmptyContainer`); on a non-empty container a foreign-owned, ownerless,
null, or end iterator fails with `InvalidIterator`; and for a live data
node the node is unlinked, the count drops by one, and an iterator to
the following node is returned, with the invariant preserved. -/
theorem C5_erase_contract {m : Mem α} {c : Cont} {l : List Nat} (hi : ContInv m c l)
    (pos : Iter) :
    (l = [] → eraseIt m c pos = .error .containerIsEmpty) ∧
    (l ≠ [] → (pos.owner ≠ some c.s ∨ pos.p = none ∨ pos.p = some c.s) →
      eraseIt m c pos = .error .invalidIterator) ∧
    (∀ u x w, l = u ++ x :: w →
      eraseIt m c ⟨some c.s, some x⟩ =
          .ok (⟨some c.s, some (w.headD c.s)⟩, eraseNode m x, { c with n := c.n - 1 }) ∧
        ContInv (eraseNode m x) { c with n := c.n - 1 } (u ++ w)) := by
  refine ⟨?_, ?_, ?_⟩
  · intro hl
    have h0 : c.n = 0 := by rw [hi.2.1, hl]; rfl
    simp [eraseIt, h0]
  · intro hl hcase
    have hne : c.n ≠ 0 := by
      rw [hi.2.1]; exact fun h => hl (List.length_eq_zero.mp h)
    obtain ⟨ow, pp⟩ := pos
    rcases hcase with h | h | h
    · cases ow with
      | none => simp [eraseIt, hne]
      | some o =>
          cases pp with
          | none => simp [eraseIt, hne]
          | some q =>
              have : o ≠ c.s := fun he => h (by simp [he])
              simp [eraseIt, hne, this]
    · simp only at h
      subst h
      cases ow <;> simp [eraseIt, hne]
    · simp only at h
      subst h
      cases ow with
      | none => simp [eraseIt, hne]
      | some o =>
          by_cases ho : o = c.s <;> simp [eraseIt, hne, ho]
  · intro u x w hdec
    subst hdec
    exact eraseIt_spec hi

/-- Witness for C5 on the container `[10, 20, 30]` (nodes 1, 2, 3,
sentinel 0): erasing node 2 returns an iterator to node 3. -/
theorem C5_witness :
    ContInv (mkList [10, 20, 30] (memEmpty Nat)).1 (mkList [10, 20, 30] (memEmpty Nat)).2
      [1, 2, 3] ∧
    (([1, 2, 3] : List Nat) ≠ [] →
      ((⟨some 9, some 2⟩ : Iter).owner ≠ some (mkList [10, 20, 30] (memEmpty Nat)).2.s ∨
        (⟨some 9, some 2⟩ : Iter).p = none ∨
        (⟨some 9, some 2⟩ : Iter).p = some (mkList [10, 20, 30] (memEmpty Nat)).2.s) →
      eraseIt (mkList [10, 20, 30] (memEmpty Nat)).1 (mkList [10, 20, 30] (memEmpty Nat)).2
        ⟨some 9, some 2⟩ = .error .invalidIterator) ∧
    eraseIt (mkList [10, 20, 30] (memEmpty Nat)).1 (mkList [10, 20, 30] (memEmpty Nat)).2
        ⟨some 0, some 2⟩ =
      .ok (⟨some 0, some 3⟩,
        eraseNode (mkList [10, 20, 30] (memEmpty Nat)).1 2,
        { (mkList [10, 20, 30] (memEmpty Nat)).2 with n := 2 }) := by
  have hi : ContInv (mkList [10, 20, 30] (memEmpty Nat)).1
      (mkList [10, 20, 30] (memEmpty Nat)).2 [1, 2, 3] := by decide
  refine ⟨hi, (C5_erase_contract hi ⟨some 9, some 2⟩).2.1, ?_⟩
  have h := ((C5_erase_contract hi ⟨some 0, some 2⟩).2.2 [1] 2 [3] rfl).1
  exact h

/-- C7: incrementing (prefix or postfix) or dereferencing an iterator or
const-iterator denoting the end position fails with `InvalidIterator`;
decrementing it fails with `InvalidIterator` exactly when the container
is empty, and on a non-empty container succeeds and denotes the last
data node. -/
theorem C7_end_iterator_ops {m : Mem α} {c : Cont} {l : List Nat}
    (hi : ContInv m c l) :
    itIncr m (endIt c) = .error .invalidIterator ∧
    itIncrPost m (endIt c) = .error .invalidIterator ∧
    citIncr m (endIt c) = .error .invalidIterator ∧
    citIncrPost m (endIt c) = .error .invalidIterator ∧
    itDeref m (endIt c) = .error .invalidIterator ∧
    citDeref m (endIt c) = .error .invalidIterator ∧
    (l = [] →
      itDecr m c.n (endIt c) = .error .invalidIterator ∧
      citDecr m c.n (endIt c) = .error .invalidIterator ∧
      itDecrPost m c.n (endIt c) = .error .invalidIterator ∧
      citDecrPost m c.n (endIt c) = .error .invalidIterator) ∧
    (l ≠ [] →
      itDecr m c.n (endIt c) = .ok ⟨some c.s, some (l.getLastD c.s)⟩ ∧
      citDecr m c.n (endIt c) = .ok ⟨some c.s, some (l.getLastD c.s)⟩ ∧
      itDecrPost m c.n (endIt c) = .ok (endIt c, ⟨some c.s, some (l.getLastD c.s)⟩) ∧
      citDecrPost m c.n (endIt c) = .ok (endIt c, ⟨some c.s, some (l.getLastD c.s)⟩)) := by
  have hprv : m.prv c.s = l.getLastD c.s := (ring_sentinel hi.1).2.2
  have hcnt := hi.2.1
  refine ⟨by simp [itIncr, endIt], by simp [itIncrPost, endIt], by simp [citIncr, endIt],
    by simp [citIncrPost, endIt], by simp [itDeref, endIt], by simp [citDeref, endIt], ?_, ?_⟩
  · intro hl
    subst hl
    simp only [List.length_nil] at hcnt
    simp [itDecr, citDecr, itDecrPost, citDecrPost, endIt, hcnt]
  · intro hl
    have hne : c.n ≠ 0 := by
      rw [hcnt]; exact fun h => hl (List.length_eq_zero.mp h)
    simp [itDecr, citDecr, itDecrPost, citDecrPost, endIt, hne, hprv]

/-- Witness for C7 on `[10, 20]` (nodes 1, 2, sentinel 0) and on the
empty container (sentinel 0). -/
theorem C7_witness :
    ContInv (mkList [10, 20] (memEmpty Nat)).1 (mkList [10, 20] (memEmpty Nat)).2 [1, 2] ∧
    itIncr (mkList [10, 20] (memEmpty Nat)).1 (endIt (mkList [10, 20] (memEmpty Nat)).2) =
      .error .invalidIterator ∧
    (([1, 2] : List Nat) ≠ [] →
      itDecr (mkList [10, 20] (memEmpty Nat)).1 (mkList [10, 20] (memEmpty Nat)).2.n
          (endIt (mkList [10, 20] (memEmpty Nat)).2) =
        .ok ⟨some (mkList [10, 20] (memEmpty Nat)).2.s,
             some (([1, 2] : List Nat).getLastD (mkList [10, 20] (memEmpty Nat)).2.s)⟩) ∧
    ContInv (mkCont (memEmpty Nat)).1 (mkCont (memEmpty Nat)).2 [] ∧
    itDecr (mkCont (memEmpty Nat)).1 (mkCont (memEmpty Nat)).2.n
        (endIt (mkCont (memEmpty Nat)).2) = .error .invalidIterator := by
  have hi : ContInv (mkList [10, 20] (memEmpty Nat)).1
      (mkList [10, 20] (memEmpty Nat)).2 [1, 2] := by decide
  have hi0 : ContInv (mkCont (memEmpty Nat)).1 (mkCont (memEmpty Nat)).2 [] := by decide
  refine ⟨hi, (C7_end_iterator_ops hi).1, fun h => ((C7_end_iterator_ops hi).2.2.2.2.2.2.2 h).1,
    hi0, ((C7_end_iterator_ops hi0).2.2.2.2.2.2.1 rfl).1⟩

/-- C10: on a non-empty container, prefix and postfix decrement of an
iterator or const-iterator denoting the first data node raise no error
and move it to the sentinel, i.e. to the end iterator. -/
theorem C10_decrement_at_begin {m : Mem α} {c : Cont} {x : Nat} {w : List Nat}
    (hi : ContInv m c (x :: w)) :
    beginIt m c = ⟨some c.s, some x⟩ ∧
    itDecr m c.n (beginIt m c) = .ok (endIt c) ∧
    citDecr m c.n (beginIt m c) = .ok (endIt c) ∧
    itDecrPost m c.n (beginIt m c) = .ok (beginIt m c, endIt c) ∧
    citDecrPost m c.n (beginIt m c) = .ok (beginIt m c, endIt c) := by
  have hfirst : m.nxt c.s = x := by
    have := (ring_sentinel hi.1).1.1
    simpa using this
  have hxs : x ≠ c.s := fun h => sentinel_not_mem hi (h ▸ List.mem_cons_self x w)
  have hprvx : m.prv x = c.s := by
    have := (ring_adj (u := []) (w := w) (x := x) hi.1).1.2
    simpa using this
  refine ⟨by simp [beginIt, hfirst], ?_, ?_, ?_, ?_⟩ <;>
    simp [itDecr, citDecr, itDecrPost, citDecrPost, beginIt, endIt, hfirst, hxs, hprvx]

/-- Witness for C10 on `[10, 20]` (nodes 1, 2, sentinel 0). -/
theorem C10_witness :
    ContInv (mkList [10, 20] (memEmpty Nat)).1 (mkList [10, 20] (memEmpty Nat)).2 (1 :: [2]) ∧
    itDecr (mkList [10, 20] (memEmpty Nat)).1 (mkList [10, 20] (memEmpty Nat)).2.n
        (beginIt (mkList [10, 20] (memEmpty Nat)).1 (mkList [10, 20] (memEmpty Nat)).2) =
      .ok (endIt (mkList [10, 20] (memEmpty Nat)).2) := by
  have hi : ContInv (mkList [10, 20] (memEmpty Nat)).1
      (mkList [10, 20] (memEmpty Nat)).2 (1 :: [2]) := by decide
  exact ⟨hi, (C10_decrement_at_begin hi).2.1⟩

/-- C1: erasing the middle node `b` of consecutive data nodes
`a, b, cc` invalidates exactly the iterators denoting `b`: every other
node of the ring (and the end position) remains a valid target denoting
the same node, and incrementing an iterator at `a` now yields `cc`
directly. -/
theorem C1_iterator_stability {m : Mem α} {c : Cont} {u w : List Nat} {a b cc : Nat}
    (hi : ContInv m c (u ++ a :: b :: cc :: w)) :
    eraseIt m c ⟨some c.s, some b⟩ =
        .ok (⟨some c.s, some cc⟩, eraseNode m b, { c with n := c.n - 1 }) ∧
    ContInv (eraseNode m b) { c with n := c.n - 1 } (u ++ a :: cc :: w) ∧
    ¬ validIt (eraseNode m b) { c with n := c.n - 1 } ⟨some c.s, some b⟩ ∧
    (∀ x ∈ u ++ a :: cc :: w,
      validIt (eraseNode m b) { c with n := c.n - 1 } ⟨some c.s, some x⟩) ∧
    validIt (eraseNode m b) { c with n := c.n - 1 } (endIt { c with n := c.n - 1 }) ∧
    itIncr (eraseNode m b) ⟨some c.s, some a⟩ = .ok ⟨some c.s, some cc⟩ := by
  have hi' : ContInv m c ((u ++ [a]) ++ b :: cc :: w) := by simpa using hi
  obtain ⟨heq, hinv⟩ := eraseIt_spec hi'
  have hinv' : ContInv (eraseNode m b) { c with n := c.n - 1 } (u ++ a :: cc :: w) := by
    simpa using hinv
  have hrid : ringIds (eraseNode m b) { c with n := c.n - 1 } = u ++ a :: cc :: w :=
    ringIds_eq hinv'
  refine ⟨by simpa using heq, hinv', ?_, ?_, ?_, ?_⟩
  · rintro ⟨-, hmem⟩
    have hbmem : b ∈ u ++ a :: b :: cc :: w :=
      List.mem_append_right u (List.mem_cons_of_mem a (List.mem_cons_self b _))
    rcases hmem with h | ⟨x, hx, hxe⟩
    · simp only [Option.some_inj] at h
      exact sentinel_not_mem hi (h ▸ hbmem)
    · simp only [Option.some_inj] at hxe
      subst hxe
      rw [hrid] at hx
      have hnd_old : (u ++ a :: b :: cc :: w).Nodup := (List.nodup_cons.mp hi.1.1).2
      have hperm : List.Perm (u ++ a :: b :: cc :: w) (b :: ((u ++ [a]) ++ cc :: w)) := by
        have he : u ++ a :: b :: cc :: w = (u ++ [a]) ++ b :: cc :: w := by simp
        rw [he]
        exact List.perm_middle
      have hbno : b ∉ (u ++ [a]) ++ cc :: w :=
        (List.nodup_cons.mp (hperm.nodup_iff.mp hnd_old)).1
      exact hbno (by simpa using hx)
  · intro x hx
    exact ⟨rfl, Or.inr ⟨x, by rw [hrid]; exact hx, rfl⟩⟩
  · exact ⟨rfl, Or.inl rfl⟩
  · have hadj : (eraseNode m b).nxt a = cc := by
      have := (ring_adj (u := u) (w := cc :: w) (x := a) hinv'.1).2.1
      simpa using this
    have has : a ≠ c.s := by
      intro h
      exact sentinel_not_mem hi
        (h ▸ List.mem_append_right u (List.mem_cons_self a _))
    simp [itIncr, has, hadj]

/-- Witness for C1 on `[10, 20, 30]` (nodes 1, 2, 3, sentinel 0),
erasing the middle node 2. -/
theorem C1_witness :
    ContInv (mkList [10, 20, 30] (memEmpty Nat)).1 (mkList [10, 20, 30] (memEmpty Nat)).2
      ([] ++ 1 :: 2 :: 3 :: []) ∧
    (¬ validIt (eraseNode (mkList [10, 20, 30] (memEmpty Nat)).1 2)
        { (mkList [10, 20, 30] (memEmpty Nat)).2 with n := 2 } ⟨some 0, some 2⟩) ∧
    itIncr (eraseNode (mkList [10, 20, 30] (memEmpty Nat)).1 2) ⟨some 0, some 1⟩ =
      .ok ⟨some 0, some 3⟩ := by
  have hi : ContInv (mkList [10, 20, 30] (memEmpty Nat)).1
      (mkList [10, 20, 30] (memEmpty Nat)).2 ([] ++ 1 :: 2 :: 3 :: []) := by decide
  have h := C1_iterator_stability hi
  exact ⟨hi, h.2.2.1, h.2.2.2.2.2⟩

/-- C6 counterexample: on the container built from `[10, 20]` (sentinel
0, nodes 1, 2), erasing node 2 and then passing the same (now stale,
same-owner) iterator to `erase` and `insert` again is NOT rejected: both
calls pass validation and return `ok`, while the claim requires
`InvalidIterator`. -/
theorem C6_counterexample :
    (eraseIt (mkList [10, 20] (memEmpty Nat)).1 (mkList [10, 20] (memEmpty Nat)).2
        ⟨some 0, some 2⟩).isOk = true ∧
    (¬ validIt (eraseNode (mkList [10, 20] (memEmpty Nat)).1 2)
        { (mkList [10, 20] (memEmpty Nat)).2 with n := 1 } ⟨some 0, some 2⟩) ∧
    (eraseIt (eraseNode (mkList [10, 20] (memEmpty Nat)).1 2)
        { (mkList [10, 20] (memEmpty Nat)).2 with n := 1 } ⟨some 0, some 2⟩).isOk = true ∧
    (insertIt (eraseNode (mkList [10, 20] (memEmpty Nat)).1 2)
        { (mkList [10, 20] (memEmpty Nat)).2 with n := 1 } ⟨some 0, some 2⟩ 99).isOk = true := by
  decide

/-- C6 amended: the source does not detect stale iterators.  Any
iterator whose owner field matches this container and whose node pointer
is non-null passes `insert`'s validation; if the node is additionally
not the sentinel and the container is non-empty it passes `erase`'s
validation too — whether or not the node is still linked in the ring. -/
theorem C6_amended_no_stale_detection {m : Mem α} {c : Cont} {x : Nat}
    (hx : x ≠ c.s) (hn : c.n ≠ 0) (v : α) :
    eraseIt m c ⟨some c.s, some x⟩ =
      .ok (⟨some c.s, some (m.nxt x)⟩, eraseNode m x, { c with n := c.n - 1 }) ∧
    insertIt m c ⟨some c.s, some x⟩ v =
      .ok (⟨some c.s, some m.fresh⟩,
        insertNode { m with val := Function.update m.val m.fresh (some v),
                            fresh := m.fresh + 1 } x m.fresh,
        { c with n := c.n + 1 }) := by
  constructor
  · simp [eraseIt, hn, hx]
  · simp [insertIt]

/-- Witness for the amended C6: the stale iterator of the counterexample
scenario passes validation. -/
theorem C6_amended_witness :
    (2 ≠ ({ (mkList [10, 20] (memEmpty Nat)).2 with n := 1 } : Cont).s) ∧
    (({ (mkList [10, 20] (memEmpty Nat)).2 with n := 1 } : Cont).n ≠ 0) ∧
    eraseIt (eraseNode (mkList [10, 20] (memEmpty Nat)).1 2)
        { (mkList [10, 20] (memEmpty Nat)).2 with n := 1 } ⟨some 0, some 2⟩ =
      .ok (⟨some 0, some ((eraseNode (mkList [10, 20] (memEmpty Nat)).1 2).nxt 2)⟩,
        eraseNode (eraseNode (mkList [10, 20] (memEmpty Nat)).1 2) 2,
        { { (mkList [10, 20] (memEmpty Nat)).2 with n := 1 } with n := 0 }) := by
  refine ⟨by decide, by decide, ?_⟩
  have h := (C6_amended_no_stale_detection
    (m := eraseNode (mkList [10, 20] (memEmpty Nat)).1 2)
    (c := { (mkList [10, 20] (memEmpty Nat)).2 with n := 1 }) (x := 2)
    (by decide) (by decide) 99).1
  simpa using h

/-- C8: `reverse()` reverses the forward value sequence in place;
applying it twice restores the original ring and value sequence, and on
a container of size at most one it is an observable no-op. -/
theorem C8_reverse [Inhabited α] {m : Mem α} {c : Cont} {l : List Nat}
    (hi : ContInv m c l) :
    ∃ m1 m2, revOp m c = (m1, c) ∧ ContInv m1 c l.reverse ∧
      valSeq m1 c = (valSeq m c).reverse ∧
      revOp m1 c = (m2, c) ∧ ContInv m2 c l ∧ valSeq m2 c = valSeq m c ∧
      (l.length ≤ 1 → valSeq m1 c = valSeq m c) := by
  obtain ⟨m1, he1, hi1, hval1, hfresh1, _⟩ := revOp_spec hi
  obtain ⟨m2, he2, hi2, hval2, hfresh2, _⟩ := revOp_spec hi1
  rw [List.reverse_reverse] at hi2
  have hg1 : getv m1 = getv (α := α) m := by
    funext x; rw [getv, getv, hval1]
  have hg2 : getv m2 = getv (α := α) m1 := by
    funext x; rw [getv, getv, hval2]
  refine ⟨m1, m2, he1, hi1, ?_, he2, hi2, ?_, ?_⟩
  · rw [valSeq_eq hi1, valSeq_eq hi, hg1, List.map_reverse]
  · rw [valSeq_eq hi2, valSeq_eq hi, hg2, hg1]
  · intro hlen
    have hrl : l.reverse = l := by
      cases l with
      | nil => rfl
      | cons a t =>
          cases t with
          | nil => rfl
          | cons b t' => simp at hlen
    rw [valSeq_eq hi1, valSeq_eq hi, hrl, hg1]

/-- Witness for C8 on `[10, 20, 30]` (nodes 1, 2, 3, sentinel 0). -/
theorem C8_witness :
    ContInv (mkList [10, 20, 30] (memEmpty Nat)).1 (mkList [10, 20, 30] (memEmpty Nat)).2
      [1, 2, 3] ∧
    (∃ m1 m2,
      revOp (mkList [10, 20, 30] (memEmpty Nat)).1 (mkList [10, 20, 30] (memEmpty Nat)).2 =
        (m1, (mkList [10, 20, 30] (memEmpty Nat)).2) ∧
      ContInv m1 (mkList [10, 20, 30] (memEmpty Nat)).2 ([1, 2, 3] : List Nat).reverse ∧
      valSeq m1 (mkList [10, 20, 30] (memEmpty Nat)).2 =
        (valSeq (mkList [10, 20, 30] (memEmpty Nat)).1
          (mkList [10, 20, 30] (memEmpty Nat)).2).reverse ∧
      revOp m1 (mkList [10, 20, 30] (memEmpty Nat)).2 =
        (m2, (mkList [10, 20, 30] (memEmpty Nat)).2) ∧
      ContInv m2 (mkList [10, 20, 30] (memEmpty Nat)).2 [1, 2, 3] ∧
      valSeq m2 (mkList [10, 20, 30] (memEmpty Nat)).2 =
        valSeq (mkList [10, 20, 30] (memEmpty Nat)).1
          (mkList [10, 20, 30] (memEmpty Nat)).2 ∧
      (([1, 2, 3] : List Nat).length ≤ 1 →
        valSeq m1 (mkList [10, 20, 30] (memEmpty Nat)).2 =
          valSeq (mkList [10, 20, 30] (memEmpty Nat)).1
            (mkList [10, 20, 30] (memEmpty Nat)).2)) :=
  ⟨by decide, C8_reverse (by decide)⟩

/-- C9: `unique()` keeps exactly the first node of each maximal run of
consecutive nodes whose values equal the run head's value under `==`,
preserving the relative order of the survivors (a sublist of the old
ring), destroying the removed nodes and decrementing the count by the
number removed; the observable value sequence becomes `uniqRefV` of the
old one, so non-consecutive duplicates are kept. -/
theorem C9_unique [Inhabited α] (beq : α → α → Bool) {m : Mem α} {c : Cont}
    {l : List Nat} (hi : ContInv m c l) :
    ∃ m', uniqueOp beq m c = (m', { c with n := (uniqRef beq (getv m) l).length }) ∧
      ContInv m' { c with n := (uniqRef beq (getv m) l).length } (uniqRef beq (getv m) l) ∧
      List.Sublist (uniqRef beq (getv m) l) l ∧
      (uniqRef beq (getv m) l).length =
        c.n - (l.length - (uniqRef beq (getv m) l).length) ∧
      valSeq m' { c with n := (uniqRef beq (getv m) l).length } =
        uniqRefV beq (valSeq m c) := by
  obtain ⟨m', heq, hinv, hval, hfresh⟩ := uniqueOp_spec beq hi
  have hg : getv m' = getv (α := α) m := by funext z; rw [getv, getv, hval]
  refine ⟨m', heq, hinv, uniqRef_sublist beq (getv m) l, ?_, ?_⟩
  · rw [hi.2.1]
    have := (uniqRef_sublist beq (getv m) l).length_le
    omega
  · rw [valSeq_eq hinv, hg, uniqRef_map, valSeq_eq hi]

/-- Witness for C9 on the spec's example `[1, 1, 2, 1, 1, 3, 3]`
(nodes 1..7, sentinel 0), whose value sequence becomes `[1, 2, 1, 3]`. -/
theorem C9_witness :
    ContInv (mkList [1, 1, 2, 1, 1, 3, 3] (memEmpty Nat)).1
      (mkList [1, 1, 2, 1, 1, 3, 3] (memEmpty Nat)).2 [1, 2, 3, 4, 5, 6, 7] ∧
    (∃ m', uniqueOp (fun a b => a == b) (mkList [1, 1, 2, 1, 1, 3, 3] (memEmpty Nat)).1
          (mkList [1, 1, 2, 1, 1, 3, 3] (memEmpty Nat)).2 =
        (m', { (mkList [1, 1, 2, 1, 1, 3, 3] (memEmpty Nat)).2 with
               n := (uniqRef (fun a b => a == b)
                 (getv (mkList [1, 1, 2, 1, 1, 3, 3] (memEmpty Nat)).1)
                 [1, 2, 3, 4, 5, 6, 7]).length }) ∧
      ContInv m' { (mkList [1, 1, 2, 1, 1, 3, 3] (memEmpty Nat)).2 with
               n := (uniqRef (fun a b => a == b)
                 (getv (mkList [1, 1, 2, 1, 1, 3, 3] (memEmpty Nat)).1)
                 [1, 2, 3, 4, 5, 6, 7]).length }
        (uniqRef (fun a b => a == b)
          (getv (mkList [1, 1, 2, 1, 1, 3, 3] (memEmpty Nat)).1) [1, 2, 3, 4, 5, 6, 7]) ∧
      List.Sublist (uniqRef (fun a b => a == b)
          (getv (mkList [1, 1, 2, 1, 1, 3, 3] (memEmpty Nat)).1) [1, 2, 3, 4, 5, 6, 7])
        [1, 2, 3, 4, 5, 6, 7] ∧
      (uniqRef (fun a b => a == b)
          (getv (mkList [1, 1, 2, 1, 1, 3, 3] (memEmpty Nat)).1)
          [1, 2, 3, 4, 5, 6, 7]).length =
        (mkList [1, 1, 2, 1, 1, 3, 3] (memEmpty Nat)).2.n -
          (([1, 2, 3, 4, 5, 6, 7] : List Nat).length -
            (uniqRef (fun a b => a == b)
              (getv (mkList [1, 1, 2, 1, 1, 3, 3] (memEmpty Nat)).1)
              [1, 2, 3, 4, 5, 6, 7]).length) ∧
      valSeq m' { (mkList [1, 1, 2, 1, 1, 3, 3] (memEmpty Nat)).2 with
               n := (uniqRef (fun a b => a == b)
                 (getv (mkList [1, 1, 2, 1, 1, 3, 3] (memEmpty Nat)).1)
                 [1, 2, 3, 4, 5, 6, 7]).length } =
        uniqRefV (fun a b => a == b)
          (valSeq (mkList [1, 1, 2, 1, 1, 3, 3] (memEmpty Nat)).1
            (mkList [1, 1, 2, 1, 1, 3, 3] (memEmpty Nat)).2)) ∧
    uniqRefV (fun a b => a == b) [1, 1, 2, 1, 1, 3, 3] = [1, 2, 1, 3] := by
  refine ⟨by decide, C9_unique (fun a b => a == b) (by decide), ?_⟩
  rw [uniqRefV]; norm_num
  rw [uniqRefV]; norm_num
  rw [uniqRefV]; norm_num
  rw [uniqRefV]; norm_num
  rw [uniqRefV]

/-- C3: `sort()` stably sorts the ring by `<`: the new ring is a
permutation of the old in non-decreasing value order; nodes with
equivalent values keep their original relative order; no values are
copied or created; the operation is a strict no-op for `n <= 1`; and a
second `sort()` leaves the ring exactly as the first left it. -/
theorem C3_sort_stable [Inhabited α] (lt : α → α → Bool) (hswo : SWO lt)
    {m : Mem α} {c : Cont} {l : List Nat} (hi : ContInv m c l) :
    ∃ m' l', sortOp lt m c = (m', c) ∧ ContInv m' c l' ∧
      List.Perm l' l ∧ m'.val = m.val ∧
      l'.Pairwise (fun i j => lt (getv m j) (getv m i) = false) ∧
      l'.Pairwise (fun i j => lt (getv m i) (getv m j) = false →
        lt (getv m j) (getv m i) = false → l.indexOf i < l.indexOf j) ∧
      (valSeq m' c).Pairwise (fun a b => lt b a = false) ∧
      (c.n ≤ 1 → sortOp lt m c = (m, c)) ∧
      (∃ m2, sortOp lt m' c = (m2, c) ∧ ContInv m2 c l' ∧ valSeq m2 c = valSeq m' c) := by
  obtain ⟨m', heq, hinv', hval, hfresh, hnoop⟩ := sortOp_spec lt hi
  have hasym : ∀ a b, lt a b = true → lt b a = false := by
    intro a b h
    cases hba : lt b a with
    | false => rfl
    | true =>
        have hx := hswo.2.1 _ _ _ h hba
        rw [hswo.1] at hx
        exact absurd hx (by simp)
  have hnd : l.Nodup := (List.nodup_cons.mp hi.1.1).2
  have hrank := pairwise_indexOf_lt hnd
  have hC := rankRel_pairwise_C lt (getv m) l.indexOf hrank
  have htrans := rankRel_trans hswo (getv m) l.indexOf
  obtain ⟨hpwR, hperm⟩ :=
    buSort_sorted_perm htrans (fun i j => !(lt (getv m j) (getv m i))) hC
  have hg' : getv m' = getv (α := α) m := by funext z; rw [getv, getv, hval]
  refine ⟨m', buSort (fun i j => !(lt (getv m j) (getv m i))) l, heq, hinv', hperm, hval,
    ?_, ?_, ?_, hnoop, ?_⟩
  · refine hpwR.imp ?_
    rintro a b (h | ⟨h, h', _⟩)
    · exact hasym _ _ h
    · exact h'
  · refine hpwR.imp ?_
    rintro a b (h | ⟨h, h', hidx⟩)
    · intro hfalse _
      rw [h] at hfalse
      exact absurd hfalse (by simp)
    · intro _ _
      exact hidx
  · rw [valSeq_eq hinv', hg', List.pairwise_map]
    refine hpwR.imp ?_
    rintro a b (h | ⟨h, h', _⟩)
    · exact hasym _ _ h
    · exact h'
  · obtain ⟨m2, heq2, hinv2, hval2, hfresh2, _⟩ := sortOp_spec lt hinv'
    rw [hg'] at hinv2
    have hidem : buSort (fun i j => !(lt (getv m j) (getv m i)))
        (buSort (fun i j => !(lt (getv m j) (getv m i))) l) =
        buSort (fun i j => !(lt (getv m j) (getv m i))) l := by
      set l' := buSort (fun i j => !(lt (getv m j) (getv m i))) l with hl'
      have hnd' : l'.Nodup := (List.nodup_cons.mp hinv'.1.1).2
      have hrank' := pairwise_indexOf_lt hnd'
      have hC' := rankRel_pairwise_C lt (getv m) l'.indexOf hrank'
      have htrans' := rankRel_trans hswo (getv m) l'.indexOf
      obtain ⟨hpwR2, hperm2⟩ :=
        buSort_sorted_perm htrans' (fun i j => !(lt (getv m j) (getv m i))) hC'
      have hl'sorted : l'.Pairwise (fun i j => lt (getv m i) (getv m j) = true ∨
          (lt (getv m i) (getv m j) = false ∧ lt (getv m j) (getv m i) = false ∧
            l'.indexOf i < l'.indexOf j)) := by
        refine (hpwR.and hrank').imp ?_
        rintro a b ⟨hR, hidx⟩
        rcases hR with h | ⟨h, h', _⟩
        · exact Or.inl h
        · exact Or.inr ⟨h, h', hidx⟩
      haveI hA : IsAntisymm Nat (fun i j => lt (getv m i) (getv m j) = true ∨
          (lt (getv m i) (getv m j) = false ∧ lt (getv m j) (getv m i) = false ∧
            l'.indexOf i < l'.indexOf j)) :=
        ⟨rankRel_antisymm hswo (getv m) l'.indexOf⟩
      exact List.eq_of_perm_of_sorted hperm2 hpwR2 hl'sorted
    rw [hidem] at hinv2
    have hg2 : getv m2 = getv (α := α) m' := by funext z; rw [getv, getv, hval2]
    refine ⟨m2, heq2, hinv2, ?_⟩
    rw [valSeq_eq hinv2, valSeq_eq hinv', hg2]

/-- Witness for C3 with `α := Bool` ordered by `false < true`, on the
values `[true, false, true]` (nodes 1, 2, 3, sentinel 0). -/
theorem C3_witness :
    SWO (fun a b : Bool => !a && b) ∧
    ContInv (mkList [true, false, true] (memEmpty Bool)).1
      (mkList [true, false, true] (memEmpty Bool)).2 [1, 2, 3] ∧
    (∃ m' l', sortOp (fun a b : Bool => !a && b)
        (mkList [true, false, true] (memEmpty Bool)).1
        (mkList [true, false, true] (memEmpty Bool)).2 =
          (m', (mkList [true, false, true] (memEmpty Bool)).2) ∧
      ContInv m' (mkList [true, false, true] (memEmpty Bool)).2 l' ∧
      List.Perm l' [1, 2, 3] ∧
      m'.val = (mkList [true, false, true] (memEmpty Bool)).1.val ∧
      l'.Pairwise (fun i j =>
        (fun a b : Bool => !a && b) (getv (mkList [true, false, true] (memEmpty Bool)).1 j)
          (getv (mkList [true, false, true] (memEmpty Bool)).1 i) = false) ∧
      l'.Pairwise (fun i j =>
        (fun a b : Bool => !a && b) (getv (mkList [true, false, true] (memEmpty Bool)).1 i)
          (getv (mkList [true, false, true] (memEmpty Bool)).1 j) = false →
        (fun a b : Bool => !a && b) (getv (mkList [true, false, true] (memEmpty Bool)).1 j)
          (getv (mkList [true, false, true] (memEmpty Bool)).1 i) = false →
        ([1, 2, 3] : List Nat).indexOf i < ([1, 2, 3] : List Nat).indexOf j) ∧
      (valSeq m' (mkList [true, false, true] (memEmpty Bool)).2).Pairwise
        (fun a b => (fun a b : Bool => !a && b) b a = false) ∧
      ((mkList [true, false, true] (memEmpty Bool)).2.n ≤ 1 →
        sortOp (fun a b : Bool => !a && b)
          (mkList [true, false, true] (memEmpty Bool)).1
          (mkList [true, false, true] (memEmpty Bool)).2 =
        ((mkList [true, false, true] (memEmpty Bool)).1,
         (mkList [true, false, true] (memEmpty Bool)).2)) ∧
      (∃ m2, sortOp (fun a b : Bool => !a && b) m'
          (mkList [true, false, true] (memEmpty Bool)).2 =
            (m2, (mkList [true, false, true] (memEmpty Bool)).2) ∧
        ContInv m2 (mkList [true, false, true] (memEmpty Bool)).2 l' ∧
        valSeq m2 (mkList [true, false, true] (memEmpty Bool)).2 =
          valSeq m' (mkList [true, false, true] (memEmpty Bool)).2)) :=
  ⟨⟨by decide, by decide, by decide⟩, by decide,
   C3_sort_stable (fun a b : Bool => !a && b) ⟨by decide, by decide, by decide⟩ (by decide)⟩

end LV
